import Mathlib

/-!
Shallow embedding of `git-code-golf.py`.

Paths are modelled as lists of segments relative to the output root
(the Python code manipulates strings joined with `/`; `os.path.join dir name`
becomes `dir ++ [name]`, and the output root itself is `[]`).  The on-disk
state under the output root is a finite tree; `Option FSTree` is used where
the root itself may be absent.  Python exceptions are modelled with
`Except PyError`.
-/

namespace GitCodeGolf

/-- Decidable equality for `Except` results, used to evaluate runs of the
embedded functions on concrete inputs. -/
instance {ε α : Type} [DecidableEq ε] [DecidableEq α] : DecidableEq (Except ε α) := fun x y =>
  match x, y with
  | .ok a, .ok b =>
    if h : a = b then .isTrue (by rw [h]) else .isFalse (by intro hc; cases hc; exact h rfl)
  | .error a, .error b =>
    if h : a = b then .isTrue (by rw [h]) else .isFalse (by intro hc; cases hc; exact h rfl)
  | .ok _, .error _ => .isFalse (by intro hc; cases hc)
  | .error _, .ok _ => .isFalse (by intro hc; cases hc)

/-- The distinct exceptions the Python code can raise or encounter. -/
inductive PyError where
  /-- `os.listdir` applied to a path that exists but is a regular file. -/
  | notADirectory (path : List String) : PyError
  /-- `raise Exception(f"... exists and is not a directory")` in `walk_recursive`. -/
  | existsNotDirectory (path : List String) : PyError
  /-- `raise Exception(f"... exists and is not a file")` in `walk_recursive`. -/
  | existsNotFile (path : List String) : PyError
  /-- `assert len(files_data) == 1` failing in `walk_recursive`. -/
  | assertionError : PyError
  /-- `LANGUAGE_NAMES_EXTENSIONS[language_code]` with an unknown key. -/
  | keyError (key : String) : PyError
  /-- A filesystem operation on a missing path (`FileNotFoundError`). -/
  | fileNotFound (path : List String) : PyError
  /-- `os.mkdir` on an existing path (`FileExistsError`). -/
  | fileExists (path : List String) : PyError
  /-- `open(path, "w")` on a directory (`IsADirectoryError`). -/
  | isADirectory (path : List String) : PyError
  /-- Recursion bound exhausted; never happens for the bound chosen by
  `compute_changes` (the bound exceeds the depth of every target path). -/
  | fuelExhausted : PyError
  deriving DecidableEq, Repr

/-- A node of the on-disk tree: a regular file with text content, or a
directory with named entries (names are unique on a real filesystem). -/
inductive FSTree where
  | file (content : String) : FSTree
  | dir (entries : List (String × FSTree)) : FSTree

/-- Resolve a path (list of segments) in the tree; `none` when nothing exists
there.  The `Option FSTree` argument is the (possibly absent) root. -/
def findFS : Option FSTree → List String → Option FSTree
  | fs, [] => fs
  | some (FSTree.dir es), n :: rest => findFS (List.lookup n es) rest
  | _, _ :: _ => none

/-- `os.path.exists`. -/
def existsFS (fs : Option FSTree) (p : List String) : Bool :=
  (findFS fs p).isSome

/-- `os.path.isfile`. -/
def isFileFS (fs : Option FSTree) (p : List String) : Bool :=
  match findFS fs p with
  | some (FSTree.file _) => true
  | _ => false

/-- `os.path.isdir`. -/
def isDirFS (fs : Option FSTree) (p : List String) : Bool :=
  match findFS fs p with
  | some (FSTree.dir _) => true
  | _ => false

/-- Content of the regular file at `p`, when there is one. -/
def fileContentFS (fs : Option FSTree) (p : List String) : Option String :=
  match findFS fs p with
  | some (FSTree.file c) => some c
  | _ => none

/-- The observable kind of a path: absent, a file with its content, or a
directory (`some (some c)` file, `some none` directory, `none` absent).
Used to state which queries a filesystem mutation preserves. -/
def nodeKind : Option FSTree → Option (Option String)
  | none => none
  | some (FSTree.file c) => some (some c)
  | some (FSTree.dir _) => some none

/-- `os.listdir`: the entry names of the directory at `p`; raises
`NotADirectoryError` on a regular file and `FileNotFoundError` on a missing
path, as in Python. -/
def listdirFS (fs : Option FSTree) (p : List String) : Except PyError (List String) :=
  match findFS fs p with
  | some (FSTree.dir es) => .ok (es.map Prod.fst)
  | some (FSTree.file _) => .error (.notADirectory p)
  | none => .error (.fileNotFound p)

/-- `open(p, "r").read()`. -/
def readFileFS (fs : Option FSTree) (p : List String) : Except PyError String :=
  match findFS fs p with
  | some (FSTree.file c) => .ok c
  | some (FSTree.dir _) => .error (.isADirectory p)
  | none => .error (.fileNotFound p)

/-! ### String ordering and Python `str.split` -/

/-- Lexicographic comparison of character lists by code point, matching
Python's `<=` on strings (used through `sorted`). -/
def charListLe : List Char → List Char → Bool
  | [], _ => true
  | _ :: _, [] => false
  | a :: as, b :: bs => if a = b then charListLe as bs else decide (a < b)

/-- Python string `<=`. -/
def strLe (a b : String) : Bool := charListLe a.data b.data

/-- `sorted` on a list of strings (by code points, as in Python). -/
def sortStrings (l : List String) : List String :=
  l.insertionSort (fun a b => strLe a b = true)

/-- `sorted(set(l))`: deduplicate, then sort. -/
def sortedSet (l : List String) : List String :=
  sortStrings l.dedup

/-- Splitting a character list on a separator character, with Python
`str.split` semantics (`"".split` gives `[""]`, separators at the ends give
empty pieces). -/
def splitOnCharAux (c : Char) : List Char → List (List Char)
  | [] => [[]]
  | x :: xs =>
    let r := splitOnCharAux c xs
    if x = c then [] :: r
    else
      match r with
      | h :: t => (x :: h) :: t
      | [] => [[x]]

/-- Python `s.split("/")`. -/
def pySplitSlash (s : String) : List String :=
  (splitOnCharAux '/' s.data).map (fun l => String.mk l)

/-! ### Fixed tables (lines 16–71 of the source) -/

/-- `LANGUAGE_NAMES_EXTENSIONS`: language identifier to (display name, file
extension). -/
def LANGUAGE_NAMES_EXTENSIONS : List (String × String × String) :=
  [("fish", "><>", "fish"),
   ("assembly", "Assembly", "asm"),
   ("awk", "AWK", "awk"),
   ("bash", "Bash", "sh"),
   ("basic", "BASIC", "bas"),
   ("Berry", "Berry", "brr"),
   ("brainfuck", "Brainfuck", "bf"),
   ("c", "C", "c"),
   ("c-sharp", "C#", "cs"),
   ("cpp", "C++", "cpp"),
   ("cobol", "COBOL", "cob"),
   ("crystal", "Crystal", "cr"),
   ("d", "D", "d"),
   ("dart", "Dart", "dart"),
   ("elixir", "Elixir", "ex"),
   ("f-sharp", "F#", "fs"),
   ("factor", "Factor", "factor"),
   ("forth", "Forth", "fth"),
   ("fortran", "Fortran", "f"),
   ("go", "Go", "go"),
   ("golfscript", "GolfScript", "gs"),
   ("haskell", "Haskell", "hs"),
   ("hexagony", "Hexagony", "hxg"),
   ("j", "J", "ijs"),
   ("janet", "Janet", "janet"),
   ("java", "Java", "java"),
   ("javascript", "JavaScript", "js"),
   ("julia", "Julia", "jl"),
   ("k", "K", "k"),
   ("lisp", "Lisp", "lsp"),
   ("lua", "Lua", "lua"),
   ("nim", "Nim", "nim"),
   ("ocaml", "OCaml", "ml"),
   ("pascal", "Pascal", "pas"),
   ("perl", "Perl", "pl"),
   ("php", "PHP", "php"),
   ("powershell", "PowerShell", "ps1"),
   ("prolog", "Prolog", "pl"),
   ("python", "Python", "py"),
   ("r", "R", "r"),
   ("raku", "Raku", "raku"),
   ("ruby", "Ruby", "rb"),
   ("rust", "Rust", "rs"),
   ("sed", "sed", "sed"),
   ("sql", "SQL", "sql"),
   ("swift", "Swift", "swift"),
   ("tcl", "Tcl", "tcl"),
   ("tex", "TeX", "tex"),
   ("v", "V", "v"),
   ("viml", "VimL", "vim"),
   ("wren", "Wren", "wren"),
   ("zig", "Zig", "zig")]

/-- `DEFAULT_IGNORE_LIST`. -/
def DEFAULT_IGNORE_LIST : List String :=
  [".git", ".gitignore", ".github", "README.md", "LICENSE"]

/-- `class FileStructure(Enum)`. -/
inductive FileStructure where
  | LANGUAGE_HOLE_EXTENSION : FileStructure
  | HOLE_LANGUAGE_EXTENSION : FileStructure
  | HOLE_SOLUTION_EXTENSION : FileStructure
  | HOLE_EXTENSION : FileStructure
  deriving DecidableEq, Repr

/-! ### Path layout resolver (`get_solution_path`, lines 103–115) -/

/-- `f"-{category}" if category else ""`: Python truthiness makes both `None`
and the empty string produce no suffix. -/
def category_suffix : Option String → String
  | none => ""
  | some c => if c.isEmpty then "" else "-" ++ c

/-- `get_solution_path`.  Looking up an unknown language raises `KeyError`. -/
def get_solution_path (file_structure : FileStructure) (hole_code language_code : String)
    (category : Option String) : Except PyError String :=
  match List.lookup language_code (LANGUAGE_NAMES_EXTENSIONS.map (fun t => (t.1, t.2))) with
  | none => .error (.keyError language_code)
  | some (_, extension) =>
    let suffix := category_suffix category
    match file_structure with
    | .LANGUAGE_HOLE_EXTENSION => .ok (language_code ++ "/" ++ hole_code ++ suffix ++ "." ++ extension)
    | .HOLE_LANGUAGE_EXTENSION => .ok (hole_code ++ "/" ++ language_code ++ suffix ++ "." ++ extension)
    | .HOLE_SOLUTION_EXTENSION => .ok (hole_code ++ "/" ++ "solution" ++ suffix ++ "." ++ extension)
    | .HOLE_EXTENSION => .ok (hole_code ++ suffix ++ "." ++ extension)

/-! ### State aggregator (`compute_final_state`, lines 134–159) -/

/-- One record of `data["solutions"]`: `{hole, lang, scoring, submitted, code}`.
`submitted` is the timestamp string; Python compares such JSON strings with
`<=`, i.e. lexicographically by code point. -/
structure Solution where
  hole : String
  lang : String
  scoring : String
  submitted : String
  code : String
  deriving DecidableEq, Repr

/-- Value stored in the target mapping: `{"content": code, "date": date}`. -/
structure StateEntry where
  content : String
  date : String
  deriving DecidableEq, Repr

/-- One iteration of the first loop of `compute_final_state`: add
`sol.code` to the set `codes_per_solution[(hole, lang)]`.  The set is
modelled as a duplicate-free list (insertion keeps the first occurrence). -/
def cps_step (acc : List ((String × String) × List String)) (sol : Solution) :
    List ((String × String) × List String) :=
  match List.lookup (sol.hole, sol.lang) acc with
  | none => acc ++ [((sol.hole, sol.lang), [sol.code])]
  | some codes =>
    if sol.code ∈ codes then acc
    else acc.map (fun kv => if kv.1 = (sol.hole, sol.lang) then (kv.1, kv.2 ++ [sol.code]) else kv)

/-- The first loop of `compute_final_state`: the distinct code strings per
`(hole, lang)` key. -/
def codes_per_solution (solutions : List Solution) : List ((String × String) × List String) :=
  solutions.foldl cps_step []

/-- The distinct-code set for a key (empty when the key was never seen). -/
def codesFor (solutions : List Solution) (key : String × String) : List String :=
  (List.lookup key (codes_per_solution solutions)).getD []

/-- Python truthiness of the `only_category` value (`not only_category` is
true for `None` and for the empty string). -/
def truthyOpt : Option String → Bool
  | none => false
  | some s => !s.isEmpty

/-- The category argument passed to the resolver (line 155):
`None if collapse_same_categories and unique and not only_category else category`. -/
def effective_category (collapse_same_categories : Bool) (only_category : Option String)
    (unique : Bool) (category : String) : Option String :=
  if collapse_same_categories && unique && !truthyOpt only_category then none
  else some category

/-- Python `dict` assignment `state[path] = e`: replace in place when the key
exists (keeping its position), otherwise append. -/
def dictInsert (st : List (String × StateEntry)) (path : String) (e : StateEntry) :
    List (String × StateEntry) :=
  if (List.lookup path st).isSome then
    st.map (fun kv => if kv.1 = path then (kv.1, e) else kv)
  else st ++ [(path, e)]

/-- The body of the second loop of `compute_final_state` for one record. -/
def state_step (file_structure : FileStructure) (only_category : Option String)
    (collapse_same_categories : Bool) (solutions : List Solution)
    (st : List (String × StateEntry)) (sol : Solution) :
    Except PyError (List (String × StateEntry)) :=
  let unique := (codesFor solutions (sol.hole, sol.lang)).length == 1
  if only_category ≠ none ∧ only_category ≠ some sol.scoring then .ok st
  else do
    let path ← get_solution_path file_structure sol.hole sol.lang
      (effective_category collapse_same_categories only_category unique sol.scoring)
    match List.lookup path st with
    | some old => if strLe sol.submitted old.date then .ok st
                  else .ok (dictInsert st path ⟨sol.code, sol.submitted⟩)
    | none => .ok (dictInsert st path ⟨sol.code, sol.submitted⟩)

/-- `compute_final_state` (without the trivial `data["solutions"]` unwrap):
the returned association list preserves Python dict insertion order. -/
def compute_final_state (file_structure : FileStructure) (only_category : Option String)
    (collapse_same_categories : Bool) (solutions : List Solution) :
    Except PyError (List (String × StateEntry)) :=
  solutions.foldlM (state_step file_structure only_category collapse_same_categories solutions) []

/-! ### Tree reconciler (`compute_changes`, lines 162–224) -/

/-- An element of the `children` lists handed around by `walk_recursive`:
`{"parts": ..., "content": ...}`. -/
structure Child where
  parts : List String
  content : String
  deriving DecidableEq, Repr

/-- An element of `files_to_create` / `files_to_update`:
`{"path": ..., "content": ...}`. -/
structure Entry where
  path : List String
  content : String
  deriving DecidableEq, Repr

/-- The four lists built by `compute_changes` (field order follows their
initialisation, lines 163–166). -/
structure Changeset where
  to_delete : List (List String)
  files_to_update : List Entry
  files_to_create : List Entry
  directories_to_create : List (List String)
  deriving DecidableEq, Repr

/-- The state of the four lists before anything was appended. -/
def Changeset.empty : Changeset := ⟨[], [], [], []⟩

/-- Componentwise concatenation; appending to the shared mutable lists in
temporal order is modelled by concatenating contributions in that order. -/
def Changeset.append (a b : Changeset) : Changeset :=
  ⟨a.to_delete ++ b.to_delete, a.files_to_update ++ b.files_to_update,
   a.files_to_create ++ b.files_to_create,
   a.directories_to_create ++ b.directories_to_create⟩

instance : Append Changeset := ⟨Changeset.append⟩

/-- Every path mentioned anywhere in a changeset. -/
def Changeset.allPaths (c : Changeset) : List (List String) :=
  c.to_delete ++ c.files_to_update.map Entry.path ++ c.files_to_create.map Entry.path ++
    c.directories_to_create

/-- `child["parts"][0]`.  The walk only ever passes children with non-empty
`parts` (every path splits into at least one segment, and only groups whose
lists all have length `> 1` are advanced), so the default is never consulted
where Python would raise `IndexError`. -/
def childHead (c : Child) : String := c.parts.headD ""

/-- Handling of one name from `all_files` in the main loop of
`walk_recursive` (lines 181–218): the contribution to the four lists,
together with the `(name, needed[name])` pairs pushed onto `explore`. -/
def processName (fs : Option FSTree) (should_delete : Bool)
    (current_directory : List String) (children : List Child) (file : String) :
    Except PyError (Changeset × List (String × List Child)) :=
  let file_path := current_directory ++ [file]
  let exists_ := existsFS fs file_path
  let file_exists := isFileFS fs file_path
  let directory_exists := isDirFS fs file_path
  let files_data := children.filter (fun c => childHead c = file)
  if files_data ≠ [] then
    let is_directory := files_data.all (fun c => 1 < c.parts.length)
    if is_directory then
      if !exists_ then .ok (⟨[], [], [], [file_path]⟩, [(file, files_data)])
      else if !directory_exists then
        if !should_delete then .error (.existsNotDirectory file_path)
        else .ok (⟨[file_path], [], [], [file_path]⟩, [(file, files_data)])
      else .ok (Changeset.empty, [(file, files_data)])
    else
      if files_data.length ≠ 1 then .error .assertionError
      else
        let content := (files_data.headD ⟨[], ""⟩).content
        let entry : Entry := ⟨file_path, content⟩
        if !exists_ then .ok (⟨[], [], [entry], []⟩, [])
        else if file_exists then do
          let current_content ← readFileFS fs file_path
          if current_content ≠ content then .ok (⟨[], [entry], [], []⟩, [])
          else .ok (Changeset.empty, [])
        else
          if !should_delete then .error (.existsNotFile file_path)
          else .ok (⟨[file_path], [], [entry], []⟩, [])
  else
    if should_delete && !(DEFAULT_IGNORE_LIST.contains file) then
      .ok (⟨[file_path], [], [], []⟩, [])
    else .ok (Changeset.empty, [])

/-- The first `for file in all_files` loop of `walk_recursive`, concatenating
the per-name contributions in iteration order. -/
def processLevel (fs : Option FSTree) (should_delete : Bool)
    (current_directory : List String) (children : List Child) :
    List String → Except PyError (Changeset × List (String × List Child))
  | [] => .ok (Changeset.empty, [])
  | file :: rest => do
    let (d, e) ← processName fs should_delete current_directory children file
    let (ds, es) ← processLevel fs should_delete current_directory children rest
    .ok (d ++ ds, e ++ es)

/-- The trailing `for file in explore` loop of `walk_recursive`: `w` is the
recursive walk one level deeper, `acc` holds the contents of the four shared
lists accumulated so far, and each child is entered with its `parts` list
advanced by one segment. -/
def walk_children (w : List String → List Child → Except PyError Changeset) :
    List String → List (String × List Child) → Changeset → Except PyError Changeset
  | _, [], acc => .ok acc
  | current_directory, g :: rest, acc =>
    match w (current_directory ++ [g.1])
        (g.2.map (fun c => { c with parts := c.parts.tail })) with
    | .error e => .error e
    | .ok d => walk_children w current_directory rest (acc ++ d)

/-- `walk_recursive` (lines 168–221), returning the contents of the four
shared lists contributed by this subtree.  The extra `fuel` argument bounds
the recursion depth; `compute_changes` passes a bound strictly larger than
the length of every target path, which is therefore never exhausted (the
Python recursion terminates for the same reason). -/
def walk_recursive (fs : Option FSTree) (should_delete : Bool) :
    Nat → List String → List Child → Except PyError Changeset
  | 0, _, _ => .error .fuelExhausted
  | fuel + 1, current_directory, children =>
    match (if existsFS fs current_directory then listdirFS fs current_directory
           else .ok []) with
    | .error e => .error e
    | .ok current_directory_files =>
      -- `all_files = sorted(set(current_directory_files) | set(needed.keys()))`
      match processLevel fs should_delete current_directory children
          (sortedSet (current_directory_files ++ children.map childHead)) with
      | .error e => .error e
      | .ok (level, explore) =>
        walk_children (walk_recursive fs should_delete fuel) current_directory explore level

/-- Recursion-depth bound used by `compute_changes`: strictly larger than the
length of every child's `parts` list. -/
def walkFuel (children : List Child) : Nat :=
  (children.map (fun c => c.parts.length)).sum + 1

/-- `compute_changes` (lines 162–224): the initial call passes every target
path split on `/` together with its content. -/
def compute_changes (state : List (String × StateEntry)) (should_delete : Bool)
    (fs : Option FSTree) : Except PyError Changeset :=
  walk_recursive fs should_delete
    (walkFuel (state.map (fun kv => { parts := pySplitSlash kv.1, content := kv.2.content })))
    [] (state.map (fun kv => { parts := pySplitSlash kv.1, content := kv.2.content }))

/-! ### Change applier (`update_files`, lines 227–245) -/

/-- Remove the entry at `p` from the tree (shared by `shutil.rmtree` and
`os.remove`: on a real filesystem both make the whole subtree at `p`
disappear).  The paths reaching it from a changeset are never `[]`. -/
def deleteFS : FSTree → List String → FSTree
  | t, [] => t
  | FSTree.file c, _ :: _ => FSTree.file c
  | FSTree.dir es, [n] => FSTree.dir (es.filter (fun e => e.1 ≠ n))
  | FSTree.dir es, n :: r :: rest =>
      FSTree.dir (es.map (fun e => if e.1 = n then (e.1, deleteFS e.2 (r :: rest)) else e))

/-- One iteration of the deletion loop of `update_files`: `shutil.rmtree`
when the path is a directory, otherwise `os.remove` (which raises
`FileNotFoundError` when nothing is there). -/
def removePath (fs : Option FSTree) (p : List String) : Except PyError (Option FSTree) :=
  if isDirFS fs p then .ok (fs.map (fun t => deleteFS t p))
  else match findFS fs p with
    | some (FSTree.file _) => .ok (fs.map (fun t => deleteFS t p))
    | _ => .error (.fileNotFound p)

/-- Insert a new node at `p`, whose parent must be an existing directory not
already containing an entry with that name (the callers check this). -/
def insertFS : FSTree → List String → FSTree → FSTree
  | t, [], _ => t
  | FSTree.file c, _ :: _, _ => FSTree.file c
  | FSTree.dir es, [n], new => FSTree.dir (es ++ [(n, new)])
  | FSTree.dir es, n :: r :: rest, new =>
      FSTree.dir (es.map (fun e => if e.1 = n then (e.1, insertFS e.2 (r :: rest) new) else e))

/-- Replace the existing node at `p` in place. -/
def replaceFS : FSTree → List String → FSTree → FSTree
  | _, [], new => new
  | FSTree.file c, _ :: _, _ => FSTree.file c
  | FSTree.dir es, n :: rest, new =>
      FSTree.dir (es.map (fun e => if e.1 = n then (e.1, replaceFS e.2 rest new) else e))

/-- `os.mkdir`: single-level, non-recursive; fails if the path exists or the
parent is not an existing directory. -/
def mkdirFS (fs : Option FSTree) (p : List String) : Except PyError (Option FSTree) :=
  if existsFS fs p then .error (.fileExists p)
  else match p with
    | [] => .ok (some (FSTree.dir []))
    | _ :: _ =>
      match findFS fs p.dropLast with
      | some (FSTree.dir _) => .ok (fs.map (fun t => insertFS t p (FSTree.dir [])))
      | some (FSTree.file _) => .error (.notADirectory p)
      | none => .error (.fileNotFound p)

/-- `open(p, "w")` followed by `f.write(content)`: overwrite an existing
regular file in place, or create a fresh file under an existing parent
directory. -/
def writeFileFS (fs : Option FSTree) (p : List String) (content : String) :
    Except PyError (Option FSTree) :=
  match findFS fs p with
  | some (FSTree.dir _) => .error (.isADirectory p)
  | some (FSTree.file _) => .ok (fs.map (fun t => replaceFS t p (FSTree.file content)))
  | none =>
    match p with
    | [] => .error (.fileNotFound p)
    | _ :: _ =>
      match findFS fs p.dropLast with
      | some (FSTree.dir _) => .ok (fs.map (fun t => insertFS t p (FSTree.file content)))
      | some (FSTree.file _) => .error (.notADirectory p)
      | none => .error (.fileNotFound p)

/-- `update_files` (lines 227–245): all deletions, then all directory
creations, then file updates, then file creations, aborting on the first
failing operation. -/
def update_files (changes : Changeset) (fs0 : Option FSTree) :
    Except PyError (Option FSTree) := do
  let fs1 ← changes.to_delete.foldlM removePath fs0
  let fs2 ← changes.directories_to_create.foldlM mkdirFS fs1
  let fs3 ← changes.files_to_update.foldlM (fun fs e => writeFileFS fs e.path e.content) fs2
  let fs4 ← changes.files_to_create.foldlM (fun fs e => writeFileFS fs e.path e.content) fs3
  .ok fs4

/-- The core pipeline of `main` after the export (lines 291–316): aggregate,
reconcile, apply.  An error anywhere aborts the run with no further
filesystem mutation; the final tree is returned on success. -/
def run_pipeline (file_structure : FileStructure) (only_category : Option String)
    (collapse_same_categories should_delete : Bool) (solutions : List Solution)
    (fs : Option FSTree) : Except PyError (Option FSTree) := do
  let state ← compute_final_state file_structure only_category collapse_same_categories solutions
  let changes ← compute_changes state should_delete fs
  update_files changes fs

/-! ## Theorems -/

/-! ### Order facts about Python string comparison -/

theorem charListLe_refl : ∀ a : List Char, charListLe a a = true
  | [] => rfl
  | x :: xs => by simp [charListLe, charListLe_refl xs]

theorem charListLe_total : ∀ a b : List Char, charListLe a b = true ∨ charListLe b a = true
  | [], _ => Or.inl rfl
  | _ :: _, [] => Or.inr rfl
  | a :: as, b :: bs => by
    by_cases h : a = b
    · subst h
      rcases charListLe_total as bs with h1 | h1
      · left; simpa [charListLe] using h1
      · right; simpa [charListLe] using h1
    · rcases lt_trichotomy a b with hl | he | hl
      · left; simp [charListLe, h, hl]
      · exact absurd he h
      · right; simp [charListLe, Ne.symm h, hl]

theorem charListLe_antisymm : ∀ a b : List Char, charListLe a b = true →
    charListLe b a = true → a = b
  | [], [], _, _ => rfl
  | [], _ :: _, _, h2 => by simp [charListLe] at h2
  | _ :: _, [], h1, _ => by simp [charListLe] at h1
  | a :: as, b :: bs, h1, h2 => by
    by_cases h : a = b
    · subst h
      simp only [charListLe, if_pos rfl] at h1 h2
      rw [charListLe_antisymm as bs h1 h2]
    · simp only [charListLe, if_neg h, if_neg (Ne.symm h), decide_eq_true_eq] at h1 h2
      exact absurd (lt_trans h1 h2) (lt_irrefl a)

theorem strLe_refl (a : String) : strLe a a = true := charListLe_refl a.data

theorem strLe_total (a b : String) : strLe a b = true ∨ strLe b a = true :=
  charListLe_total a.data b.data

theorem strLe_antisymm {a b : String} (h1 : strLe a b = true) (h2 : strLe b a = true) :
    a = b := by
  have h := charListLe_antisymm a.data b.data h1 h2
  cases a; cases b
  exact congrArg String.mk h

/-- `not (a <= b)` is `b < a` for Python's total string order. -/
theorem strLe_false_iff {a b : String} :
    strLe a b = false ↔ (strLe b a = true ∧ b ≠ a) := by
  constructor
  · intro h
    rcases strLe_total a b with h1 | h1
    · rw [h] at h1; cases h1
    · refine ⟨h1, fun hba => ?_⟩
      subst hba
      rw [strLe_refl] at h; cases h
  · rintro ⟨h1, h2⟩
    cases hab : strLe a b with
    | false => rfl
    | true => exact absurd (strLe_antisymm hab h1) (fun he => h2 he.symm)

/-! ### Association-list helpers -/

theorem lookup_map_update {β : Type} (path : String) (e : β) :
    ∀ st : List (String × β), (List.lookup path st).isSome →
      List.lookup path (st.map (fun kv => if kv.1 = path then (kv.1, e) else kv)) = some e
  | [], h => by simp [List.lookup] at h
  | (a, b) :: rest, h => by
    by_cases ha : a = path
    · subst ha
      have hmap : (if (a, b).1 = a then ((a, b).1, e) else (a, b)) = (a, e) := if_pos rfl
      rw [List.map_cons, hmap]
      simp [List.lookup]
    · have hmap : (if (a, b).1 = path then ((a, b).1, e) else (a, b)) = (a, b) := if_neg ha
      have hne : (path == a) = false := beq_eq_false_iff_ne.mpr (Ne.symm ha)
      rw [List.map_cons, hmap]
      simp only [List.lookup, hne] at h ⊢
      exact lookup_map_update path e rest h

theorem lookup_append_self {β : Type} (path : String) (e : β) :
    ∀ st : List (String × β), List.lookup path st = none →
      List.lookup path (st ++ [(path, e)]) = some e
  | [], _ => by simp [List.lookup]
  | (a, b) :: rest, h => by
    by_cases ha : a = path
    · subst ha
      simp [List.lookup] at h
    · have hne : (path == a) = false := by simp [ha, Ne.symm ha]
      simp only [List.lookup, hne] at h
      simpa [List.lookup, hne] using lookup_append_self path e rest h

/-- After `state[path] = e`, looking `path` up yields `e`. -/
theorem lookup_dictInsert (st : List (String × StateEntry)) (path : String) (e : StateEntry) :
    List.lookup path (dictInsert st path e) = some e := by
  unfold dictInsert
  cases h : (List.lookup path st) with
  | some v =>
    rw [if_pos (by rfl)]
    exact lookup_map_update path e st (by rw [h]; rfl)
  | none =>
    rw [if_neg (by simp)]
    exact lookup_append_self path e st h

/-! ### C3 -/

/-- C3: during aggregation, when a record resolves to a path already present
in the target mapping, the record overwrites the stored entry exactly when
its timestamp is strictly greater than the stored one (`not (date <= old)`
is `old < date` for the total string order, first conjunct); on a tie or an
earlier timestamp the mapping is returned unchanged, so on exact ties the
first-encountered record is kept. -/
theorem C3_last_write_wins (fsr : FileStructure) (oc : Option String) (coll : Bool)
    (sols : List Solution) (st : List (String × StateEntry)) (sol : Solution)
    (path : String) (old : StateEntry)
    (hfilter : ¬(oc ≠ none ∧ oc ≠ some sol.scoring))
    (hpath : get_solution_path fsr sol.hole sol.lang
      (effective_category coll oc ((codesFor sols (sol.hole, sol.lang)).length == 1) sol.scoring)
      = .ok path)
    (hold : List.lookup path st = some old) :
    (strLe old.date sol.submitted = true ∧ old.date ≠ sol.submitted ↔
      strLe sol.submitted old.date = false) ∧
    (strLe sol.submitted old.date = false →
      state_step fsr oc coll sols st sol =
        .ok (dictInsert st path ⟨sol.code, sol.submitted⟩) ∧
      List.lookup path (dictInsert st path ⟨sol.code, sol.submitted⟩) =
        some ⟨sol.code, sol.submitted⟩) ∧
    (strLe sol.submitted old.date = true →
      state_step fsr oc coll sols st sol = .ok st) := by
  refine ⟨strLe_false_iff.symm, ?_, ?_⟩
  · intro hlt
    constructor
    · unfold state_step
      rw [if_neg hfilter]
      simp only [hpath, Except.bind, bind, hold, hlt]
      simp
    · exact lookup_dictInsert st path ⟨sol.code, sol.submitted⟩
  · intro hle
    unfold state_step
    rw [if_neg hfilter]
    simp only [hpath, Except.bind, bind, hold, hle]
    simp

/-- Witness for C3 at a concrete record and store. -/
theorem C3_witness :
    (¬((none : Option String) ≠ none ∧
        (none : Option String) ≠ some "bytes")) ∧
    (get_solution_path FileStructure.HOLE_EXTENSION "h" "python"
      (effective_category false none
        ((codesFor [] ("h", "python")).length == 1) "bytes") = .ok "h-bytes.py") ∧
    (List.lookup "h-bytes.py" [("h-bytes.py", (⟨"C", "2024-01-01"⟩ : StateEntry))] =
      some ⟨"C", "2024-01-01"⟩) ∧
    (strLe "2024-01-02" "2024-01-01" = false →
      state_step FileStructure.HOLE_EXTENSION none false []
          [("h-bytes.py", ⟨"C", "2024-01-01"⟩)] ⟨"h", "python", "bytes", "2024-01-02", "D"⟩ =
        .ok (dictInsert [("h-bytes.py", ⟨"C", "2024-01-01"⟩)] "h-bytes.py" ⟨"D", "2024-01-02"⟩)
      ∧ List.lookup "h-bytes.py"
          (dictInsert [("h-bytes.py", ⟨"C", "2024-01-01"⟩)] "h-bytes.py" ⟨"D", "2024-01-02"⟩) =
        some ⟨"D", "2024-01-02"⟩) :=
  ⟨by decide, by decide, by decide,
    (C3_last_write_wins FileStructure.HOLE_EXTENSION none false []
      [("h-bytes.py", ⟨"C", "2024-01-01"⟩)] ⟨"h", "python", "bytes", "2024-01-02", "D"⟩
      "h-bytes.py" ⟨"C", "2024-01-01"⟩ (by decide) (by decide) (by decide)).2.1⟩

/-! ### C5 -/

/-- C5: with deletion disabled a type conflict raises a fatal error naming
the offending path (second conjunct), and with deletion enabled a needed
*leaf* occupied by a directory is scheduled as delete-then-create (third
conjunct); but for a name needed as a *directory* that exists as a file with
deletion enabled, the code appends the delete and the directory creation and
then recurses into the path, where listing the still-existing file raises
`NotADirectoryError` — the run aborts instead of returning the changeset
(first conjunct), contradicting the documented delete-then-recreate intent. -/
theorem C5_type_conflict_behaviour :
    compute_changes [("a/b", ⟨"X", "2024"⟩)] true
        (some (.dir [("a", .file "z")])) = .error (.notADirectory ["a"]) ∧
    compute_changes [("a/b", ⟨"X", "2024"⟩)] false
        (some (.dir [("a", .file "z")])) = .error (.existsNotDirectory ["a"]) ∧
    compute_changes [("a", ⟨"X", "2024"⟩)] true
        (some (.dir [("a", .dir [])])) =
      .ok ⟨[["a"]], [], [⟨["a"], "X"⟩], []⟩ :=
  ⟨by decide, by decide, by decide⟩

/-! ### C1: counterexample -/

/-- C1 as stated is false: a needed leaf existing as a directory with
deletion enabled puts the same path `a` into both paths-to-delete and
files-to-create, so the four lists are not pairwise disjoint. -/
theorem C1_counterexample :
    compute_changes [("a", ⟨"X", "2024"⟩)] true
        (some (.dir [("a", .dir [("junk", .file "j")])])) =
      .ok ⟨[["a"]], [], [⟨["a"], "X"⟩], []⟩ ∧
    ¬ (∀ p, p ∈ (Changeset.mk [["a"]] [] [⟨["a"], "X"⟩] []).to_delete →
        p ∉ (Changeset.mk [["a"]] [] [⟨["a"], "X"⟩] []).files_to_create.map Entry.path) :=
  ⟨by decide, by decide⟩

/-! ### C4: the diversity-collapse condition -/

theorem lookup_append {κ β : Type} [BEq κ] (k : κ) :
    ∀ l1 l2 : List (κ × β),
      List.lookup k (l1 ++ l2) = (List.lookup k l1).orElse (fun _ => List.lookup k l2)
  | [], l2 => by simp [List.lookup, Option.orElse]
  | (a, b) :: rest, l2 => by
    cases hk : k == a with
    | true => simp [List.lookup, hk, Option.orElse]
    | false => simpa [List.lookup, hk] using lookup_append k rest l2

theorem lookup_map_adjust {κ : Type} [BEq κ] [LawfulBEq κ] [DecidableEq κ]
    (key : κ) (x : String) :
    ∀ (l : List (κ × List String)) (k : κ),
      List.lookup k (l.map (fun kv => if kv.1 = key then (kv.1, kv.2 ++ [x]) else kv)) =
        if k = key then (List.lookup k l).map (fun v => v ++ [x]) else List.lookup k l
  | [], k => by by_cases h : k = key <;> simp [List.lookup, h]
  | (a, b) :: rest, k => by
    by_cases hak : a = key
    · have hmap : (if (a, b).1 = key then ((a, b).1, (a, b).2 ++ [x]) else (a, b)) =
          (a, b ++ [x]) := if_pos hak
      rw [List.map_cons, hmap]
      by_cases hk : k = a
      · subst hk
        rw [if_pos (hak : k = key)]
        simp [List.lookup]
      · have hne : (k == a) = false := beq_eq_false_iff_ne.mpr hk
        have hkk : ¬ k = key := fun h => hk (h.trans hak.symm)
        simp only [List.lookup, hne, if_neg hkk]
        simpa [if_neg hkk] using lookup_map_adjust key x rest k
    · have hmap : (if (a, b).1 = key then ((a, b).1, (a, b).2 ++ [x]) else (a, b)) =
          (a, b) := if_neg hak
      rw [List.map_cons, hmap]
      by_cases hk : k = a
      · subst hk
        have hkk : ¬ k = key := hak
        rw [if_neg hkk]
        simp [List.lookup]
      · have hne : (k == a) = false := beq_eq_false_iff_ne.mpr hk
        simp only [List.lookup, hne]
        exact lookup_map_adjust key x rest k

/-- Effect of one `codes_per_solution` iteration on the set stored at any
key. -/
theorem mem_lookup_cps_step (acc : List ((String × String) × List String))
    (sol : Solution) (key : String × String) (c : String) :
    c ∈ (List.lookup key (cps_step acc sol)).getD [] ↔
      (c ∈ (List.lookup key acc).getD [] ∨ (key = (sol.hole, sol.lang) ∧ c = sol.code)) := by
  cases hl : List.lookup (sol.hole, sol.lang) acc with
  | none =>
    simp only [cps_step, hl]
    rw [lookup_append]
    by_cases hk : key = (sol.hole, sol.lang)
    · subst hk
      rw [hl]
      simp [List.lookup, Option.orElse]
    · have hne : (key == (sol.hole, sol.lang)) = false := beq_eq_false_iff_ne.mpr hk
      cases h2 : List.lookup key acc with
      | none => simp [h2, List.lookup, hne, Option.orElse, hk]
      | some v => simp [h2, List.lookup, hne, Option.orElse, hk]
  | some codes =>
    simp only [cps_step, hl]
    by_cases hc : sol.code ∈ codes
    · rw [if_pos hc]
      by_cases hk : key = (sol.hole, sol.lang)
      · subst hk
        rw [hl]
        simp only [Option.getD_some]
        constructor
        · exact fun h => Or.inl h
        · rintro (h | ⟨-, rfl⟩) <;> [exact h; exact hc]
      · simp [hk]
    · rw [if_neg hc, lookup_map_adjust]
      by_cases hk : key = (sol.hole, sol.lang)
      · subst hk
        rw [if_pos rfl, hl]
        simp
      · rw [if_neg hk]
        simp [hk]

/-- The set built by `codes_per_solution` holds exactly the codes of the
records with the given key. -/
theorem mem_codesFor (sols : List Solution) (key : String × String) (c : String) :
    c ∈ codesFor sols key ↔ ∃ s ∈ sols, (s.hole, s.lang) = key ∧ s.code = c := by
  have main : ∀ (l : List Solution) (acc : List ((String × String) × List String)),
      c ∈ (List.lookup key (l.foldl cps_step acc)).getD [] ↔
        (c ∈ (List.lookup key acc).getD [] ∨ ∃ s ∈ l, (s.hole, s.lang) = key ∧ s.code = c) := by
    intro l
    induction l with
    | nil => simp
    | cons s rest ih =>
      intro acc
      rw [List.foldl_cons, ih (cps_step acc s), mem_lookup_cps_step]
      constructor
      · rintro ((h | h) | h)
        · exact Or.inl h
        · exact Or.inr ⟨s, List.mem_cons_self s rest, h.1.symm, h.2.symm⟩
        · rcases h with ⟨t, ht, h1, h2⟩
          exact Or.inr ⟨t, List.mem_cons_of_mem s ht, h1, h2⟩
      · rintro (h | ⟨t, ht, h1, h2⟩)
        · exact Or.inl (Or.inl h)
        · rcases List.mem_cons.mp ht with rfl | ht2
          · exact Or.inl (Or.inr ⟨h1.symm, h2.symm⟩)
          · exact Or.inr ⟨t, ht2, h1, h2⟩
  unfold codesFor codes_per_solution
  rw [main sols []]
  simp [List.lookup]

/-- The per-key sets built by `codes_per_solution` never hold duplicates. -/
theorem nodup_codesFor (sols : List Solution) (key : String × String) :
    (codesFor sols key).Nodup := by
  have main : ∀ (l : List Solution) (acc : List ((String × String) × List String)),
      (∀ k, ((List.lookup k acc).getD []).Nodup) →
      ∀ k, ((List.lookup k (l.foldl cps_step acc)).getD []).Nodup := by
    intro l
    induction l with
    | nil => exact fun acc h => h
    | cons s rest ih =>
      intro acc h
      rw [List.foldl_cons]
      refine ih (cps_step acc s) ?_
      intro k
      cases hl : List.lookup (s.hole, s.lang) acc with
      | none =>
        simp only [cps_step, hl]
        rw [lookup_append]
        cases h2 : List.lookup k acc with
        | some v =>
          have hv := h k
          rw [h2] at hv
          simp only [Option.getD_some] at hv
          simp [h2, Option.orElse, hv]
        | none =>
          by_cases hk : k = (s.hole, s.lang)
          · subst hk
            simp [h2, List.lookup, Option.orElse]
          · have hne : (k == (s.hole, s.lang)) = false := beq_eq_false_iff_ne.mpr hk
            simp [h2, List.lookup, hne, Option.orElse]
      | some codes =>
        simp only [cps_step, hl]
        by_cases hc : s.code ∈ codes
        · rw [if_pos hc]; exact h k
        · rw [if_neg hc, lookup_map_adjust]
          by_cases hk : k = (s.hole, s.lang)
          · subst hk
            rw [if_pos rfl, hl]
            have hnd : codes.Nodup := by
              have hh := h (s.hole, s.lang)
              rw [hl] at hh
              simpa using hh
            simp [List.nodup_append, hnd, hc]
          · rw [if_neg hk]; exact h k
  unfold codesFor codes_per_solution
  exact main sols [] (fun k => by simp [List.lookup]) key

/-- `len(codes_per_solution[key]) == 1` says precisely that every record in
the `(hole, lang)` group of `sol` shares `sol`'s code. -/
theorem codesFor_length_one_iff (sols : List Solution) (sol : Solution) (hsol : sol ∈ sols) :
    (((codesFor sols (sol.hole, sol.lang)).length == 1) = true) ↔
      (∀ s ∈ sols, s.hole = sol.hole → s.lang = sol.lang → s.code = sol.code) := by
  have hself : sol.code ∈ codesFor sols (sol.hole, sol.lang) :=
    (mem_codesFor sols _ _).mpr ⟨sol, hsol, rfl, rfl⟩
  constructor
  · intro hlen s hs hh hl
    have h1 : (codesFor sols (sol.hole, sol.lang)).length = 1 := by
      simpa using hlen
    rcases List.length_eq_one.mp h1 with ⟨a, ha⟩
    have hsa : sol.code = a := by
      rw [ha] at hself
      simpa using hself
    have hmem : s.code ∈ codesFor sols (sol.hole, sol.lang) :=
      (mem_codesFor sols _ _).mpr ⟨s, hs, by rw [hh, hl], rfl⟩
    rw [ha] at hmem
    simp only [List.mem_singleton] at hmem
    rw [hmem, ← hsa]
  · intro hall
    have hsub : ∀ c ∈ codesFor sols (sol.hole, sol.lang), c = sol.code := by
      intro c hc
      rcases (mem_codesFor sols _ _).mp hc with ⟨s, hs, hkey, hcode⟩
      have hh : s.hole = sol.hole := congrArg Prod.fst hkey
      have hl : s.lang = sol.lang := congrArg Prod.snd hkey
      rw [← hcode]
      exact hall s hs hh hl
    have hnd := nodup_codesFor sols (sol.hole, sol.lang)
    cases hx : codesFor sols (sol.hole, sol.lang) with
    | nil => rw [hx] at hself; cases hself
    | cons a t =>
      cases t with
      | nil => simp
      | cons b t2 =>
        exfalso
        rw [hx] at hnd hsub
        have ha : a = sol.code := hsub a (by simp)
        have hb : b = sol.code := hsub b (by simp)
        rw [List.nodup_cons] at hnd
        exact hnd.1 (by rw [ha, hb]; simp)

/-- C4: the category handed to the path resolver is `None` (suffix omitted)
exactly when collapsing is enabled, every record of the `(hole, lang)` group
shares identical content (diversity 1), and no single-category filter is set;
in every other case the record's own category is passed.  The hypothesis
`hoc` reflects that the category filter, when set, is one of the non-empty
category labels. -/
theorem C4_collapse_iff (coll : Bool) (oc : Option String) (sols : List Solution)
    (sol : Solution) (hsol : sol ∈ sols)
    (hoc : oc = none ∨ ∃ c, oc = some c ∧ c ≠ "") :
    (effective_category coll oc ((codesFor sols (sol.hole, sol.lang)).length == 1) sol.scoring
        = none ↔
      (coll = true ∧ (∀ s ∈ sols, s.hole = sol.hole → s.lang = sol.lang → s.code = sol.code)
        ∧ oc = none)) ∧
    (∀ hne : effective_category coll oc ((codesFor sols (sol.hole, sol.lang)).length == 1)
        sol.scoring ≠ none,
      effective_category coll oc ((codesFor sols (sol.hole, sol.lang)).length == 1) sol.scoring
        = some sol.scoring) := by
  have hocval : truthyOpt oc = false ↔ oc = none := by
    rcases hoc with rfl | ⟨c, rfl, hc⟩
    · simp [truthyOpt]
    · simp [truthyOpt, String.isEmpty_iff, hc]
  constructor
  · unfold effective_category
    by_cases hcond : (coll && ((codesFor sols (sol.hole, sol.lang)).length == 1)
        && !truthyOpt oc) = true
    · rw [if_pos hcond]
      simp only [Bool.and_eq_true, Bool.not_eq_true'] at hcond
      constructor
      · intro _
        exact ⟨hcond.1.1, (codesFor_length_one_iff sols sol hsol).mp hcond.1.2,
          hocval.mp hcond.2⟩
      · intro _; rfl
    · rw [if_neg hcond]
      constructor
      · intro h; cases h
      · rintro ⟨h1, h2, h3⟩
        exfalso
        apply hcond
        simp only [Bool.and_eq_true, Bool.not_eq_true']
        exact ⟨⟨h1, (codesFor_length_one_iff sols sol hsol).mpr h2⟩, hocval.mpr h3⟩
  · intro hne
    unfold effective_category at hne ⊢
    by_cases hcond : (coll && ((codesFor sols (sol.hole, sol.lang)).length == 1)
        && !truthyOpt oc) = true
    · rw [if_pos hcond] at hne; exact absurd rfl hne
    · rw [if_neg hcond]

/-- Witness for C4: two records with identical content, collapsing on, no
filter, category argument collapses to `None`. -/
theorem C4_witness :
    ((⟨"fizz-buzz", "python", "bytes", "2024-01-01", "A"⟩ : Solution) ∈
      [(⟨"fizz-buzz", "python", "bytes", "2024-01-01", "A"⟩ : Solution),
       ⟨"fizz-buzz", "python", "chars", "2024-01-02", "A"⟩]) ∧
    (effective_category true none
      ((codesFor [(⟨"fizz-buzz", "python", "bytes", "2024-01-01", "A"⟩ : Solution),
        ⟨"fizz-buzz", "python", "chars", "2024-01-02", "A"⟩]
        ("fizz-buzz", "python")).length == 1) "bytes" = none) :=
  ⟨by decide, by
    have h := (C4_collapse_iff true none
      [⟨"fizz-buzz", "python", "bytes", "2024-01-01", "A"⟩,
       ⟨"fizz-buzz", "python", "chars", "2024-01-02", "A"⟩]
      ⟨"fizz-buzz", "python", "bytes", "2024-01-01", "A"⟩ (by decide) (Or.inl rfl)).1
    exact h.mpr ⟨rfl, by decide, rfl⟩⟩

/-! ### C8: unknown language -/

theorem foldlM_except_error {α β ε : Type} (f : β → α → Except ε β) (x : α)
    (herr : ∀ acc, ∃ e, f acc x = .error e) :
    ∀ (l : List α), x ∈ l → ∀ init, ∃ e, l.foldlM f init = .error e
  | [], hx, _ => absurd hx (List.not_mem_nil x)
  | a :: l, hx, init => by
    rw [List.foldlM_cons]
    cases hfa : f init a with
    | error e => exact ⟨e, by simp [hfa, Except.bind, bind]⟩
    | ok b =>
      cases List.mem_cons.mp hx with
      | inl hxa =>
        subst hxa
        rcases herr init with ⟨e, he⟩
        rw [he] at hfa; cases hfa
      | inr hxl =>
        rcases foldlM_except_error f x herr l hxl b with ⟨e, he⟩
        exact ⟨e, by simp [hfa, Except.bind, bind, he]⟩

/-- Any record surviving the category filter whose language is absent from
the table makes its aggregation step fail, whatever the store. -/
theorem state_step_error_of_unknown (fsr : FileStructure) (oc : Option String)
    (coll : Bool) (sols : List Solution) (sol : Solution)
    (hlang : List.lookup sol.lang (LANGUAGE_NAMES_EXTENSIONS.map (fun t => (t.1, t.2))) = none)
    (hfilter : ¬(oc ≠ none ∧ oc ≠ some sol.scoring)) :
    ∀ st, state_step fsr oc coll sols st sol = .error (.keyError sol.lang) := by
  intro st
  unfold state_step
  rw [if_neg hfilter]
  unfold get_solution_path
  rw [hlang]
  rfl

/-- C8: an unknown language identifier makes path resolution fail with
`KeyError` for every layout, hole and category (first conjunct); and any
surviving record carrying it aborts aggregation, hence the whole pipeline,
before any filesystem mutation is attempted (second conjunct). -/
theorem C8_unknown_language (lang : String)
    (hunknown : List.lookup lang (LANGUAGE_NAMES_EXTENSIONS.map (fun t => (t.1, t.2))) = none) :
    (∀ fsr hole cat, get_solution_path fsr hole lang cat = .error (.keyError lang)) ∧
    (∀ fsr oc coll (sols : List Solution) (sol : Solution) sd fs,
      sol ∈ sols → sol.lang = lang → ¬(oc ≠ none ∧ oc ≠ some sol.scoring) →
      ∃ e, compute_final_state fsr oc coll sols = .error e ∧
        run_pipeline fsr oc coll sd sols fs = .error e) := by
  constructor
  · intro fsr hole cat
    unfold get_solution_path
    rw [hunknown]
  · intro fsr oc coll sols sol sd fs hsol hl hfilter
    have herr : ∀ st, state_step fsr oc coll sols st sol = .error (.keyError sol.lang) :=
      state_step_error_of_unknown fsr oc coll sols sol (by rw [hl]; exact hunknown) hfilter
    rcases foldlM_except_error (state_step fsr oc coll sols) sol
      (fun acc => ⟨.keyError sol.lang, herr acc⟩) sols hsol [] with ⟨e, he⟩
    refine ⟨e, he, ?_⟩
    unfold run_pipeline compute_final_state at *
    rw [he]
    rfl

/-- Witness for C8 at the concrete unknown language `"klingon"`. -/
theorem C8_witness :
    (List.lookup "klingon" (LANGUAGE_NAMES_EXTENSIONS.map (fun t => (t.1, t.2))) = none) ∧
    get_solution_path FileStructure.HOLE_LANGUAGE_EXTENSION "fizz-buzz" "klingon"
      (some "bytes") = .error (.keyError "klingon") :=
  ⟨by decide, (C8_unknown_language "klingon" (by decide)).1
    FileStructure.HOLE_LANGUAGE_EXTENSION "fizz-buzz" (some "bytes")⟩

/-! ### Changeset algebra -/

theorem Changeset.append_to_delete (a b : Changeset) :
    (a ++ b).to_delete = a.to_delete ++ b.to_delete := rfl

theorem Changeset.append_files_to_update (a b : Changeset) :
    (a ++ b).files_to_update = a.files_to_update ++ b.files_to_update := rfl

theorem Changeset.append_files_to_create (a b : Changeset) :
    (a ++ b).files_to_create = a.files_to_create ++ b.files_to_create := rfl

theorem Changeset.append_directories_to_create (a b : Changeset) :
    (a ++ b).directories_to_create = a.directories_to_create ++ b.directories_to_create := rfl

theorem Changeset.append_empty (a : Changeset) : a ++ Changeset.empty = a := by
  cases a
  show Changeset.append _ _ = _
  simp [Changeset.append, Changeset.empty]

theorem Changeset.empty_append (a : Changeset) : Changeset.empty ++ a = a := by
  cases a
  show Changeset.append _ _ = _
  simp [Changeset.append, Changeset.empty]

theorem Changeset.append_assoc (a b c : Changeset) : a ++ b ++ c = a ++ (b ++ c) := by
  cases a; cases b; cases c
  show Changeset.append (Changeset.append _ _) _ = Changeset.append _ (Changeset.append _ _)
  simp [Changeset.append]

theorem Changeset.allPaths_append (a b : Changeset) :
    ∀ p, p ∈ (a ++ b).allPaths ↔ p ∈ a.allPaths ∨ p ∈ b.allPaths := by
  intro p
  simp only [Changeset.allPaths, Changeset.append_to_delete, Changeset.append_files_to_update,
    Changeset.append_files_to_create, Changeset.append_directories_to_create,
    List.map_append, List.mem_append]
  tauto

theorem Changeset.allPaths_empty : Changeset.empty.allPaths = [] := rfl

/-! ### `sorted(set(...))` -/

theorem mem_sortedSet {x : String} {l : List String} : x ∈ sortedSet l ↔ x ∈ l := by
  unfold sortedSet sortStrings
  rw [(List.perm_insertionSort _ _).mem_iff]
  exact List.mem_dedup

theorem nodup_sortedSet (l : List String) : (sortedSet l).Nodup := by
  unfold sortedSet sortStrings
  exact ((List.perm_insertionSort _ _).nodup_iff).mpr (List.nodup_dedup l)

/-! ### Reading the filesystem model -/

theorem readFileFS_of_isFile {fs : Option FSTree} {p : List String}
    (h : isFileFS fs p = true) :
    ∃ c, readFileFS fs p = .ok c ∧ fileContentFS fs p = some c := by
  unfold isFileFS at h
  unfold readFileFS fileContentFS
  cases hf : findFS fs p with
  | none => rw [hf] at h; cases h
  | some t =>
    cases t with
    | file c => exact ⟨c, rfl, rfl⟩
    | dir es => rw [hf] at h; cases h

theorem isFile_of_fileContent {fs : Option FSTree} {p : List String} {c : String}
    (h : fileContentFS fs p = some c) : isFileFS fs p = true := by
  unfold fileContentFS at h
  unfold isFileFS
  cases hf : findFS fs p with
  | none => rw [hf] at h; cases h
  | some t =>
    cases t with
    | file c2 => rfl
    | dir es => rw [hf] at h; cases h

theorem exists_of_isFile {fs : Option FSTree} {p : List String}
    (h : isFileFS fs p = true) : existsFS fs p = true := by
  unfold isFileFS at h
  unfold existsFS
  cases hf : findFS fs p with
  | none => rw [hf] at h; cases h
  | some t => rfl

theorem exists_of_isDir {fs : Option FSTree} {p : List String}
    (h : isDirFS fs p = true) : existsFS fs p = true := by
  unfold isDirFS at h
  unfold existsFS
  cases hf : findFS fs p with
  | none => rw [hf] at h; cases h
  | some t => rfl

theorem isFile_of_exists_not_dir {fs : Option FSTree} {p : List String}
    (hex : existsFS fs p = true) (hnd : isDirFS fs p = false) :
    isFileFS fs p = true := by
  unfold existsFS at hex
  unfold isDirFS at hnd
  unfold isFileFS
  cases hf : findFS fs p with
  | none => rw [hf] at hex; cases hex
  | some t =>
    cases t with
    | file c => rfl
    | dir es => rw [hf] at hnd; cases hnd

/-! ### Branch analysis of `processName` -/

/-- Complete case analysis of one successful `processName` call: the name is
either a needed directory (explored, with its group), a needed leaf (with its
single claiming child), or extraneous. -/
theorem processName_spec (fs : Option FSTree) (sd : Bool) (dir : List String)
    (children : List Child) (file : String) (d : Changeset)
    (e : List (String × List Child))
    (h : processName fs sd dir children file = .ok (d, e)) :
    ((children.filter (fun c => childHead c = file)) ≠ [] ∧
      (children.filter (fun c => childHead c = file)).all (fun c => 1 < c.parts.length) = true ∧
      e = [(file, children.filter (fun c => childHead c = file))] ∧
      ((existsFS fs (dir ++ [file]) = false ∧ d = ⟨[], [], [], [dir ++ [file]]⟩) ∨
       (existsFS fs (dir ++ [file]) = true ∧ isDirFS fs (dir ++ [file]) = false ∧ sd = true ∧
         d = ⟨[dir ++ [file]], [], [], [dir ++ [file]]⟩) ∨
       (isDirFS fs (dir ++ [file]) = true ∧ d = Changeset.empty))) ∨
    (∃ c, children.filter (fun ch => childHead ch = file) = [c] ∧ ¬ 1 < c.parts.length ∧
      e = [] ∧
      ((existsFS fs (dir ++ [file]) = false ∧ d = ⟨[], [], [⟨dir ++ [file], c.content⟩], []⟩) ∨
       (fileContentFS fs (dir ++ [file]) = some c.content ∧ d = Changeset.empty) ∨
       (∃ cur, fileContentFS fs (dir ++ [file]) = some cur ∧ cur ≠ c.content ∧
         d = ⟨[], [⟨dir ++ [file], c.content⟩], [], []⟩) ∨
       (existsFS fs (dir ++ [file]) = true ∧ isFileFS fs (dir ++ [file]) = false ∧ sd = true ∧
         d = ⟨[dir ++ [file]], [], [⟨dir ++ [file], c.content⟩], []⟩))) ∨
    (children.filter (fun c => childHead c = file) = [] ∧ e = [] ∧
      ((sd = true ∧ file ∉ DEFAULT_IGNORE_LIST ∧ d = ⟨[dir ++ [file]], [], [], []⟩) ∨
       ((sd = false ∨ file ∈ DEFAULT_IGNORE_LIST) ∧ d = Changeset.empty))) := by
  unfold processName at h
  by_cases hA : (children.filter (fun c => childHead c = file)) ≠ []
  · rw [if_pos hA] at h
    cases hB : (children.filter (fun c => childHead c = file)).all
        (fun c => 1 < c.parts.length) with
    | true =>
      rw [if_pos (by rw [hB])] at h
      left
      refine ⟨hA, rfl, ?_⟩
      cases hex : existsFS fs (dir ++ [file]) with
      | false =>
        rw [hex] at h
        simp only [Bool.not_false, if_true] at h
        injection h with h2
        injection h2 with h3 h4
        exact ⟨h4.symm, Or.inl ⟨rfl, h3.symm⟩⟩
      | true =>
        rw [hex] at h
        simp only [Bool.not_true, if_false] at h
        cases hdir : isDirFS fs (dir ++ [file]) with
        | false =>
          rw [hdir] at h
          simp only [Bool.not_false, if_true] at h
          cases hsd : sd with
          | false =>
            rw [hsd] at h
            simp only [Bool.not_false, if_true] at h
            cases h
          | true =>
            rw [hsd] at h
            simp only [Bool.not_true, if_false] at h
            injection h with h2
            injection h2 with h3 h4
            exact ⟨h4.symm, Or.inr (Or.inl ⟨rfl, rfl, rfl, h3.symm⟩)⟩
        | true =>
          rw [hdir] at h
          simp only [Bool.not_true, if_false] at h
          injection h with h2
          injection h2 with h3 h4
          exact ⟨h4.symm, Or.inr (Or.inr ⟨rfl, h3.symm⟩)⟩
    | false =>
      rw [if_neg (by rw [hB]; exact Bool.false_ne_true)] at h
      by_cases hlen : (children.filter (fun c => childHead c = file)).length ≠ 1
      · rw [if_pos hlen] at h; cases h
      · rw [if_neg hlen] at h
        right; left
        push_neg at hlen
        rcases List.length_eq_one.mp hlen with ⟨c, hc⟩
        have hcbad : ¬ 1 < c.parts.length := by
          intro hlt
          have : (children.filter (fun ch => childHead ch = file)).all
              (fun ch => 1 < ch.parts.length) = true := by
            rw [hc]
            simp [hlt]
          rw [this] at hB; cases hB
        have hhead : (children.filter (fun c => childHead c = file)).headD ⟨[], ""⟩ = c := by
          rw [hc]; rfl
        rw [hhead] at h
        refine ⟨c, hc, hcbad, ?_⟩
        cases hex : existsFS fs (dir ++ [file]) with
        | false =>
          rw [hex] at h
          simp only [Bool.not_false, if_true] at h
          injection h with h2
          injection h2 with h3 h4
          exact ⟨h4.symm, Or.inl ⟨rfl, h3.symm⟩⟩
        | true =>
          rw [hex] at h
          simp only [Bool.not_true, if_false] at h
          cases hfile : isFileFS fs (dir ++ [file]) with
          | true =>
            rw [hfile] at h
            simp only [if_true] at h
            rcases readFileFS_of_isFile hfile with ⟨cur, hread, hcontent⟩
            rw [hread] at h
            simp only [Except.bind, bind] at h
            by_cases hcur : cur ≠ c.content
            · rw [if_pos hcur] at h
              injection h with h2
              injection h2 with h3 h4
              exact ⟨h4.symm, Or.inr (Or.inr (Or.inl ⟨cur, hcontent, hcur, h3.symm⟩))⟩
            · rw [if_neg hcur] at h
              injection h with h2
              injection h2 with h3 h4
              push_neg at hcur
              rw [hcur] at hcontent
              exact ⟨h4.symm, Or.inr (Or.inl ⟨hcontent, h3.symm⟩)⟩
          | false =>
            rw [hfile] at h
            simp only [Bool.false_eq_true, if_false] at h
            cases hsd : sd with
            | false =>
              rw [hsd] at h
              simp only [Bool.not_false, if_true] at h
              cases h
            | true =>
              rw [hsd] at h
              simp only [Bool.not_true, if_false] at h
              injection h with h2
              injection h2 with h3 h4
              exact ⟨h4.symm, Or.inr (Or.inr (Or.inr ⟨rfl, rfl, rfl, h3.symm⟩))⟩
  · rw [if_neg hA] at h
    right; right
    push_neg at hA
    refine ⟨hA, ?_⟩
    cases hsd : sd with
    | false =>
      rw [hsd] at h
      simp only [Bool.false_and, if_false] at h
      injection h with h2
      injection h2 with h3 h4
      exact ⟨h4.symm, Or.inr ⟨Or.inl rfl, h3.symm⟩⟩
    | true =>
      rw [hsd] at h
      by_cases hig : file ∈ DEFAULT_IGNORE_LIST
      · have : (true && !(DEFAULT_IGNORE_LIST.contains file)) = false := by
          simp [List.contains, List.elem_iff, hig]
        rw [this] at h
        simp only [Bool.false_eq_true, if_false] at h
        injection h with h2
        injection h2 with h3 h4
        exact ⟨h4.symm, Or.inr ⟨Or.inr hig, h3.symm⟩⟩
      · have : (true && !(DEFAULT_IGNORE_LIST.contains file)) = true := by
          simp [List.contains, List.elem_iff, hig]
        rw [this] at h
        simp only [if_true] at h
        injection h with h2
        injection h2 with h3 h4
        exact ⟨h4.symm, Or.inl ⟨rfl, hig, h3.symm⟩⟩

/-- The per-name contribution of a successful `processName` only ever
mentions the path of that name, and any `explore` entry it produces is that
name with its non-empty all-deeper group. -/
theorem processName_paths {fs : Option FSTree} {sd : Bool} {dir : List String}
    {children : List Child} {file : String} {d : Changeset}
    {e : List (String × List Child)}
    (h : processName fs sd dir children file = .ok (d, e)) :
    (∀ p, p ∈ d.allPaths → p = dir ++ [file]) ∧
    (∀ g, g ∈ e → g = (file, children.filter (fun c => childHead c = file)) ∧
      children.filter (fun c => childHead c = file) ≠ [] ∧
      (children.filter (fun c => childHead c = file)).all (fun c => 1 < c.parts.length) = true) := by
  rcases processName_spec fs sd dir children file d e h with
    ⟨hne, hall, he, hcases⟩ | ⟨c, hc, hlen, he, hcases⟩ | ⟨hnil, he, hcases⟩
  · subst he
    constructor
    · intro p hp
      rcases hcases with ⟨-, hd⟩ | ⟨-, -, -, hd⟩ | ⟨-, hd⟩ <;> subst hd <;>
        simpa [Changeset.allPaths, Changeset.empty] using hp
    · intro g hg
      simp only [List.mem_singleton] at hg
      exact ⟨hg, hne, hall⟩
  · subst he
    constructor
    · intro p hp
      rcases hcases with ⟨-, hd⟩ | ⟨-, hd⟩ | ⟨cur, -, -, hd⟩ | ⟨-, -, -, hd⟩ <;> subst hd <;>
        simpa [Changeset.allPaths, Changeset.empty] using hp
    · intro g hg
      cases hg
  · subst he
    constructor
    · intro p hp
      rcases hcases with ⟨-, -, hd⟩ | ⟨-, hd⟩ <;> subst hd <;>
        simpa [Changeset.allPaths, Changeset.empty] using hp
    · intro g hg
      cases hg

/-! ### Structure of `processLevel` -/

theorem processLevel_cons_ok {fs : Option FSTree} {sd : Bool} {dir : List String}
    {children : List Child} {file : String} {rest : List String}
    {level : Changeset} {explore : List (String × List Child)}
    (h : processLevel fs sd dir children (file :: rest) = .ok (level, explore)) :
    ∃ d1 e1 d2 e2, processName fs sd dir children file = .ok (d1, e1) ∧
      processLevel fs sd dir children rest = .ok (d2, e2) ∧
      level = d1 ++ d2 ∧ explore = e1 ++ e2 := by
  unfold processLevel at h
  cases h1 : processName fs sd dir children file with
  | error e => rw [h1] at h; cases h
  | ok p =>
    obtain ⟨d1, e1⟩ := p
    rw [h1] at h
    simp only [Except.bind, bind] at h
    cases h2 : processLevel fs sd dir children rest with
    | error e => rw [h2] at h; cases h
    | ok q =>
      obtain ⟨d2, e2⟩ := q
      rw [h2] at h
      simp only [Except.bind, bind] at h
      injection h with h3
      injection h3 with h4 h5
      exact ⟨d1, e1, d2, e2, rfl, rfl, h4.symm, h5.symm⟩

/-- Each processed name's contribution embeds in the level's result. -/
theorem processLevel_proj_sel {α : Type} (sel : Changeset → List α)
    (hsel : ∀ a b : Changeset, ∀ x, x ∈ sel (a ++ b) ↔ x ∈ sel a ∨ x ∈ sel b)
    {fs : Option FSTree} {sd : Bool} {dir : List String} {children : List Child} :
    ∀ {names : List String} {level : Changeset} {explore : List (String × List Child)},
      processLevel fs sd dir children names = .ok (level, explore) →
      ∀ file ∈ names, ∃ df ef, processName fs sd dir children file = .ok (df, ef) ∧
        (∀ x ∈ sel df, x ∈ sel level) ∧ (∀ g ∈ ef, g ∈ explore)
  | [], level, explore, h, file, hf => absurd hf (List.not_mem_nil file)
  | name :: rest, level, explore, h, file, hf => by
    rcases processLevel_cons_ok h with ⟨d1, e1, d2, e2, h1, h2, hl, he⟩
    subst hl; subst he
    rcases List.mem_cons.mp hf with rfl | hf2
    · exact ⟨d1, e1, h1, fun x hx => (hsel d1 d2 x).mpr (Or.inl hx),
        fun g hg => List.mem_append.mpr (Or.inl hg)⟩
    · rcases processLevel_proj_sel sel hsel h2 file hf2 with ⟨df, ef, hok, hsub, hexp⟩
      exact ⟨df, ef, hok, fun x hx => (hsel d1 d2 x).mpr (Or.inr (hsub x hx)),
        fun g hg => List.mem_append.mpr (Or.inr (hexp g hg))⟩

/-- Conversely, everything in the level's result stems from one of the
processed names. -/
theorem processLevel_mem_sel {α : Type} (sel : Changeset → List α)
    (hsel : ∀ a b : Changeset, ∀ x, x ∈ sel (a ++ b) ↔ x ∈ sel a ∨ x ∈ sel b)
    (hemp : ∀ x : α, x ∉ sel Changeset.empty)
    {fs : Option FSTree} {sd : Bool} {dir : List String} {children : List Child} :
    ∀ {names : List String} {level : Changeset} {explore : List (String × List Child)},
      processLevel fs sd dir children names = .ok (level, explore) →
      ∀ x ∈ sel level, ∃ file ∈ names, ∃ df ef,
        processName fs sd dir children file = .ok (df, ef) ∧ x ∈ sel df
  | [], level, explore, h, x, hx => by
    unfold processLevel at h
    injection h with h2
    injection h2 with h3 h4
    rw [← h3] at hx
    exact absurd hx (hemp x)
  | name :: rest, level, explore, h, x, hx => by
    rcases processLevel_cons_ok h with ⟨d1, e1, d2, e2, h1, h2, hl, he⟩
    subst hl
    rcases (hsel d1 d2 x).mp hx with hx1 | hx2
    · exact ⟨name, List.mem_cons_self name rest, d1, e1, h1, hx1⟩
    · rcases processLevel_mem_sel sel hsel hemp h2 x hx2 with ⟨file, hf, df, ef, hok, hmem⟩
      exact ⟨file, List.mem_cons_of_mem name hf, df, ef, hok, hmem⟩

/-- Everything pushed onto `explore` stems from one of the processed names. -/
theorem processLevel_mem_explore {fs : Option FSTree} {sd : Bool} {dir : List String}
    {children : List Child} :
    ∀ {names : List String} {level : Changeset} {explore : List (String × List Child)},
      processLevel fs sd dir children names = .ok (level, explore) →
      ∀ g ∈ explore, ∃ file ∈ names, ∃ df ef,
        processName fs sd dir children file = .ok (df, ef) ∧ g ∈ ef
  | [], level, explore, h, g, hg => by
    unfold processLevel at h
    injection h with h2
    injection h2 with h3 h4
    rw [← h4] at hg
    cases hg
  | name :: rest, level, explore, h, g, hg => by
    rcases processLevel_cons_ok h with ⟨d1, e1, d2, e2, h1, h2, hl, he⟩
    subst he
    rcases List.mem_append.mp hg with hg1 | hg2
    · exact ⟨name, List.mem_cons_self name rest, d1, e1, h1, hg1⟩
    · rcases processLevel_mem_explore h2 g hg2 with ⟨file, hf, df, ef, hok, hmem⟩
      exact ⟨file, List.mem_cons_of_mem name hf, df, ef, hok, hmem⟩

/-- The names pushed onto `explore`, in order, form a sublist of the
processed names. -/
theorem processLevel_explore_names {fs : Option FSTree} {sd : Bool} {dir : List String}
    {children : List Child} :
    ∀ {names : List String} {level : Changeset} {explore : List (String × List Child)},
      processLevel fs sd dir children names = .ok (level, explore) →
      (explore.map Prod.fst).Sublist names
  | [], level, explore, h => by
    unfold processLevel at h
    injection h with h2
    injection h2 with h3 h4
    rw [← h4]
    exact List.Sublist.refl []
  | name :: rest, level, explore, h => by
    rcases processLevel_cons_ok h with ⟨d1, e1, d2, e2, h1, h2, hl, he⟩
    subst he
    have htail := processLevel_explore_names h2
    rcases processName_spec _ _ _ _ _ _ _ h1 with ⟨-, -, he1, -⟩ | ⟨c, -, -, he1, -⟩ |
      ⟨-, he1, -⟩
    · subst he1
      simpa using List.Sublist.cons₂ name htail
    · subst he1
      simpa using List.Sublist.cons name htail
    · subst he1
      simpa using List.Sublist.cons name htail

/-! ### Structure of `walk_children` -/

theorem walk_children_cons_ok {w : List String → List Child → Except PyError Changeset}
    {dir : List String} {g : String × List Child} {rest : List (String × List Child)}
    {acc r : Changeset}
    (h : walk_children w dir (g :: rest) acc = .ok r) :
    ∃ dg, w (dir ++ [g.1]) (g.2.map (fun c => { c with parts := c.parts.tail })) = .ok dg ∧
      walk_children w dir rest (acc ++ dg) = .ok r := by
  unfold walk_children at h
  cases hw : w (dir ++ [g.1]) (g.2.map (fun c => { c with parts := c.parts.tail })) with
  | error e => rw [hw] at h; cases h
  | ok dg =>
    rw [hw] at h
    exact ⟨dg, rfl, h⟩

theorem walk_children_acc (w : List String → List Child → Except PyError Changeset)
    (dir : List String) :
    ∀ (explore : List (String × List Child)) (acc : Changeset),
      walk_children w dir explore acc =
        (walk_children w dir explore Changeset.empty).map (fun t => acc ++ t)
  | [], acc => by
    simp [walk_children, Except.map, Changeset.append_empty]
  | g :: rest, acc => by
    unfold walk_children
    cases hw : w (dir ++ [g.1]) (g.2.map (fun c => { c with parts := c.parts.tail })) with
    | error e => rfl
    | ok d =>
      show walk_children w dir rest (acc ++ d) =
        Except.map (fun t => acc ++ t) (walk_children w dir rest (Changeset.empty ++ d))
      rw [walk_children_acc w dir rest (acc ++ d), walk_children_acc w dir rest
        (Changeset.empty ++ d)]
      cases walk_children w dir rest Changeset.empty with
      | error e => rfl
      | ok t => simp [Except.map, Changeset.append_assoc, Changeset.empty_append]

theorem walk_children_ok_decomp {w : List String → List Child → Except PyError Changeset}
    {dir : List String} {explore : List (String × List Child)} {acc r : Changeset}
    (h : walk_children w dir explore acc = .ok r) :
    ∃ t, r = acc ++ t ∧ walk_children w dir explore Changeset.empty = .ok t := by
  rw [walk_children_acc] at h
  cases hwc : walk_children w dir explore Changeset.empty with
  | error e => rw [hwc] at h; cases h
  | ok t =>
    rw [hwc] at h
    simp only [Except.map] at h
    injection h with h2
    exact ⟨t, h2.symm, rfl⟩

/-- Every explored child's recursive walk succeeds and its contribution
embeds in the loop's result. -/
theorem walk_children_proj_sel {α : Type} (sel : Changeset → List α)
    (hsel : ∀ a b : Changeset, ∀ x, x ∈ sel (a ++ b) ↔ x ∈ sel a ∨ x ∈ sel b)
    {w : List String → List Child → Except PyError Changeset} {dir : List String} :
    ∀ {explore : List (String × List Child)} {acc r : Changeset},
      walk_children w dir explore acc = .ok r →
      (∀ x ∈ sel acc, x ∈ sel r) ∧
      ∀ g ∈ explore, ∃ dg,
        w (dir ++ [g.1]) (g.2.map (fun c => { c with parts := c.parts.tail })) = .ok dg ∧
        ∀ x ∈ sel dg, x ∈ sel r
  | [], acc, r, h => by
    unfold walk_children at h
    injection h with h2
    subst h2
    exact ⟨fun x hx => hx, fun g hg => absurd hg (List.not_mem_nil g)⟩
  | g :: rest, acc, r, h => by
    rcases walk_children_cons_ok h with ⟨dg, hw, hrest⟩
    rcases walk_children_proj_sel sel hsel hrest with ⟨hacc, htail⟩
    refine ⟨fun x hx => hacc x ((hsel acc dg x).mpr (Or.inl hx)), ?_⟩
    intro g2 hg2
    rcases List.mem_cons.mp hg2 with rfl | hg3
    · exact ⟨dg, hw, fun x hx => hacc x ((hsel acc dg x).mpr (Or.inr hx))⟩
    · exact htail g2 hg3

/-- Conversely, everything in the loop's result stems from the accumulator
or from one explored child. -/
theorem walk_children_mem_sel {α : Type} (sel : Changeset → List α)
    (hsel : ∀ a b : Changeset, ∀ x, x ∈ sel (a ++ b) ↔ x ∈ sel a ∨ x ∈ sel b)
    {w : List String → List Child → Except PyError Changeset} {dir : List String} :
    ∀ {explore : List (String × List Child)} {acc r : Changeset},
      walk_children w dir explore acc = .ok r →
      ∀ x ∈ sel r, x ∈ sel acc ∨ ∃ g ∈ explore, ∃ dg,
        w (dir ++ [g.1]) (g.2.map (fun c => { c with parts := c.parts.tail })) = .ok dg ∧
        x ∈ sel dg
  | [], acc, r, h, x, hx => by
    unfold walk_children at h
    injection h with h2
    subst h2
    exact Or.inl hx
  | g :: rest, acc, r, h, x, hx => by
    rcases walk_children_cons_ok h with ⟨dg, hw, hrest⟩
    rcases walk_children_mem_sel sel hsel hrest x hx with hacc | ⟨g2, hg2, dg2, hw2, hm2⟩
    · rcases (hsel acc dg x).mp hacc with h1 | h2
      · exact Or.inl h1
      · exact Or.inr ⟨g, List.mem_cons_self g rest, dg, hw, h2⟩
    · exact Or.inr ⟨g2, List.mem_cons_of_mem g hg2, dg2, hw2, hm2⟩

/-! ### Structure of `walk_recursive` -/

theorem walk_ok_succ {fs : Option FSTree} {sd : Bool} {fuel : Nat} {dir : List String}
    {children : List Child} {r : Changeset}
    (h : walk_recursive fs sd (fuel + 1) dir children = .ok r) :
    ∃ listing level explore,
      (if existsFS fs dir then listdirFS fs dir else .ok []) = .ok listing ∧
      processLevel fs sd dir children
        (sortedSet (listing ++ children.map childHead)) = .ok (level, explore) ∧
      walk_children (walk_recursive fs sd fuel) dir explore level = .ok r := by
  unfold walk_recursive at h
  split at h
  · cases h
  · next listing heq1 =>
    split at h
    · cases h
    · next level explore heq2 => exact ⟨listing, level, explore, heq1, heq2, h⟩

/-- Walking a path that exists as a regular file always fails (this is the
`os.listdir`-on-a-file crash). -/
theorem walk_at_file_errors {fs : Option FSTree} {sd : Bool} {p : List String}
    (hex : existsFS fs p = true) (hnd : isDirFS fs p = false) :
    ∀ fuel children, ∃ e, walk_recursive fs sd fuel p children = .error e := by
  intro fuel children
  cases fuel with
  | zero => exact ⟨.fuelExhausted, rfl⟩
  | succ fuel =>
    refine ⟨.notADirectory p, ?_⟩
    unfold walk_recursive
    rw [if_pos hex]
    have hfile : isFileFS fs p = true := isFile_of_exists_not_dir hex hnd
    unfold isFileFS at hfile
    unfold listdirFS
    cases hf : findFS fs p with
    | none => rw [hf] at hfile; cases hfile
    | some t =>
      cases t with
      | file c => rfl
      | dir es => rw [hf] at hfile; cases hfile

/-- Every path contributed by a walk below `dir` strictly extends `dir`. -/
theorem walk_paths_extend {fs : Option FSTree} {sd : Bool} :
    ∀ {fuel : Nat} {dir : List String} {children : List Child} {r : Changeset},
      walk_recursive fs sd fuel dir children = .ok r →
      ∀ p ∈ r.allPaths, ∃ n rest, p = dir ++ n :: rest := by
  intro fuel
  induction fuel with
  | zero =>
    intro dir children r h
    simp [walk_recursive] at h
  | succ fuel ih =>
    intro dir children r h
    rcases walk_ok_succ h with ⟨listing, level, explore, hl, hpl, hwc⟩
    intro p hp
    rcases walk_children_mem_sel Changeset.allPaths Changeset.allPaths_append hwc p hp with
      hlev | ⟨g, hg, dg, hw, hm⟩
    · rcases processLevel_mem_sel Changeset.allPaths Changeset.allPaths_append
        (fun x hx => by simp [Changeset.allPaths_empty] at hx) hpl p hlev with
        ⟨file, hf, df, ef, hok, hmem⟩
      exact ⟨file, [], (processName_paths hok).1 p hmem⟩
    · rcases ih hw p hm with ⟨n, rest, hrest⟩
      refine ⟨g.1, n :: rest, ?_⟩
      rw [hrest, List.append_assoc]
      rfl

/-! ### C9: missing output root -/

/-- C9: with the output root absent on disk, reconciliation succeeds by
treating the root as an empty listing, schedules every first path segment of
the target mapping for creation directly under the root (as a directory or a
file), and no path in any of the four lists is the root itself. -/
theorem C9_missing_root (state : List (String × StateEntry)) (sd : Bool) (cs : Changeset)
    (hne : state ≠ [])
    (h : compute_changes state sd none = .ok cs) :
    (∀ kv ∈ state, [(pySplitSlash kv.1).headD ""] ∈ cs.directories_to_create ∨
      [(pySplitSlash kv.1).headD ""] ∈ cs.files_to_create.map Entry.path) ∧
    (∀ p ∈ cs.allPaths, p ≠ []) := by
  unfold compute_changes at h
  constructor
  · intro kv hkv
    rcases walk_ok_succ h with ⟨listing, level, explore, hl, hpl, hwc⟩
    have hchild : (⟨pySplitSlash kv.1, kv.2.content⟩ : Child) ∈
        state.map (fun kv => { parts := pySplitSlash kv.1, content := kv.2.content : Child }) :=
      List.mem_map.mpr ⟨kv, hkv, rfl⟩
    have hhead : (pySplitSlash kv.1).headD "" =
        childHead ⟨pySplitSlash kv.1, kv.2.content⟩ := rfl
    rw [hhead]
    set n := childHead (⟨pySplitSlash kv.1, kv.2.content⟩ : Child) with hn
    have hnames : n ∈ sortedSet (listing ++
        (state.map (fun kv => { parts := pySplitSlash kv.1, content := kv.2.content : Child })).map
          childHead) := by
      rw [mem_sortedSet]
      exact List.mem_append.mpr (Or.inr (List.mem_map.mpr ⟨_, hchild, rfl⟩))
    have hgrp : (⟨pySplitSlash kv.1, kv.2.content⟩ : Child) ∈
        (state.map (fun kv => { parts := pySplitSlash kv.1, content := kv.2.content : Child
          })).filter (fun c => childHead c = n) :=
      List.mem_filter.mpr ⟨hchild, by simp⟩
    have hex : existsFS none ([] ++ [n]) = false := rfl
    -- the directories-to-create side
    rcases processLevel_proj_sel Changeset.directories_to_create (fun a b x => by
        rw [Changeset.append_directories_to_create]; exact List.mem_append) hpl n hnames with
      ⟨df, ef, hok, hsubd, -⟩
    rcases processLevel_proj_sel Changeset.files_to_create (fun a b x => by
        rw [Changeset.append_files_to_create]; exact List.mem_append) hpl n hnames with
      ⟨df2, ef2, hok2, hsubc, -⟩
    have hdf2 : df2 = df ∧ ef2 = ef := by
      rw [hok] at hok2
      injection hok2 with h2
      injection h2 with h3 h4
      exact ⟨h3.symm, h4.symm⟩
    rcases hdf2 with ⟨rfl, -⟩
    rcases walk_children_proj_sel Changeset.directories_to_create (fun a b x => by
        rw [Changeset.append_directories_to_create]; exact List.mem_append) hwc with ⟨haccd, -⟩
    rcases walk_children_proj_sel Changeset.files_to_create (fun a b x => by
        rw [Changeset.append_files_to_create]; exact List.mem_append) hwc with ⟨haccc, -⟩
    rcases processName_spec _ _ _ _ _ _ _ hok with
      ⟨hne2, hall, he, hcases⟩ | ⟨c, hc, hlen, he, hcases⟩ | ⟨hnil, he, hcases⟩
    · -- needed directory: scheduled for creation since nothing exists
      rcases hcases with ⟨-, hd⟩ | ⟨hext, -⟩ | ⟨hdir, -⟩
      · subst hd
        left
        refine haccd _ (hsubd _ ?_)
        simp
      · rw [hex] at hext; cases hext
      · have := exists_of_isDir hdir
        rw [hex] at this; cases this
    · -- needed leaf: scheduled for file creation
      rcases hcases with ⟨-, hd⟩ | ⟨hcont, -⟩ | ⟨cur, hcont, -, -⟩ | ⟨hext, -, -, -⟩
      · subst hd
        right
        refine List.mem_map.mpr ⟨⟨[] ++ [n], c.content⟩, haccc _ (hsubc _ ?_), rfl⟩
        simp
      · have := exists_of_isFile (isFile_of_fileContent hcont)
        rw [hex] at this; cases this
      · have := exists_of_isFile (isFile_of_fileContent hcont)
        rw [hex] at this; cases this
      · rw [hex] at hext; cases hext
    · rw [hnil] at hgrp
      cases hgrp
  · intro p hp
    rcases walk_paths_extend h p hp with ⟨n, rest, hrest⟩
    rw [hrest]
    simp

/-- Witness for C9 on a concrete two-level target with a missing root. -/
theorem C9_witness :
    ([("a/b", (⟨"X", "d"⟩ : StateEntry))] ≠ []) ∧
    (compute_changes [("a/b", ⟨"X", "d"⟩)] true none =
      .ok ⟨[], [], [⟨["a", "b"], "X"⟩], [["a"]]⟩) ∧
    ((∀ kv ∈ [("a/b", (⟨"X", "d"⟩ : StateEntry))],
        [(pySplitSlash kv.1).headD ""] ∈
          (Changeset.mk [] [] [⟨["a", "b"], "X"⟩] [["a"]]).directories_to_create ∨
        [(pySplitSlash kv.1).headD ""] ∈
          (Changeset.mk [] [] [⟨["a", "b"], "X"⟩] [["a"]]).files_to_create.map Entry.path) ∧
      (∀ p ∈ (Changeset.mk [] [] [⟨["a", "b"], "X"⟩] [["a"]]).allPaths, p ≠ [])) :=
  ⟨by decide, by decide,
    C9_missing_root [("a/b", ⟨"X", "d"⟩)] true _ (by decide) (by decide)⟩

/-! ### C10: the leaf assertion under prefix-free targets -/

theorem splitOnCharAux_ne_nil (c : Char) : ∀ l : List Char, splitOnCharAux c l ≠ []
  | [] => by simp [splitOnCharAux]
  | x :: xs => by
    unfold splitOnCharAux
    by_cases hx : x = c
    · simp [hx]
    · rw [if_neg hx]
      cases hr : splitOnCharAux c xs with
      | nil => simp
      | cons h t => simp

theorem pySplitSlash_ne_nil (s : String) : pySplitSlash s ≠ [] := by
  unfold pySplitSlash
  intro h
  exact splitOnCharAux_ne_nil '/' s.data (List.map_eq_nil_iff.mp h)

theorem listdirFS_error {fs : Option FSTree} {p : List String} {e : PyError}
    (h : listdirFS fs p = .error e) : e = .notADirectory p ∨ e = .fileNotFound p := by
  unfold listdirFS at h
  cases hf : findFS fs p with
  | none =>
    rw [hf] at h
    injection h with h2
    exact Or.inr h2.symm
  | some t =>
    cases t with
    | file c =>
      rw [hf] at h
      injection h with h2
      exact Or.inl h2.symm
    | dir es => rw [hf] at h; cases h

/-- A child of the group for `file` has `file :: tail` as its segments. -/
theorem grp_parts_shape {children : List Child} {file : String} {c : Child}
    (hne : c.parts ≠ [])
    (hc : c ∈ children.filter (fun ch => childHead ch = file)) :
    c.parts = file :: c.parts.tail := by
  have hhead := (List.mem_filter.mp hc).2
  simp only [decide_eq_true_eq] at hhead
  cases hp : c.parts with
  | nil => exact absurd hp hne
  | cons x t =>
    unfold childHead at hhead
    rw [hp] at hhead
    simp only [List.headD_cons] at hhead
    rw [hhead]
    rfl

/-- Under a prefix-free family of claims, `processName` never trips the
`assert len(files_data) == 1`. -/
theorem processName_no_assert {fs : Option FSTree} {sd : Bool} {dir : List String}
    {children : List Child} {file : String}
    (hne : ∀ c ∈ children, c.parts ≠ [])
    (hpf : (children.map Child.parts).Pairwise (fun a b => ¬ a <+: b ∧ ¬ b <+: a)) :
    processName fs sd dir children file ≠ .error .assertionError := by
  intro h
  unfold processName at h
  by_cases hA : (children.filter (fun c => childHead c = file)) ≠ []
  · rw [if_pos hA] at h
    cases hB : (children.filter (fun c => childHead c = file)).all
        (fun c => 1 < c.parts.length) with
    | true =>
      rw [if_pos (by rw [hB])] at h
      -- every branch of the needed-directory case returns `ok` or a
      -- differently-shaped error
      cases hex : existsFS fs (dir ++ [file]) with
      | false =>
        rw [hex] at h
        simp only [Bool.not_false, if_true] at h
        cases h
      | true =>
        rw [hex] at h
        simp only [Bool.not_true, Bool.false_eq_true, if_false] at h
        cases hdir : isDirFS fs (dir ++ [file]) with
        | false =>
          rw [hdir] at h
          simp only [Bool.not_false, if_true] at h
          cases hsd : sd with
          | false =>
            rw [hsd] at h
            simp only [Bool.not_false, if_true] at h
            injection h with h2
            cases h2
          | true =>
            rw [hsd] at h
            simp only [Bool.not_true, Bool.false_eq_true, if_false] at h
            cases h
        | true =>
          rw [hdir] at h
          simp only [Bool.not_true, Bool.false_eq_true, if_false] at h
          cases h
    | false =>
      rw [if_neg (by rw [hB]; exact Bool.false_ne_true)] at h
      by_cases hlen : (children.filter (fun c => childHead c = file)).length ≠ 1
      · -- the assertion branch: derive a prefix violation
        have hpfgrp : ((children.filter (fun c => childHead c = file)).map Child.parts).Pairwise
            (fun a b => ¬ a <+: b ∧ ¬ b <+: a) :=
          hpf.sublist ((List.filter_sublist _).map Child.parts)
        have hleaf : ∃ a ∈ children.filter (fun c => childHead c = file),
            ¬ 1 < a.parts.length := by
          rcases List.all_eq_false.mp hB with ⟨a, ha, ha2⟩
          exact ⟨a, ha, by simpa using ha2⟩
        rcases hleaf with ⟨a, hamem, halen⟩
        have haparts : a.parts = [file] := by
          have hshape := grp_parts_shape (hne a (List.mem_of_mem_filter hamem)) hamem
          rw [hshape]
          cases ht : a.parts.tail with
          | nil => rfl
          | cons y t2 =>
            exfalso
            apply halen
            rw [hshape, ht]
            simp
        cases hgl : children.filter (fun c => childHead c = file) with
        | nil => exact hA hgl
        | cons x ys =>
          cases ys with
          | nil => exact hlen (by rw [hgl]; rfl)
          | cons y t =>
            rw [hgl] at hpfgrp
            simp only [List.map_cons, List.pairwise_cons] at hpfgrp
            rw [hgl] at hamem
            rcases List.mem_cons.mp hamem with rfl | hmem2
            · -- the single-segment child is the head: it prefixes the second
              have hy : y ∈ children.filter (fun c => childHead c = file) := by
                rw [hgl]; simp
              have hyshape := grp_parts_shape (hne y (List.mem_of_mem_filter hy)) hy
              have hR := hpfgrp.1 y.parts (by simp)
              exact hR.1 (by rw [haparts, hyshape]; exact ⟨y.parts.tail, rfl⟩)
            · -- it is deeper: the head prefixes it the other way round
              have hx : x ∈ children.filter (fun c => childHead c = file) := by
                rw [hgl]; simp
              have hxshape := grp_parts_shape (hne x (List.mem_of_mem_filter hx)) hx
              have hR := hpfgrp.1 a.parts (List.mem_map.mpr ⟨a, hmem2, rfl⟩)
              exact hR.2 (by rw [haparts, hxshape]; exact ⟨x.parts.tail, rfl⟩)
      · rw [if_neg hlen] at h
        cases hex : existsFS fs (dir ++ [file]) with
        | false =>
          rw [hex] at h
          simp only [Bool.not_false, if_true] at h
          cases h
        | true =>
          rw [hex] at h
          simp only [Bool.not_true, Bool.false_eq_true, if_false] at h
          cases hfile : isFileFS fs (dir ++ [file]) with
          | true =>
            rw [hfile] at h
            simp only [if_true] at h
            rcases readFileFS_of_isFile hfile with ⟨cur, hread, -⟩
            rw [hread] at h
            simp only [Except.bind, bind] at h
            by_cases hcur : cur ≠ (((children.filter
                (fun c => childHead c = file)).headD ⟨[], ""⟩)).content
            · rw [if_pos hcur] at h
              cases h
            · rw [if_neg hcur] at h
              cases h
          | false =>
            rw [hfile] at h
            simp only [Bool.false_eq_true, if_false] at h
            cases hsd : sd with
            | false =>
              rw [hsd] at h
              simp only [Bool.not_false, if_true] at h
              injection h with h2
              cases h2
            | true =>
              rw [hsd] at h
              simp only [Bool.not_true, Bool.false_eq_true, if_false] at h
              cases h
  · rw [if_neg hA] at h
    cases hsd : sd with
    | false =>
      rw [hsd] at h
      simp only [Bool.false_and, Bool.false_eq_true, if_false] at h
      cases h
    | true =>
      rw [hsd] at h
      cases hig : (true && !(DEFAULT_IGNORE_LIST.contains file)) with
      | true =>
        rw [hig] at h
        simp only [if_true] at h
        cases h
      | false =>
        rw [hig] at h
        simp only [Bool.false_eq_true, if_false] at h
        cases h

theorem processLevel_error_inv {fs : Option FSTree} {sd : Bool} {dir : List String}
    {children : List Child} :
    ∀ {names : List String} {e : PyError},
      processLevel fs sd dir children names = .error e →
      ∃ file ∈ names, processName fs sd dir children file = .error e
  | [], e, h => by unfold processLevel at h; cases h
  | name :: rest, e, h => by
    unfold processLevel at h
    cases h1 : processName fs sd dir children name with
    | error e2 =>
      rw [h1] at h
      injection h with h2
      exact ⟨name, List.mem_cons_self name rest, by rw [h1, h2]⟩
    | ok p =>
      obtain ⟨d1, e1⟩ := p
      rw [h1] at h
      simp only [Except.bind, bind] at h
      cases h2 : processLevel fs sd dir children rest with
      | error e2 =>
        rw [h2] at h
        injection h with h3
        rcases processLevel_error_inv (by rw [h2, h3]) with ⟨file, hf, hff⟩
        exact ⟨file, List.mem_cons_of_mem name hf, hff⟩
      | ok q =>
        obtain ⟨d2, e2⟩ := q
        rw [h2] at h
        simp only [Except.bind, bind] at h
        cases h

theorem walk_children_error_inv {w : List String → List Child → Except PyError Changeset}
    {dir : List String} :
    ∀ {explore : List (String × List Child)} {acc : Changeset} {e : PyError},
      walk_children w dir explore acc = .error e →
      ∃ g ∈ explore,
        w (dir ++ [g.1]) (g.2.map (fun c => { c with parts := c.parts.tail })) = .error e
  | [], acc, e, h => by unfold walk_children at h; cases h
  | g :: rest, acc, e, h => by
    unfold walk_children at h
    cases hw : w (dir ++ [g.1]) (g.2.map (fun c => { c with parts := c.parts.tail })) with
    | error e2 =>
      rw [hw] at h
      injection h with h2
      exact ⟨g, List.mem_cons_self g rest, by rw [hw, h2]⟩
    | ok dg =>
      rw [hw] at h
      rcases walk_children_error_inv h with ⟨g2, hg2, hw2⟩
      exact ⟨g2, List.mem_cons_of_mem g hg2, hw2⟩

theorem walk_error_succ {fs : Option FSTree} {sd : Bool} {fuel : Nat} {dir : List String}
    {children : List Child} {e : PyError}
    (h : walk_recursive fs sd (fuel + 1) dir children = .error e) :
    (if existsFS fs dir then listdirFS fs dir else .ok []) = .error e ∨
    ∃ listing, (if existsFS fs dir then listdirFS fs dir else .ok []) = .ok listing ∧
      (processLevel fs sd dir children
          (sortedSet (listing ++ children.map childHead)) = .error e ∨
        ∃ level explore, processLevel fs sd dir children
            (sortedSet (listing ++ children.map childHead)) = .ok (level, explore) ∧
          walk_children (walk_recursive fs sd fuel) dir explore level = .error e) := by
  unfold walk_recursive at h
  split at h
  · next e2 heq1 =>
    injection h with h2
    exact Or.inl (by rw [heq1, h2])
  · next listing heq1 =>
    split at h
    · next e2 heq2 =>
      injection h with h2
      exact Or.inr ⟨listing, heq1, Or.inl (by rw [heq2, h2])⟩
    · next level explore heq2 => exact Or.inr ⟨listing, heq1, Or.inr ⟨level, explore, heq2, h⟩⟩

/-- Under non-empty, pairwise prefix-incomparable claims the walk never
reports an assertion failure, at any recursion level. -/
theorem walk_no_assert {fs : Option FSTree} {sd : Bool} :
    ∀ {fuel : Nat} {dir : List String} {children : List Child},
      (∀ c ∈ children, c.parts ≠ []) →
      (children.map Child.parts).Pairwise (fun a b => ¬ a <+: b ∧ ¬ b <+: a) →
      walk_recursive fs sd fuel dir children ≠ .error .assertionError := by
  intro fuel
  induction fuel with
  | zero =>
    intro dir children hne hpf h
    unfold walk_recursive at h
    injection h with h2
    cases h2
  | succ fuel ih =>
    intro dir children hne hpf h
    rcases walk_error_succ h with hl | ⟨listing, hl, hpl | ⟨level, explore, hpl, hwc⟩⟩
    · by_cases hex : existsFS fs dir = true
      · rw [if_pos hex] at hl
        rcases listdirFS_error hl with h2 | h2 <;> cases h2
      · rw [if_neg hex] at hl; cases hl
    · rcases processLevel_error_inv hpl with ⟨file, -, hpn⟩
      exact processName_no_assert hne hpf hpn
    · rcases walk_children_error_inv hwc with ⟨g, hg, hw⟩
      rcases processLevel_mem_explore hpl g hg with ⟨file, -, df, ef, hok, hgef⟩
      rcases (processName_paths hok).2 g hgef with ⟨hgeq, hgne, hgall⟩
      subst hgeq
      refine ih ?_ ?_ hw
      · intro c hc
        rcases List.mem_map.mp hc with ⟨c0, hc0, rfl⟩
        have hlen : 1 < c0.parts.length := by
          have := List.all_eq_true.mp hgall c0 hc0
          simpa using this
        simp only [ne_eq]
        intro htail
        have htail2 : c0.parts.tail = [] := htail
        have h3 : c0.parts.length - 1 = 0 := by
          rw [← List.length_tail, htail2]
          rfl
        omega
      · have hsub : ((children.filter (fun c => childHead c = file)).map Child.parts).Pairwise
            (fun a b => ¬ a <+: b ∧ ¬ b <+: a) :=
          hpf.sublist ((List.filter_sublist _).map Child.parts)
        have hmapmap : ((children.filter (fun c => childHead c = file)).map
            (fun c => { parts := c.parts.tail, content := c.content : Child })).map Child.parts =
            ((children.filter (fun c => childHead c = file)).map Child.parts).map List.tail := by
          simp [List.map_map]
        rw [hmapmap]
        rw [List.pairwise_map, List.pairwise_map]
        rw [List.pairwise_map] at hsub
        refine hsub.imp_of_mem ?_
        intro a b ha hb hR
        have hashape := grp_parts_shape (hne a (List.mem_of_mem_filter ha)) ha
        have hbshape := grp_parts_shape (hne b (List.mem_of_mem_filter hb)) hb
        constructor
        · intro hpre
          apply hR.1
          rw [hashape, hbshape]
          rcases hpre with ⟨t, ht⟩
          exact ⟨t, by rw [← ht]; rfl⟩
        · intro hpre
          apply hR.2
          rw [hashape, hbshape]
          rcases hpre with ⟨t, ht⟩
          exact ⟨t, by rw [← ht]; rfl⟩

/-- C10: for a target mapping whose split paths are pairwise distinct and
prefix-incomparable, the reconciler's internal `assert len(files_data) == 1`
never fails at any recursion level (the run may still fail for other
reasons, but never with an assertion failure). -/
theorem C10_no_assertion_failure (state : List (String × StateEntry)) (sd : Bool)
    (fs : Option FSTree)
    (hpf : (state.map (fun kv => pySplitSlash kv.1)).Pairwise
      (fun a b => ¬ a <+: b ∧ ¬ b <+: a)) :
    compute_changes state sd fs ≠ .error .assertionError := by
  unfold compute_changes
  refine walk_no_assert ?_ ?_
  · intro c hc
    rcases List.mem_map.mp hc with ⟨kv, -, rfl⟩
    exact pySplitSlash_ne_nil kv.1
  · have : (state.map (fun kv =>
        { parts := pySplitSlash kv.1, content := kv.2.content : Child })).map Child.parts =
        state.map (fun kv => pySplitSlash kv.1) := by
      simp [List.map_map]
    rw [this]
    exact hpf

/-- Witness for C10 on a concrete prefix-free mapping. -/
theorem C10_witness :
    ((([("a/b", (⟨"X", "d"⟩ : StateEntry)), ("a/c", ⟨"Y", "d"⟩)].map
        (fun kv => pySplitSlash kv.1)).Pairwise
      (fun a b => ¬ a <+: b ∧ ¬ b <+: a)) ∧
    compute_changes [("a/b", ⟨"X", "d"⟩), ("a/c", ⟨"Y", "d"⟩)] true none ≠
      .error .assertionError) :=
  ⟨by decide, C10_no_assertion_failure _ true none (by decide)⟩

/-! ### C1 amended: disjointness of the four lists up to delete-then-recreate -/

theorem mem_allPaths_of_to_delete {c : Changeset} {p : List String}
    (h : p ∈ c.to_delete) : p ∈ c.allPaths := by
  unfold Changeset.allPaths
  simp [h]

theorem mem_allPaths_of_update {c : Changeset} {p : List String}
    (h : p ∈ c.files_to_update.map Entry.path) : p ∈ c.allPaths := by
  unfold Changeset.allPaths
  rcases List.mem_map.mp h with ⟨x, hx, rfl⟩
  simp
  exact Or.inr (Or.inl ⟨x, hx, rfl⟩)

theorem mem_allPaths_of_create {c : Changeset} {p : List String}
    (h : p ∈ c.files_to_create.map Entry.path) : p ∈ c.allPaths := by
  unfold Changeset.allPaths
  rcases List.mem_map.mp h with ⟨x, hx, rfl⟩
  simp
  exact Or.inr (Or.inr (Or.inl ⟨x, hx, rfl⟩))

theorem mem_allPaths_of_dir {c : Changeset} {p : List String}
    (h : p ∈ c.directories_to_create) : p ∈ c.allPaths := by
  unfold Changeset.allPaths
  simp [h]

theorem add_to_delete (a b : Changeset) (p : List String) :
    p ∈ (a ++ b).to_delete ↔ p ∈ a.to_delete ∨ p ∈ b.to_delete := by
  rw [Changeset.append_to_delete]; exact List.mem_append

theorem add_update (a b : Changeset) (p : List String) :
    p ∈ (a ++ b).files_to_update.map Entry.path ↔
      p ∈ a.files_to_update.map Entry.path ∨ p ∈ b.files_to_update.map Entry.path := by
  rw [Changeset.append_files_to_update, List.map_append]; exact List.mem_append

theorem add_create (a b : Changeset) (p : List String) :
    p ∈ (a ++ b).files_to_create.map Entry.path ↔
      p ∈ a.files_to_create.map Entry.path ∨ p ∈ b.files_to_create.map Entry.path := by
  rw [Changeset.append_files_to_create, List.map_append]; exact List.mem_append

theorem add_dir (a b : Changeset) (p : List String) :
    p ∈ (a ++ b).directories_to_create ↔
      p ∈ a.directories_to_create ∨ p ∈ b.directories_to_create := by
  rw [Changeset.append_directories_to_create]; exact List.mem_append

/-- Two strict extensions of `dir` by different first segments are different
paths; equal extensions pin the segment. -/
theorem append_single_inj {dir : List String} {f1 f2 : String}
    (h : dir ++ [f1] = dir ++ [f2]) : f1 = f2 := by
  have h2 := List.append_cancel_left h
  injection h2

/-- The five disjointness properties, proved for every subtree of the walk.
(`to_delete` and `files_to_create` may intersect: delete-then-recreate.) -/
theorem walk_disjoint {fs : Option FSTree} {sd : Bool} :
    ∀ {fuel : Nat} {dir : List String} {children : List Child} {r : Changeset},
      walk_recursive fs sd fuel dir children = .ok r →
      ∀ p, (p ∈ r.directories_to_create → p ∈ r.files_to_create.map Entry.path → False) ∧
        (p ∈ r.directories_to_create → p ∈ r.files_to_update.map Entry.path → False) ∧
        (p ∈ r.files_to_create.map Entry.path → p ∈ r.files_to_update.map Entry.path → False) ∧
        (p ∈ r.to_delete → p ∈ r.files_to_update.map Entry.path → False) ∧
        (p ∈ r.to_delete → p ∈ r.directories_to_create → False) := by
  intro fuel
  induction fuel with
  | zero =>
    intro dir children r h
    simp [walk_recursive] at h
  | succ fuel ih =>
    intro dir children r h
    rcases walk_ok_succ h with ⟨listing, level, explore, hl, hpl, hwc⟩
    have hexnodup : (explore.map Prod.fst).Nodup :=
      (processLevel_explore_names hpl).nodup (nodup_sortedSet _)
    -- a successful walk below excludes the directory-over-file conflict shape
    have hnoconf : ∀ file grp, (file, grp) ∈ explore →
        existsFS fs (dir ++ [file]) = true → isDirFS fs (dir ++ [file]) = false → False := by
      intro file grp hmem hext hdir
      rcases (walk_children_proj_sel (fun c => c.to_delete)
        (fun a b p => add_to_delete a b p) hwc).2 (file, grp) hmem with ⟨dg, hwg, -⟩
      rcases @walk_at_file_errors _ sd _ hext hdir fuel
        (grp.map (fun c => { c with parts := c.parts.tail })) with ⟨e, he⟩
      rw [he] at hwg
      cases hwg
    -- the per-name contribution never mixes the five excluded pairs
    have hnameexcl : ∀ file df ef, processName fs sd dir children file = .ok (df, ef) →
        (∀ g ∈ ef, g ∈ explore) → ∀ p,
        (p ∈ df.directories_to_create → p ∈ df.files_to_create.map Entry.path → False) ∧
        (p ∈ df.directories_to_create → p ∈ df.files_to_update.map Entry.path → False) ∧
        (p ∈ df.files_to_create.map Entry.path → p ∈ df.files_to_update.map Entry.path →
          False) ∧
        (p ∈ df.to_delete → p ∈ df.files_to_update.map Entry.path → False) ∧
        (p ∈ df.to_delete → p ∈ df.directories_to_create → False) := by
      intro file df ef hok hef p
      rcases processName_spec _ _ _ _ _ _ _ hok with
        ⟨-, -, he, hcases⟩ | ⟨c, -, -, he, hcases⟩ | ⟨-, he, hcases⟩
      · rcases hcases with ⟨-, hd⟩ | ⟨hext, hdir, -, hd⟩ | ⟨-, hd⟩
        · subst hd; simp
        · subst he
          exact absurd (hnoconf file _ (hef _ (List.mem_singleton_self _)) hext hdir) id
        · subst hd; simp [Changeset.empty]
      · rcases hcases with ⟨-, hd⟩ | ⟨-, hd⟩ | ⟨cur, -, -, hd⟩ | ⟨-, -, -, hd⟩ <;>
          subst hd <;> simp [Changeset.empty]
      · rcases hcases with ⟨-, -, hd⟩ | ⟨-, hd⟩ <;> subst hd <;> simp [Changeset.empty]
    -- generic combination of one A-occurrence and one B-occurrence of a path
    have hperpair : ∀ (selA selB : Changeset → List (List String)),
        (∀ a b p, p ∈ selA (a ++ b) ↔ p ∈ selA a ∨ p ∈ selA b) →
        (∀ a b p, p ∈ selB (a ++ b) ↔ p ∈ selB a ∨ p ∈ selB b) →
        (∀ c p, p ∈ selA c → p ∈ c.allPaths) →
        (∀ c p, p ∈ selB c → p ∈ c.allPaths) →
        (∀ file df ef, processName fs sd dir children file = .ok (df, ef) →
          (∀ g ∈ ef, g ∈ explore) → ∀ p, p ∈ selA df → p ∈ selB df → False) →
        (∀ g ∈ explore, ∀ dg, walk_recursive fs sd fuel (dir ++ [g.1])
            (g.2.map (fun c => { c with parts := c.parts.tail })) = .ok dg →
          ∀ p, p ∈ selA dg → p ∈ selB dg → False) →
        ∀ p, p ∈ selA r → p ∈ selB r → False := by
      intro selA selB haddA haddB hsubA hsubB hnm hsb p hpA hpB
      rcases walk_children_mem_sel selA haddA hwc p hpA with hA | ⟨g, hg, dg, hwg, hmA⟩ <;>
        rcases walk_children_mem_sel selB haddB hwc p hpB with hB | ⟨g2, hg2, dg2, hwg2, hmB⟩
      · -- both in the level
        rcases processLevel_mem_sel selA haddA
          (fun x hx => by
            have := hsubA Changeset.empty x hx
            rw [Changeset.allPaths_empty] at this
            cases this) hpl p hA with ⟨f1, hf1, df1, ef1, hok1, hm1⟩
        rcases processLevel_mem_sel selB haddB
          (fun x hx => by
            have := hsubB Changeset.empty x hx
            rw [Changeset.allPaths_empty] at this
            cases this) hpl p hB with ⟨f2, hf2, df2, ef2, hok2, hm2⟩
        have hp1 : p = dir ++ [f1] := (processName_paths hok1).1 p (hsubA df1 p hm1)
        have hp2 : p = dir ++ [f2] := (processName_paths hok2).1 p (hsubB df2 p hm2)
        have hf12 : f1 = f2 := append_single_inj (hp1 ▸ hp2)
        subst hf12
        rw [hok1] at hok2
        injection hok2 with h2
        injection h2 with h3 h4
        subst h3; subst h4
        rcases processLevel_proj_sel selA haddA hpl f1 hf1 with ⟨df', ef', hok', -, hexp'⟩
        rw [hok1] at hok'
        injection hok' with h2
        injection h2 with h3 h4
        subst h3; subst h4
        exact hnm f1 df1 ef1 hok1 hexp' p hm1 hm2
      · -- A at the level, B below a child: lengths differ
        rcases processLevel_mem_sel selA haddA
          (fun x hx => by
            have := hsubA Changeset.empty x hx
            rw [Changeset.allPaths_empty] at this
            cases this) hpl p hA with ⟨f1, hf1, df1, ef1, hok1, hm1⟩
        have hp1 : p = dir ++ [f1] := (processName_paths hok1).1 p (hsubA df1 p hm1)
        rcases walk_paths_extend hwg2 p (hsubB dg2 p hmB) with ⟨n, rest, hp2⟩
        rw [hp1] at hp2
        have := congrArg List.length hp2
        simp [List.length_append] at this
      · -- B at the level, A below a child
        rcases processLevel_mem_sel selB haddB
          (fun x hx => by
            have := hsubB Changeset.empty x hx
            rw [Changeset.allPaths_empty] at this
            cases this) hpl p hB with ⟨f2, hf2, df2, ef2, hok2, hm2⟩
        have hp2 : p = dir ++ [f2] := (processName_paths hok2).1 p (hsubB df2 p hm2)
        rcases walk_paths_extend hwg p (hsubA dg p hmA) with ⟨n, rest, hp1⟩
        rw [hp2] at hp1
        have := congrArg List.length hp1
        simp [List.length_append] at this
      · -- both below children: same child, or different branch names
        rcases walk_paths_extend hwg p (hsubA dg p hmA) with ⟨n1, rest1, hp1⟩
        rcases walk_paths_extend hwg2 p (hsubB dg2 p hmB) with ⟨n2, rest2, hp2⟩
        have hheads : g.1 = g2.1 := by
          rw [hp1] at hp2
          rw [List.append_assoc, List.append_assoc] at hp2
          have h2 := List.append_cancel_left hp2
          injection h2
        have hgg : g = g2 :=
          List.inj_on_of_nodup_map hexnodup hg hg2 hheads
        subst hgg
        rw [hwg] at hwg2
        injection hwg2 with h2
        subst h2
        exact hsb g hg dg hwg p hmA hmB
    intro p
    refine ⟨?_, ?_, ?_, ?_, ?_⟩
    · exact fun h1 h2 => hperpair (fun c => c.directories_to_create)
        (fun c => c.files_to_create.map Entry.path) add_dir add_create
        (fun c p h => mem_allPaths_of_dir h) (fun c p h => mem_allPaths_of_create h)
        (fun f df ef hok hef p => ((hnameexcl f df ef hok hef p).1))
        (fun g hg dg hwg p => ((ih hwg p).1)) p h1 h2
    · exact fun h1 h2 => hperpair (fun c => c.directories_to_create)
        (fun c => c.files_to_update.map Entry.path) add_dir add_update
        (fun c p h => mem_allPaths_of_dir h) (fun c p h => mem_allPaths_of_update h)
        (fun f df ef hok hef p => ((hnameexcl f df ef hok hef p).2.1))
        (fun g hg dg hwg p => ((ih hwg p).2.1)) p h1 h2
    · exact fun h1 h2 => hperpair (fun c => c.files_to_create.map Entry.path)
        (fun c => c.files_to_update.map Entry.path) add_create add_update
        (fun c p h => mem_allPaths_of_create h) (fun c p h => mem_allPaths_of_update h)
        (fun f df ef hok hef p => ((hnameexcl f df ef hok hef p).2.2.1))
        (fun g hg dg hwg p => ((ih hwg p).2.2.1)) p h1 h2
    · exact fun h1 h2 => hperpair (fun c => c.to_delete)
        (fun c => c.files_to_update.map Entry.path) add_to_delete add_update
        (fun c p h => mem_allPaths_of_to_delete h) (fun c p h => mem_allPaths_of_update h)
        (fun f df ef hok hef p => ((hnameexcl f df ef hok hef p).2.2.2.1))
        (fun g hg dg hwg p => ((ih hwg p).2.2.2.1)) p h1 h2
    · exact fun h1 h2 => hperpair (fun c => c.to_delete)
        (fun c => c.directories_to_create) add_to_delete add_dir
        (fun c p h => mem_allPaths_of_to_delete h) (fun c p h => mem_allPaths_of_dir h)
        (fun f df ef hok hef p => ((hnameexcl f df ef hok hef p).2.2.2.2))
        (fun g hg dg hwg p => ((ih hwg p).2.2.2.2)) p h1 h2

/-- C1, amended: in any successfully computed changeset the lists
directories-to-create, files-to-create and files-to-update are pairwise
disjoint, and paths-to-delete is disjoint from files-to-update and from
directories-to-create; only paths-to-delete and files-to-create may share a
path (delete-then-recreate of a type-conflicting leaf). -/
theorem C1_amended_disjointness (state : List (String × StateEntry)) (sd : Bool)
    (fs : Option FSTree) (cs : Changeset)
    (h : compute_changes state sd fs = .ok cs) :
    (∀ p ∈ cs.directories_to_create, p ∉ cs.files_to_create.map Entry.path) ∧
    (∀ p ∈ cs.directories_to_create, p ∉ cs.files_to_update.map Entry.path) ∧
    (∀ p ∈ cs.files_to_create.map Entry.path, p ∉ cs.files_to_update.map Entry.path) ∧
    (∀ p ∈ cs.to_delete, p ∉ cs.files_to_update.map Entry.path) ∧
    (∀ p ∈ cs.to_delete, p ∉ cs.directories_to_create) := by
  unfold compute_changes at h
  have hd := walk_disjoint h
  exact ⟨fun p h1 h2 => (hd p).1 h1 h2, fun p h1 h2 => (hd p).2.1 h1 h2,
    fun p h1 h2 => (hd p).2.2.1 h1 h2, fun p h1 h2 => (hd p).2.2.2.1 h1 h2,
    fun p h1 h2 => (hd p).2.2.2.2 h1 h2⟩

/-- Witness for the amended C1 on a tree mixing deletion, update, creation
and directory creation. -/
theorem C1_amended_witness :
    (compute_changes [("a/b.py", ⟨"X", "d"⟩), ("README.md", ⟨"R", "d"⟩)] true
        (some (.dir [("junk", .file "j"), ("a", .dir [("old.py", .file "o"),
          ("b.py", .file "Y")])])) =
      .ok ⟨[["junk"], ["a", "old.py"]], [⟨["a", "b.py"], "X"⟩], [⟨["README.md"], "R"⟩], []⟩) ∧
    (∀ p ∈ (Changeset.mk [["junk"], ["a", "old.py"]] [⟨["a", "b.py"], "X"⟩]
        [⟨["README.md"], "R"⟩] []).to_delete,
      p ∉ (Changeset.mk [["junk"], ["a", "old.py"]] [⟨["a", "b.py"], "X"⟩]
        [⟨["README.md"], "R"⟩] []).files_to_update.map Entry.path) :=
  ⟨by decide,
    (C1_amended_disjointness [("a/b.py", ⟨"X", "d"⟩), ("README.md", ⟨"R", "d"⟩)] true
      (some (.dir [("junk", .file "j"), ("a", .dir [("old.py", .file "o"),
        ("b.py", .file "Y")])])) _ (by decide)).2.2.2.1⟩

/-! ### C7: directory creations and their parents -/

/-- Splitting a concatenation around a distinguished element. -/
theorem split_append {α : Type} :
    ∀ {l m l1 l2 : List α} {d : α}, l ++ m = l1 ++ d :: l2 →
      (∃ l2a, l = l1 ++ d :: l2a) ∨ (∃ m1, m = m1 ++ d :: l2 ∧ l1 = l ++ m1)
  | [], m, l1, l2, d, h => Or.inr ⟨l1, h, rfl⟩
  | a :: l', m, [], l2, d, h => by
    injection h with h1 h2
    exact Or.inl ⟨l', by rw [h1]; rfl⟩
  | a :: l', m, b :: l1', l2, d, h => by
    injection h with h1 h2
    rcases split_append h2 with ⟨l2a, hl⟩ | ⟨m1, hm, hls⟩
    · exact Or.inl ⟨l2a, by rw [hl, h1]; rfl⟩
    · exact Or.inr ⟨m1, hm, by rw [hls, h1]; rfl⟩

/-- An explored name whose path exists as a regular file makes the loop
fail, so it cannot occur in a successful run. -/
theorem walk_explored_not_file {fs : Option FSTree} {sd : Bool} {fuel : Nat}
    {dir : List String} {explore : List (String × List Child)} {acc r : Changeset}
    (hwc : walk_children (walk_recursive fs sd fuel) dir explore acc = .ok r) :
    ∀ g ∈ explore, existsFS fs (dir ++ [g.1]) = true →
      isDirFS fs (dir ++ [g.1]) = false → False := by
  intro g hg hext hdir
  rcases (walk_children_proj_sel (fun c => c.to_delete)
    (fun a b p => add_to_delete a b p) hwc).2 g hg with ⟨dg, hwg, -⟩
  rcases @walk_at_file_errors _ sd _ hext hdir fuel
    (g.2.map (fun c => { c with parts := c.parts.tail })) with ⟨e, he⟩
  rw [he] at hwg
  cases hwg

/-- The `explore` loop preserves the parent property of the directory list:
every directory entry's parent is the node itself, an on-disk directory, or
an earlier entry. -/
theorem walk_children_dirs {fs : Option FSTree} {sd : Bool} {fuel : Nat}
    {dir : List String} :
    ∀ {explore : List (String × List Child)} {acc r : Changeset},
      walk_children (walk_recursive fs sd fuel) dir explore acc = .ok r →
      (∀ l1 d l2, acc.directories_to_create = l1 ++ d :: l2 →
        d.dropLast = dir ∨ isDirFS fs d.dropLast = true ∨ d.dropLast ∈ l1) →
      (∀ g ∈ explore, isDirFS fs (dir ++ [g.1]) = true ∨
        dir ++ [g.1] ∈ acc.directories_to_create) →
      (∀ g ∈ explore, ∀ dg, walk_recursive fs sd fuel (dir ++ [g.1])
          (g.2.map (fun c => { c with parts := c.parts.tail })) = .ok dg →
        ∀ l1 d l2, dg.directories_to_create = l1 ++ d :: l2 →
          d.dropLast = dir ++ [g.1] ∨ isDirFS fs d.dropLast = true ∨ d.dropLast ∈ l1) →
      ∀ l1 d l2, r.directories_to_create = l1 ++ d :: l2 →
        d.dropLast = dir ∨ isDirFS fs d.dropLast = true ∨ d.dropLast ∈ l1
  | [], acc, r, h, hacc, hexpl, hchild => by
    unfold walk_children at h
    injection h with h2
    subst h2
    exact hacc
  | g :: rest, acc, r, h, hacc, hexpl, hchild => by
    rcases walk_children_cons_ok h with ⟨dg, hwg, hrest⟩
    refine walk_children_dirs hrest ?_ ?_ ?_
    · -- the parent property for `acc ++ dg`
      intro l1 d l2 hsplit
      rw [Changeset.append_directories_to_create] at hsplit
      rcases split_append hsplit with ⟨l2a, hl⟩ | ⟨m1, hm, hls⟩
      · exact hacc l1 d l2a hl
      · rcases hchild g (List.mem_cons_self g rest) dg hwg m1 d l2 hm with hd | hd | hd
        · rcases hexpl g (List.mem_cons_self g rest) with hg2 | hg2
          · exact Or.inr (Or.inl (by rw [hd]; exact hg2))
          · exact Or.inr (Or.inr (by rw [hls, hd]; exact List.mem_append.mpr (Or.inl hg2)))
        · exact Or.inr (Or.inl hd)
        · exact Or.inr (Or.inr (by rw [hls]; exact List.mem_append.mpr (Or.inr hd)))
    · intro g2 hg2
      rcases hexpl g2 (List.mem_cons_of_mem g hg2) with h2 | h2
      · exact Or.inl h2
      · exact Or.inr ((add_dir acc dg _).mpr (Or.inl h2))
    · exact fun g2 hg2 => hchild g2 (List.mem_cons_of_mem g hg2)

/-- The parent property for the whole subtree below `dir`. -/
theorem walk_dirs_parents {fs : Option FSTree} {sd : Bool} :
    ∀ {fuel : Nat} {dir : List String} {children : List Child} {r : Changeset},
      walk_recursive fs sd fuel dir children = .ok r →
      ∀ l1 d l2, r.directories_to_create = l1 ++ d :: l2 →
        d.dropLast = dir ∨ isDirFS fs d.dropLast = true ∨ d.dropLast ∈ l1 := by
  intro fuel
  induction fuel with
  | zero =>
    intro dir children r h
    simp [walk_recursive] at h
  | succ fuel ih =>
    intro dir children r h
    rcases walk_ok_succ h with ⟨listing, level, explore, hl, hpl, hwc⟩
    refine walk_children_dirs hwc ?_ ?_ ?_
    · -- level entries always sit directly under the node
      intro l1 d l2 hsplit
      have hd : d ∈ level.directories_to_create := by
        rw [hsplit]
        exact List.mem_append.mpr (Or.inr (List.mem_cons_self d l2))
      rcases processLevel_mem_sel (fun c => c.directories_to_create) add_dir
        (fun x hx => by cases hx) hpl d hd with ⟨file, -, df, ef, hok, hm⟩
      have hp : d = dir ++ [file] := (processName_paths hok).1 d (mem_allPaths_of_dir hm)
      exact Or.inl (by rw [hp]; exact List.dropLast_concat)
    · -- each explored name already exists as a directory or was just scheduled
      intro g hg
      rcases processLevel_mem_explore hpl g hg with ⟨file, -, df, ef, hok, hgef⟩
      rcases (processName_paths hok).2 g hgef with ⟨hgeq, -, -⟩
      rcases processName_spec _ _ _ _ _ _ _ hok with
        ⟨-, -, he, hcases⟩ | ⟨c, -, -, he, -⟩ | ⟨hnil, he, -⟩
      · rcases processLevel_proj_sel (fun c => c.directories_to_create) add_dir hpl file
          (by
            have hnames := processLevel_explore_names hpl
            exact hnames.subset (List.mem_map.mpr ⟨g, hg, by rw [hgeq]⟩)) with
          ⟨df2, ef2, hok2, hsub2, -⟩
        rw [hok] at hok2
        injection hok2 with h2
        injection h2 with h3 h4
        subst h3; subst h4
        rcases hcases with ⟨-, hd⟩ | ⟨hext, hdir, -, -⟩ | ⟨hdir, -⟩
        · subst hd
          right
          rw [hgeq]
          exact hsub2 _ (by simp)
        · exact absurd (walk_explored_not_file hwc g hg (by rw [hgeq]; exact hext)
            (by rw [hgeq]; exact hdir)) id
        · left
          rw [hgeq]
          exact hdir
      · subst he
        cases hgef
      · subst he
        cases hgef
    · exact fun g hg dg hwg => ih hwg

/-- C7 as stated fails when the output root directory is missing: the
root-level directory has the root as parent, which neither exists on disk
nor appears earlier in the list. -/
theorem C7_counterexample :
    compute_changes [("a/b", ⟨"X", "d"⟩)] false none =
      .ok ⟨[], [], [⟨["a", "b"], "X"⟩], [["a"]]⟩ ∧
    ¬ (∀ l1 d l2, (Changeset.mk [] [] [⟨["a", "b"], "X"⟩]
          [["a"]]).directories_to_create = l1 ++ d :: l2 →
        isDirFS none d.dropLast = true ∨ d.dropLast ∈ l1) := by
  constructor
  · decide
  · intro hall
    rcases hall [] ["a"] [] rfl with h | h
    · exact absurd h (by decide)
    · cases h

/-- C7, amended: provided the output root exists as a directory on disk,
every entry of directories-to-create has a parent that either already exists
as a directory or appears earlier in the list, so applying the list in order
with a single-level `mkdir` finds every parent present. -/
theorem C7_amended_parents (state : List (String × StateEntry)) (sd : Bool)
    (fs : Option FSTree) (cs : Changeset)
    (hroot : isDirFS fs [] = true)
    (h : compute_changes state sd fs = .ok cs) :
    ∀ l1 d l2, cs.directories_to_create = l1 ++ d :: l2 →
      isDirFS fs d.dropLast = true ∨ d.dropLast ∈ l1 := by
  unfold compute_changes at h
  intro l1 d l2 hsplit
  rcases walk_dirs_parents h l1 d l2 hsplit with hd | hd | hd
  · exact Or.inl (by rw [hd]; exact hroot)
  · exact Or.inl hd
  · exact Or.inr hd

/-- Witness for the amended C7. -/
theorem C7_amended_witness :
    (isDirFS (some (.dir [])) [] = true) ∧
    (compute_changes [("a/b", ⟨"X", "d"⟩)] false (some (.dir [])) =
      .ok ⟨[], [], [⟨["a", "b"], "X"⟩], [["a"]]⟩) ∧
    (∀ l1 d l2, (Changeset.mk [] [] [⟨["a", "b"], "X"⟩]
          [["a"]]).directories_to_create = l1 ++ d :: l2 →
        isDirFS (some (.dir [])) d.dropLast = true ∨ d.dropLast ∈ l1) :=
  ⟨by decide, by decide,
    C7_amended_parents [("a/b", ⟨"X", "d"⟩)] false (some (.dir [])) _ (by decide) (by decide)⟩

/-! ### C6: the ignore list touches only extraneous entries -/

/-- A leaf group member of size-one with a short path has exactly the name
as its whole path. -/
theorem grp_single_parts {children : List Child} {file : String} {c : Child}
    (hne : c.parts ≠ [])
    (hc : c ∈ children.filter (fun ch => childHead ch = file))
    (hshort : ¬ 1 < c.parts.length) :
    c.parts = [file] := by
  have hshape := grp_parts_shape hne hc
  rw [hshape]
  cases ht : c.parts.tail with
  | nil => rfl
  | cons y t2 =>
    exfalso
    apply hshort
    rw [hshape, ht]
    simp

/-- Everything scheduled for deletion is either a full target path (the
delete-then-recreate of a conflicting leaf) or carries a final name that is
not on the ignore list (an extraneous entry). -/
theorem walk_to_delete_chars {fs : Option FSTree} {sd : Bool}
    (T : List (List String)) :
    ∀ {fuel : Nat} {dir : List String} {children : List Child} {r : Changeset},
      walk_recursive fs sd fuel dir children = .ok r →
      (∀ c ∈ children, c.parts ≠ [] ∧ dir ++ c.parts ∈ T) →
      ∀ p ∈ r.to_delete, p ∈ T ∨ ∃ n, p.getLast? = some n ∧ n ∉ DEFAULT_IGNORE_LIST := by
  intro fuel
  induction fuel with
  | zero =>
    intro dir children r h
    simp [walk_recursive] at h
  | succ fuel ih =>
    intro dir children r h hch p hp
    rcases walk_ok_succ h with ⟨listing, level, explore, hl, hpl, hwc⟩
    rcases walk_children_mem_sel (fun c => c.to_delete) add_to_delete hwc p hp with
      hlev | ⟨g, hg, dg, hwg, hm⟩
    · rcases processLevel_mem_sel (fun c => c.to_delete) add_to_delete
        (fun x hx => by cases hx) hpl p hlev with ⟨file, hf, df, ef, hok, hmem⟩
      rcases processLevel_proj_sel (fun c => c.to_delete) add_to_delete hpl file hf with
        ⟨df2, ef2, hok2, -, hexp2⟩
      rw [hok] at hok2
      injection hok2 with h2
      injection h2 with h3 h4
      subst h3; subst h4
      rcases processName_spec _ _ _ _ _ _ _ hok with
        ⟨-, -, he, hcases⟩ | ⟨c, hcg, hclen, he, hcases⟩ | ⟨-, he, hcases⟩
      · rcases hcases with ⟨-, hd⟩ | ⟨hext, hdir, -, hd⟩ | ⟨-, hd⟩
        · subst hd; cases hmem
        · subst he
          exact absurd (walk_explored_not_file hwc (file, _)
            (hexp2 _ (List.mem_singleton_self _)) hext hdir) id
        · subst hd; cases hmem
      · have hcparts : c.parts = [file] := by
          have hcmem : c ∈ children.filter (fun ch => childHead ch = file) := by
            rw [hcg]; simp
          exact grp_single_parts
            (hch c (List.mem_of_mem_filter hcmem)).1 hcmem hclen
        have hcch : c ∈ children := by
          have hcmem : c ∈ children.filter (fun ch => childHead ch = file) := by
            rw [hcg]; simp
          exact List.mem_of_mem_filter hcmem
        rcases hcases with ⟨-, hd⟩ | ⟨-, hd⟩ | ⟨cur, -, -, hd⟩ | ⟨-, -, -, hd⟩ <;> subst hd
        · cases hmem
        · cases hmem
        · cases hmem
        · simp only [List.mem_singleton] at hmem
          subst hmem
          left
          have := (hch c hcch).2
          rw [hcparts] at this
          exact this
      · rcases hcases with ⟨-, hig, hd⟩ | ⟨-, hd⟩
        · subst hd
          simp only [List.mem_singleton] at hmem
          subst hmem
          right
          exact ⟨file, List.getLast?_concat _, hig⟩
        · subst hd; cases hmem
    · refine ih hwg ?_ p hm
      intro c2 hc2
      rcases List.mem_map.mp hc2 with ⟨c0, hc0, rfl⟩
      rcases processLevel_mem_explore hpl g hg with ⟨file, -, df, ef, hok, hgef⟩
      rcases (processName_paths hok).2 g hgef with ⟨hgeq, -, hgall⟩
      have hc0f : c0 ∈ children.filter (fun ch => childHead ch = file) := by
        have := hc0
        rw [hgeq] at this
        exact this
      have hc0len : 1 < c0.parts.length := by
        have h2 := List.all_eq_true.mp hgall c0 hc0f
        simpa using h2
      have hc0ne : c0.parts ≠ [] := (hch c0 (List.mem_of_mem_filter hc0f)).1
      have hshape := grp_parts_shape hc0ne hc0f
      constructor
      · simp only [ne_eq]
        intro htail
        have htail2 : c0.parts.tail = [] := htail
        rw [hshape, htail2] at hc0len
        simp at hc0len
      · have heq : (dir ++ [g.1]) ++ c0.parts.tail = dir ++ c0.parts := by
          rw [List.append_assoc]
          have : g.1 = file := by rw [hgeq]
          rw [this]
          congr 1
          rw [hshape]
          rfl
        have hT := (hch c0 (List.mem_of_mem_filter hc0f)).2
        show (dir ++ [g.1]) ++ c0.parts.tail ∈ T
        rw [heq]
        exact hT

/-- Every needed leaf is handled by the walk, whatever its name: it is
scheduled for creation, scheduled for update, or already on disk with the
target content. -/
theorem walk_leaf_handled {fs : Option FSTree} {sd : Bool} :
    ∀ {fuel : Nat} {dir : List String} {children : List Child} {r : Changeset},
      walk_recursive fs sd fuel dir children = .ok r →
      ∀ c ∈ children, c.parts ≠ [] →
        dir ++ c.parts ∈ r.files_to_create.map Entry.path ∨
        dir ++ c.parts ∈ r.files_to_update.map Entry.path ∨
        fileContentFS fs (dir ++ c.parts) = some c.content := by
  intro fuel
  induction fuel with
  | zero =>
    intro dir children r h
    simp [walk_recursive] at h
  | succ fuel ih =>
    intro dir children r h c hc hcne
    rcases walk_ok_succ h with ⟨listing, level, explore, hl, hpl, hwc⟩
    have hnmem : childHead c ∈ sortedSet (listing ++ children.map childHead) := by
      rw [mem_sortedSet]
      exact List.mem_append.mpr (Or.inr (List.mem_map.mpr ⟨c, hc, rfl⟩))
    have hcf : c ∈ children.filter (fun ch => childHead ch = childHead c) :=
      List.mem_filter.mpr ⟨hc, by simp⟩
    rcases processLevel_proj_sel (fun cset => cset.files_to_create.map Entry.path) add_create
      hpl (childHead c) hnmem with ⟨df, ef, hok, hsubc, hexp⟩
    rcases processLevel_proj_sel (fun cset => cset.files_to_update.map Entry.path) add_update
      hpl (childHead c) hnmem with ⟨df2, ef2, hok2, hsubu, -⟩
    rw [hok] at hok2
    injection hok2 with h2
    injection h2 with h3 h4
    subst h3; subst h4
    rcases walk_children_proj_sel (fun cset => cset.files_to_create.map Entry.path) add_create
      hwc with ⟨haccc, hchildc⟩
    rcases walk_children_proj_sel (fun cset => cset.files_to_update.map Entry.path) add_update
      hwc with ⟨haccu, hchildu⟩
    rcases processName_spec _ _ _ _ _ _ _ hok with
      ⟨-, hall, he, hcases⟩ | ⟨c0, hcg, hclen, he, hcases⟩ | ⟨hnil, -, -⟩
    · -- the branch routes deeper: recurse
      have hgmem : (childHead c, children.filter (fun ch => childHead ch = childHead c)) ∈
          explore := by
        subst he
        exact hexp _ (List.mem_singleton_self _)
      have hlen : 1 < c.parts.length := by
        have h2 := List.all_eq_true.mp hall c hcf
        simpa using h2
      have hshape := grp_parts_shape hcne hcf
      rcases hchildc _ hgmem with ⟨dg, hwg, hsubdg⟩
      rcases hchildu _ hgmem with ⟨dg2, hwg2, hsubdg2⟩
      rw [hwg] at hwg2
      injection hwg2 with h5
      subst h5
      have hcadv : ({ parts := c.parts.tail, content := c.content : Child }) ∈
          (children.filter (fun ch => childHead ch = childHead c)).map
            (fun ch => { parts := ch.parts.tail, content := ch.content : Child }) :=
        List.mem_map.mpr ⟨c, hcf, rfl⟩
      have htne : c.parts.tail ≠ [] := by
        intro htail
        rw [hshape, htail] at hlen
        simp at hlen
      have heq : (dir ++ [childHead c]) ++ c.parts.tail = dir ++ c.parts := by
        rw [List.append_assoc]
        congr 1
        rw [hshape]
        rfl
      rcases ih hwg _ hcadv htne with hcr | hur | hfc
      · left
        rw [← heq]
        exact hsubdg _ hcr
      · right; left
        rw [← heq]
        exact hsubdg2 _ hur
      · right; right
        rw [← heq]
        exact hfc
    · -- a leaf at this very level
      have hcc0 : c = c0 := by
        have := hcf
        rw [hcg] at this
        simpa using this
      subst hcc0
      have hcparts : c.parts = [childHead c] := grp_single_parts hcne hcf hclen
      rcases hcases with ⟨-, hd⟩ | ⟨hcont, hd⟩ | ⟨cur, hcont, hne2, hd⟩ | ⟨-, -, -, hd⟩ <;>
        subst hd
      · left
        rw [hcparts]
        refine haccc _ (hsubc _ ?_)
        simp
      · right; right
        rw [hcparts]
        exact hcont
      · right; left
        rw [hcparts]
        refine haccu _ (hsubu _ ?_)
        simp
      · left
        rw [hcparts]
        refine haccc _ (hsubc _ ?_)
        simp
    · rw [hnil] at hcf
      cases hcf

/-- C6: a deleted path is either itself a target path (leaf type-conflict
delete-then-recreate) or ends in a name that is not on the ignore list — so
an extraneous on-disk entry named on the ignore list is never scheduled for
deletion; and every target path, whatever its name, is still processed
normally (created, updated, or found already identical on disk). -/
theorem C6_ignore_list (state : List (String × StateEntry)) (sd : Bool)
    (fs : Option FSTree) (cs : Changeset)
    (h : compute_changes state sd fs = .ok cs) :
    (∀ p ∈ cs.to_delete, p ∈ state.map (fun kv => pySplitSlash kv.1) ∨
      ∃ n, p.getLast? = some n ∧ n ∉ DEFAULT_IGNORE_LIST) ∧
    (∀ kv ∈ state,
      pySplitSlash kv.1 ∈ cs.files_to_create.map Entry.path ∨
      pySplitSlash kv.1 ∈ cs.files_to_update.map Entry.path ∨
      fileContentFS fs (pySplitSlash kv.1) = some kv.2.content) := by
  unfold compute_changes at h
  constructor
  · intro p hp
    refine walk_to_delete_chars (state.map (fun kv => pySplitSlash kv.1)) h ?_ p hp
    intro c hc
    rcases List.mem_map.mp hc with ⟨kv, hkv, rfl⟩
    exact ⟨pySplitSlash_ne_nil kv.1, by
      simp only [List.nil_append]
      exact List.mem_map.mpr ⟨kv, hkv, rfl⟩⟩
  · intro kv hkv
    have hc : ({ parts := pySplitSlash kv.1, content := kv.2.content : Child }) ∈
        state.map (fun kv => { parts := pySplitSlash kv.1, content := kv.2.content : Child }) :=
      List.mem_map.mpr ⟨kv, hkv, rfl⟩
    have := walk_leaf_handled h _ hc (pySplitSlash_ne_nil kv.1)
    simpa using this

/-- Witness for C6: an extraneous `.git` entry survives while `junk` is
deleted, and a needed `README.md` is still created. -/
theorem C6_witness :
    (compute_changes [("README.md", ⟨"R", "d"⟩)] true
        (some (.dir [(".git", .dir []), ("junk", .file "j")])) =
      .ok ⟨[["junk"]], [], [⟨["README.md"], "R"⟩], []⟩) ∧
    (∀ p ∈ (Changeset.mk [["junk"]] [] [⟨["README.md"], "R"⟩] []).to_delete,
      p ∈ [("README.md", (⟨"R", "d"⟩ : StateEntry))].map (fun kv => pySplitSlash kv.1) ∨
      ∃ n, p.getLast? = some n ∧ n ∉ DEFAULT_IGNORE_LIST) :=
  ⟨by decide,
    (C6_ignore_list [("README.md", ⟨"R", "d"⟩)] true
      (some (.dir [(".git", .dir []), ("junk", .file "j")])) _ (by decide)).1⟩

/-! ### C2 machinery, part 1: queries and single mutations of the tree -/

theorem nodeKind_eq_none {x : Option FSTree} : nodeKind x = none ↔ x = none := by
  cases x with
  | none => simp [nodeKind]
  | some t => cases t <;> simp [nodeKind]

theorem queries_of_nodeKind_eq {fs1 fs0 : Option FSTree} {q : List String}
    (h : nodeKind (findFS fs1 q) = nodeKind (findFS fs0 q)) :
    existsFS fs1 q = existsFS fs0 q ∧ isDirFS fs1 q = isDirFS fs0 q ∧
    fileContentFS fs1 q = fileContentFS fs0 q := by
  unfold existsFS isDirFS fileContentFS
  unfold nodeKind at h
  cases h1 : findFS fs1 q <;> cases h0 : findFS fs0 q <;> rw [h1, h0] at h
  · exact ⟨rfl, rfl, rfl⟩
  · next t => cases t <;> cases h
  · next t => cases t <;> cases h
  · next t1 t2 =>
    cases t1 <;> cases t2
    · injection h with h2
      injection h2 with h3
      rw [h3]
      exact ⟨rfl, rfl, rfl⟩
    · injection h with h2; cases h2
    · injection h with h2; cases h2
    · exact ⟨rfl, rfl, rfl⟩

theorem findFS_none : ∀ q : List String, findFS none q = none
  | [] => rfl
  | _ :: _ => rfl

theorem findFS_nil : ∀ fs : Option FSTree, findFS fs [] = fs
  | none => rfl
  | some (FSTree.file _) => rfl
  | some (FSTree.dir _) => rfl

theorem deleteFS_nil : ∀ t : FSTree, deleteFS t [] = t
  | FSTree.file _ => rfl
  | FSTree.dir _ => rfl

theorem insertFS_nil : ∀ (t new : FSTree), insertFS t [] new = t
  | FSTree.file _, _ => rfl
  | FSTree.dir _, _ => rfl

theorem replaceFS_nil : ∀ (t new : FSTree), replaceFS t [] new = new
  | FSTree.file _, _ => rfl
  | FSTree.dir _, _ => rfl

theorem findFS_file : ∀ (c : String) (q : List String), q ≠ [] →
    findFS (some (FSTree.file c)) q = none
  | _, [], h => absurd rfl h
  | _, _ :: _, _ => rfl

theorem findFS_emptyDir : ∀ q : List String, q ≠ [] →
    findFS (some (FSTree.dir [])) q = none
  | [], h => absurd rfl h
  | x :: xs, _ => by
    show findFS (List.lookup x ([] : List (String × FSTree))) xs = none
    rw [show List.lookup x ([] : List (String × FSTree)) = none from rfl]
    exact findFS_none xs

theorem findFS_append : ∀ (fs : Option FSTree) (q q' : List String),
    findFS fs (q ++ q') = findFS (findFS fs q) q'
  | fs, [], q' => by rw [findFS_nil, List.nil_append]
  | none, n :: q, q' => by
    rw [show findFS none (n :: q ++ q') = none from rfl,
      show findFS none (n :: q) = none from rfl]
    exact (findFS_none q').symm
  | some (FSTree.file c), n :: q, q' => by
    rw [show findFS (some (FSTree.file c)) (n :: q ++ q') = none from rfl,
      show findFS (some (FSTree.file c)) (n :: q) = none from rfl]
    exact (findFS_none q').symm
  | some (FSTree.dir es), n :: q, q' => findFS_append (List.lookup n es) q q'

theorem find_some_root {fs : Option FSTree} {r : List String} {x : FSTree}
    (h : findFS fs r = some x) : ∃ t, fs = some t := by
  cases fs with
  | none => rw [findFS_none] at h; cases h
  | some t => exact ⟨t, rfl⟩

theorem lookup_isSome_iff_mem_names {n : String} :
    ∀ {es : List (String × FSTree)},
      (List.lookup n es).isSome = true ↔ n ∈ es.map Prod.fst
  | [] => by simp [List.lookup]
  | (a, t) :: rest => by
    by_cases ha : n = a
    · subst ha
      simp [List.lookup]
    · have hne : (n == a) = false := beq_eq_false_iff_ne.mpr ha
      simp only [List.lookup, hne, List.map_cons, List.mem_cons]
      rw [lookup_isSome_iff_mem_names]
      constructor
      · exact fun h => Or.inr h
      · rintro (h | h)
        · exact absurd h.symm (fun he => ha he.symm)
        · exact h

theorem lookup_filter_ne {n m : String} (h : m ≠ n) :
    ∀ es : List (String × FSTree),
      List.lookup m (es.filter (fun e => e.1 ≠ n)) = List.lookup m es
  | [] => rfl
  | (a, t) :: rest => by
    by_cases ha : a = n
    · have : (decide ((a, t).1 ≠ n)) = false := by simp [ha]
      rw [List.filter_cons, this, if_neg Bool.false_ne_true]
      rw [lookup_filter_ne h rest]
      have hma : (m == a) = false := beq_eq_false_iff_ne.mpr (by rw [ha]; exact h)
      simp [List.lookup, hma]
    · have : (decide ((a, t).1 ≠ n)) = true := by simp [ha]
      rw [List.filter_cons, this, if_pos rfl]
      by_cases hma : m = a
      · subst hma
        simp [List.lookup]
      · have hne : (m == a) = false := beq_eq_false_iff_ne.mpr hma
        simp only [List.lookup, hne]
        exact lookup_filter_ne h rest

theorem lookup_filter_self {n : String} :
    ∀ es : List (String × FSTree),
      List.lookup n (es.filter (fun e => e.1 ≠ n)) = none
  | [] => rfl
  | (a, t) :: rest => by
    by_cases ha : a = n
    · have : (decide ((a, t).1 ≠ n)) = false := by simp [ha]
      rw [List.filter_cons, this, if_neg Bool.false_ne_true]
      exact lookup_filter_self rest
    · have : (decide ((a, t).1 ≠ n)) = true := by simp [ha]
      rw [List.filter_cons, this, if_pos rfl]
      have hne : (n == a) = false := beq_eq_false_iff_ne.mpr (fun he => ha he.symm)
      simp only [List.lookup, hne]
      exact lookup_filter_self rest

theorem lookup_map_entry (n m : String) (f : FSTree → FSTree) :
    ∀ es : List (String × FSTree),
      List.lookup m (es.map (fun e => if e.1 = n then (e.1, f e.2) else e)) =
        if m = n then (List.lookup m es).map f else List.lookup m es
  | [] => by by_cases h : m = n <;> simp [List.lookup, h]
  | (a, t) :: rest => by
    by_cases han : a = n
    · have hmap : (if (a, t).1 = n then ((a, t).1, f (a, t).2) else (a, t)) = (a, f t) :=
        if_pos han
      rw [List.map_cons, hmap]
      by_cases hm : m = a
      · subst hm
        rw [if_pos (han : m = n)]
        simp [List.lookup]
      · have hne : (m == a) = false := beq_eq_false_iff_ne.mpr hm
        by_cases hmn : m = n
        · exact absurd (hmn.trans han.symm) hm
        · simp only [List.lookup, hne, if_neg hmn]
          simpa [if_neg hmn] using lookup_map_entry n m f rest
    · have hmap : (if (a, t).1 = n then ((a, t).1, f (a, t).2) else (a, t)) = (a, t) :=
        if_neg han
      rw [List.map_cons, hmap]
      by_cases hm : m = a
      · subst hm
        have hmn : ¬ m = n := han
        rw [if_neg hmn]
        simp [List.lookup]
      · have hne : (m == a) = false := beq_eq_false_iff_ne.mpr hm
        simp only [List.lookup, hne]
        exact lookup_map_entry n m f rest

theorem lookup_map_del (n m : String) (sub : List String) (es : List (String × FSTree)) :
    List.lookup m (es.map (fun e => if e.1 = n then (e.1, deleteFS e.2 sub) else e)) =
      if m = n then (List.lookup m es).map (fun u => deleteFS u sub) else List.lookup m es :=
  lookup_map_entry n m (fun u => deleteFS u sub) es

theorem lookup_map_ins (n m : String) (sub : List String) (new : FSTree)
    (es : List (String × FSTree)) :
    List.lookup m (es.map (fun e => if e.1 = n then (e.1, insertFS e.2 sub new) else e)) =
      if m = n then (List.lookup m es).map (fun u => insertFS u sub new)
      else List.lookup m es :=
  lookup_map_entry n m (fun u => insertFS u sub new) es

theorem lookup_map_rep (n m : String) (sub : List String) (new : FSTree)
    (es : List (String × FSTree)) :
    List.lookup m (es.map (fun e => if e.1 = n then (e.1, replaceFS e.2 sub new) else e)) =
      if m = n then (List.lookup m es).map (fun u => replaceFS u sub new)
      else List.lookup m es :=
  lookup_map_entry n m (fun u => replaceFS u sub new) es

theorem lookup_append_ne {n m : String} {t : FSTree} (h : m ≠ n) :
    ∀ es : List (String × FSTree),
      List.lookup m (es ++ [(n, t)]) = List.lookup m es
  | [] => by
    have hne : (m == n) = false := beq_eq_false_iff_ne.mpr h
    simp [List.lookup, hne]
  | (a, u) :: rest => by
    by_cases hm : m = a
    · subst hm
      simp [List.lookup]
    · have hne : (m == a) = false := beq_eq_false_iff_ne.mpr hm
      simp only [List.cons_append, List.lookup, hne]
      exact lookup_append_ne h rest

theorem listdirFS_of_isDir {fs : Option FSTree} {p : List String}
    (h : isDirFS fs p = true) :
    ∃ ns, listdirFS fs p = .ok ns ∧ ∀ n, (n ∈ ns ↔ existsFS fs (p ++ [n]) = true) := by
  unfold isDirFS at h
  unfold listdirFS
  cases hf : findFS fs p with
  | none => rw [hf] at h; cases h
  | some t =>
    cases t with
    | file c => rw [hf] at h; cases h
    | dir es =>
      refine ⟨es.map Prod.fst, rfl, ?_⟩
      intro n
      unfold existsFS
      rw [findFS_append, hf]
      show n ∈ es.map Prod.fst ↔ (findFS (List.lookup n es) []).isSome = true
      rw [findFS_nil]
      exact lookup_isSome_iff_mem_names.symm

/-! #### Effect of `deleteFS` -/

theorem del_preserve : ∀ (p : List String) (t : FSTree) (q : List String), ¬ p <+: q →
    nodeKind (findFS (some (deleteFS t p)) q) = nodeKind (findFS (some t) q)
  | [], t, q, _ => by rw [deleteFS_nil]
  | _ :: _, FSTree.file c, q, _ => rfl
  | [n], FSTree.dir es, [], _ => rfl
  | [n], FSTree.dir es, m :: q', h => by
    by_cases hm : m = n
    · exact absurd (by rw [hm]; exact ⟨q', rfl⟩) h
    · show nodeKind (findFS (List.lookup m ((es.filter (fun e => e.1 ≠ n)))) q') = _
      rw [lookup_filter_ne (fun he => hm he) es]
      rfl
  | n :: r :: rest, FSTree.dir es, [], _ => rfl
  | n :: r :: rest, FSTree.dir es, m :: q', h => by
    show nodeKind (findFS (List.lookup m (es.map (fun e =>
      if e.1 = n then (e.1, deleteFS e.2 (r :: rest)) else e))) q') = _
    rw [lookup_map_del n m (r :: rest) es]
    by_cases hm : m = n
    · subst hm
      rw [if_pos rfl]
      cases hl : List.lookup m es with
      | none =>
        show nodeKind (findFS (Option.map (fun u => deleteFS u (r :: rest)) none) q') =
          nodeKind (findFS (List.lookup m es) q')
        rw [hl]
        rfl
      | some t' =>
        show nodeKind (findFS (Option.map (fun u => deleteFS u (r :: rest)) (some t')) q') =
          nodeKind (findFS (List.lookup m es) q')
        rw [hl]
        have hq' : ¬ (r :: rest) <+: q' := by
          intro hp
          exact h (List.cons_prefix_cons.mpr ⟨rfl, hp⟩)
        exact del_preserve (r :: rest) t' q' hq'
    · rw [if_neg hm]
      rfl

theorem del_kill : ∀ (p : List String) (t : FSTree) (q : List String), p ≠ [] → p <+: q →
    findFS (some (deleteFS t p)) q = none
  | [], _, _, hne, _ => absurd rfl hne
  | x :: p', FSTree.file c, q, _, hpre => by
    cases q with
    | nil => cases List.prefix_nil.mp hpre
    | cons m q' => rfl
  | [n], FSTree.dir es, q, _, hpre => by
    cases q with
    | nil => cases List.prefix_nil.mp hpre
    | cons m q' =>
      have hm : n = m := (List.cons_prefix_cons.mp hpre).1
      subst hm
      show findFS (List.lookup n ((es.filter (fun e => e.1 ≠ n)))) q' = none
      rw [lookup_filter_self es]
      exact findFS_none q'
  | n :: r :: rest, FSTree.dir es, q, _, hpre => by
    cases q with
    | nil => cases List.prefix_nil.mp hpre
    | cons m q' =>
      have hm : n = m := (List.cons_prefix_cons.mp hpre).1
      subst hm
      have hpre' : (r :: rest) <+: q' := (List.cons_prefix_cons.mp hpre).2
      show findFS (List.lookup n (es.map (fun e =>
        if e.1 = n then (e.1, deleteFS e.2 (r :: rest)) else e))) q' = none
      rw [lookup_map_del n n (r :: rest) es, if_pos rfl]
      cases hl : List.lookup n es with
      | none => exact findFS_none q'
      | some t' => exact del_kill (r :: rest) t' q' (List.cons_ne_nil r rest) hpre'

/-! #### Effect of `insertFS` -/

theorem ins_preserve : ∀ (p : List String) (t : FSTree) (new : FSTree) (q : List String),
    ¬ p <+: q →
    nodeKind (findFS (some (insertFS t p new)) q) = nodeKind (findFS (some t) q)
  | [], t, new, q, _ => by rw [insertFS_nil]
  | _ :: _, FSTree.file c, new, q, _ => rfl
  | [n], FSTree.dir es, new, [], _ => rfl
  | [n], FSTree.dir es, new, m :: q', h => by
    by_cases hm : m = n
    · exact absurd (by rw [hm]; exact ⟨q', rfl⟩) h
    · show nodeKind (findFS (List.lookup m (es ++ [(n, new)])) q') = _
      rw [lookup_append_ne hm es]
      rfl
  | n :: r :: rest, FSTree.dir es, new, [], _ => rfl
  | n :: r :: rest, FSTree.dir es, new, m :: q', h => by
    show nodeKind (findFS (List.lookup m (es.map (fun e =>
      if e.1 = n then (e.1, insertFS e.2 (r :: rest) new) else e))) q') = _
    rw [lookup_map_ins n m (r :: rest) new es]
    by_cases hm : m = n
    · subst hm
      rw [if_pos rfl]
      cases hl : List.lookup m es with
      | none =>
        show nodeKind (findFS (Option.map (fun u => insertFS u (r :: rest) new) none) q') =
          nodeKind (findFS (List.lookup m es) q')
        rw [hl]
        rfl
      | some t' =>
        show nodeKind (findFS (Option.map (fun u => insertFS u (r :: rest) new)
          (some t')) q') = nodeKind (findFS (List.lookup m es) q')
        rw [hl]
        have hq' : ¬ (r :: rest) <+: q' := by
          intro hp
          exact h (List.cons_prefix_cons.mpr ⟨rfl, hp⟩)
        exact ins_preserve (r :: rest) t' new q' hq'
    · rw [if_neg hm]
      rfl

theorem ins_self : ∀ (p : List String) (t : FSTree) (new : FSTree), p ≠ [] →
    isDirFS (some t) p.dropLast = true → findFS (some t) p = none →
    findFS (some (insertFS t p new)) p = some new
  | [], _, _, hne, _, _ => absurd rfl hne
  | [n], t, new, _, hdir, hnone => by
    have ht : ∃ es, t = FSTree.dir es := by
      unfold isDirFS at hdir
      cases t with
      | file c => cases hdir
      | dir es => exact ⟨es, rfl⟩
    rcases ht with ⟨es, rfl⟩
    show findFS (List.lookup n (es ++ [(n, new)])) [] = some new
    have hlk : List.lookup n es = none := by
      have hstep : findFS (some (FSTree.dir es)) [n] = findFS (List.lookup n es) [] := rfl
      rw [hstep, findFS_nil] at hnone
      exact hnone
    rw [lookup_append_self n new es hlk, findFS_nil]
  | n :: r :: rest, t, new, _, hdir, hnone => by
    have ht : ∃ es, t = FSTree.dir es := by
      cases t with
      | file c =>
        unfold isDirFS at hdir
        rw [show (n :: r :: rest).dropLast = n :: (r :: rest).dropLast from rfl] at hdir
        rw [show findFS (some (FSTree.file c)) (n :: (r :: rest).dropLast) = none from rfl]
          at hdir
        cases hdir
      | dir es => exact ⟨es, rfl⟩
    rcases ht with ⟨es, rfl⟩
    have hdl : (n :: r :: rest).dropLast = n :: (r :: rest).dropLast := rfl
    rw [hdl] at hdir
    unfold isDirFS at hdir
    have hstep : findFS (some (FSTree.dir es)) (n :: (r :: rest).dropLast) =
        findFS (List.lookup n es) (r :: rest).dropLast := rfl
    rw [hstep] at hdir
    cases hl : List.lookup n es with
    | none =>
      rw [hl, findFS_none] at hdir
      cases hdir
    | some t' =>
      rw [hl] at hdir
      have hnone' : findFS (some t') (r :: rest) = none := by
        have : findFS (some (FSTree.dir es)) (n :: r :: rest) =
            findFS (List.lookup n es) (r :: rest) := rfl
        rw [this, hl] at hnone
        exact hnone
      show findFS (List.lookup n (es.map (fun e =>
        if e.1 = n then (e.1, insertFS e.2 (r :: rest) new) else e))) (r :: rest) = some new
      rw [lookup_map_ins n n (r :: rest) new es, if_pos rfl, hl]
      exact ins_self (r :: rest) t' new (List.cons_ne_nil r rest)
        (by unfold isDirFS; exact hdir) hnone'

/-! #### Effect of `replaceFS` -/

theorem rep_preserve : ∀ (p : List String) (t : FSTree) (new : FSTree) (q : List String),
    ¬ p <+: q →
    nodeKind (findFS (some (replaceFS t p new)) q) = nodeKind (findFS (some t) q)
  | [], t, new, q, h => absurd (List.nil_prefix) h
  | _ :: _, FSTree.file c, new, q, _ => rfl
  | n :: rest, FSTree.dir es, new, [], _ => rfl
  | n :: rest, FSTree.dir es, new, m :: q', h => by
    show nodeKind (findFS (List.lookup m (es.map (fun e =>
      if e.1 = n then (e.1, replaceFS e.2 rest new) else e))) q') = _
    rw [lookup_map_rep n m rest new es]
    by_cases hm : m = n
    · subst hm
      rw [if_pos rfl]
      cases hl : List.lookup m es with
      | none =>
        show nodeKind (findFS (Option.map (fun u => replaceFS u rest new) none) q') =
          nodeKind (findFS (List.lookup m es) q')
        rw [hl]
        rfl
      | some t' =>
        show nodeKind (findFS (Option.map (fun u => replaceFS u rest new) (some t')) q') =
          nodeKind (findFS (List.lookup m es) q')
        rw [hl]
        have hq' : ¬ rest <+: q' := by
          intro hp
          exact h (List.cons_prefix_cons.mpr ⟨rfl, hp⟩)
        exact rep_preserve rest t' new q' hq'
    · rw [if_neg hm]
      rfl

theorem rep_self : ∀ (p : List String) (t : FSTree) (new : FSTree) (old : String),
    findFS (some t) p = some (FSTree.file old) →
    findFS (some (replaceFS t p new)) p = some new
  | [], t, new, old, _ => by rw [replaceFS_nil, findFS_nil]
  | n :: rest, FSTree.file c, new, old, h => by
    rw [show findFS (some (FSTree.file c)) (n :: rest) = none from rfl] at h
    cases h
  | n :: rest, FSTree.dir es, new, old, h => by
    have hstep : findFS (some (FSTree.dir es)) (n :: rest) =
        findFS (List.lookup n es) rest := rfl
    rw [hstep] at h
    cases hl : List.lookup n es with
    | none =>
      rw [hl, findFS_none] at h
      cases h
    | some t' =>
      rw [hl] at h
      show findFS (List.lookup n (es.map (fun e =>
        if e.1 = n then (e.1, replaceFS e.2 rest new) else e))) rest = some new
      rw [lookup_map_rep n n rest new es, if_pos rfl, hl]
      exact rep_self rest t' new old h

/-! ### C2 machinery, part 2: the applying operations of `update_files` -/

theorem isDirFS_none (p : List String) : isDirFS (none : Option FSTree) p = false := by
  unfold isDirFS
  rw [findFS_none]

theorem findFS_eq_none_of_exists_false {fs : Option FSTree} {p : List String}
    (h : existsFS fs p = false) : findFS fs p = none := by
  unfold existsFS at h
  cases hf : findFS fs p with
  | none => rfl
  | some x => rw [hf] at h; cases h

theorem removePath_ok {fs0 : Option FSTree} {p : List String} {fs1 : Option FSTree}
    (h : removePath fs0 p = .ok fs1) :
    ∃ t, fs0 = some t ∧ fs1 = some (deleteFS t p) ∧ existsFS fs0 p = true := by
  unfold removePath at h
  by_cases hd : isDirFS fs0 p = true
  · rw [if_pos hd] at h
    cases fs0 with
    | none => rw [isDirFS_none] at hd; cases hd
    | some t =>
      injection h with h1
      exact ⟨t, rfl, h1.symm, exists_of_isDir hd⟩
  · rw [if_neg hd] at h
    cases hf : findFS fs0 p with
    | none => rw [hf] at h; cases h
    | some t =>
      cases t with
      | dir es => rw [hf] at h; cases h
      | file c =>
        rw [hf] at h
        injection h with h1
        cases fs0 with
        | none => rw [findFS_none] at hf; cases hf
        | some t0 =>
          refine ⟨t0, rfl, h1.symm, ?_⟩
          unfold existsFS
          rw [hf]
          rfl

theorem rm_preserve {fs0 fs1 : Option FSTree} {p q : List String}
    (h : removePath fs0 p = .ok fs1) (hq : ¬ p <+: q) :
    nodeKind (findFS fs1 q) = nodeKind (findFS fs0 q) := by
  rcases removePath_ok h with ⟨t, rfl, rfl, -⟩
  exact del_preserve p t q hq

theorem rm_kill {fs0 fs1 : Option FSTree} {p q : List String}
    (h : removePath fs0 p = .ok fs1) (hp : p ≠ []) (hq : p <+: q) :
    findFS fs1 q = none := by
  rcases removePath_ok h with ⟨t, rfl, rfl, -⟩
  exact del_kill p t q hp hq

theorem rm_none {fs0 fs1 : Option FSTree} {p q : List String}
    (h : removePath fs0 p = .ok fs1) (hq : findFS fs0 q = none) :
    findFS fs1 q = none := by
  by_cases hpre : p <+: q
  · by_cases hp : p = []
    · subst hp
      rcases removePath_ok h with ⟨t, rfl, rfl, -⟩
      rw [deleteFS_nil]
      exact hq
    · exact rm_kill h hp hpre
  · have hnk := rm_preserve h hpre
    rw [hq] at hnk
    exact nodeKind_eq_none.mp hnk

theorem mkdirFS_ok {fs0 : Option FSTree} {p : List String} {fs1 : Option FSTree}
    (h : mkdirFS fs0 p = .ok fs1) :
    existsFS fs0 p = false ∧
    ((p = [] ∧ fs1 = some (FSTree.dir [])) ∨
     (p ≠ [] ∧ ∃ t, fs0 = some t ∧ isDirFS fs0 p.dropLast = true ∧
        fs1 = some (insertFS t p (FSTree.dir [])))) := by
  unfold mkdirFS at h
  by_cases hex : existsFS fs0 p = true
  · rw [if_pos hex] at h
    cases h
  · have hex' : existsFS fs0 p = false := Bool.eq_false_iff.mpr hex
    rw [if_neg hex] at h
    refine ⟨hex', ?_⟩
    cases p with
    | nil =>
      injection h with h1
      exact Or.inl ⟨rfl, h1.symm⟩
    | cons a rest =>
      cases hf : findFS fs0 ((a :: rest).dropLast) with
      | none => rw [hf] at h; cases h
      | some t =>
        cases t with
        | file c => rw [hf] at h; cases h
        | dir es =>
          rw [hf] at h
          injection h with h1
          cases fs0 with
          | none => rw [findFS_none] at hf; cases hf
          | some t0 =>
            refine Or.inr ⟨List.cons_ne_nil a rest, t0, rfl, ?_, h1.symm⟩
            unfold isDirFS
            rw [hf]

theorem mk_at {fs0 fs1 : Option FSTree} {p : List String}
    (h : mkdirFS fs0 p = .ok fs1) : findFS fs1 p = some (FSTree.dir []) := by
  rcases mkdirFS_ok h with ⟨hex, hcase⟩
  rcases hcase with ⟨rfl, rfl⟩ | ⟨hp, t, rfl, hdir, rfl⟩
  · exact findFS_nil _
  · exact ins_self p t (FSTree.dir []) hp hdir (findFS_eq_none_of_exists_false hex)

theorem mk_self {fs0 fs1 : Option FSTree} {p : List String}
    (h : mkdirFS fs0 p = .ok fs1) : isDirFS fs1 p = true := by
  unfold isDirFS
  rw [mk_at h]

theorem mk_preserve {fs0 fs1 : Option FSTree} {p q : List String}
    (h : mkdirFS fs0 p = .ok fs1) (hq : q ≠ p) :
    nodeKind (findFS fs1 q) = nodeKind (findFS fs0 q) := by
  rcases mkdirFS_ok h with ⟨hex, hcase⟩
  by_cases hpre : p <+: q
  · rcases hpre with ⟨extra, rfl⟩
    have hextra : extra ≠ [] := by
      intro he
      subst he
      rw [List.append_nil] at hq
      exact hq rfl
    have h1 : findFS fs1 (p ++ extra) = none := by
      rw [findFS_append, mk_at h]
      exact findFS_emptyDir extra hextra
    have h0 : findFS fs0 (p ++ extra) = none := by
      rw [findFS_append, findFS_eq_none_of_exists_false hex]
      exact findFS_none extra
    rw [h1, h0]
  · rcases hcase with ⟨rfl, rfl⟩ | ⟨hp, t, rfl, hdir, rfl⟩
    · exact absurd (List.nil_prefix) hpre
    · exact ins_preserve p t (FSTree.dir []) q hpre

theorem writeFileFS_ok {fs0 : Option FSTree} {p : List String} {c : String}
    {fs1 : Option FSTree} (h : writeFileFS fs0 p c = .ok fs1) :
    ∃ t, fs0 = some t ∧
      ((∃ old, findFS fs0 p = some (FSTree.file old) ∧
          fs1 = some (replaceFS t p (FSTree.file c))) ∨
       (findFS fs0 p = none ∧ p ≠ [] ∧ isDirFS fs0 p.dropLast = true ∧
          fs1 = some (insertFS t p (FSTree.file c)))) := by
  unfold writeFileFS at h
  cases hf : findFS fs0 p with
  | some t =>
    cases t with
    | dir es => rw [hf] at h; cases h
    | file old =>
      rw [hf] at h
      injection h with h1
      rcases find_some_root hf with ⟨t0, rfl⟩
      exact ⟨t0, rfl, Or.inl ⟨old, rfl, h1.symm⟩⟩
  | none =>
    rw [hf] at h
    cases p with
    | nil => cases h
    | cons a rest =>
      cases hfd : findFS fs0 ((a :: rest).dropLast) with
      | none => rw [hfd] at h; cases h
      | some t =>
        cases t with
        | file _ => rw [hfd] at h; cases h
        | dir es =>
          rw [hfd] at h
          injection h with h1
          rcases find_some_root hfd with ⟨t0, rfl⟩
          refine ⟨t0, rfl, Or.inr ⟨rfl, List.cons_ne_nil a rest, ?_, h1.symm⟩⟩
          unfold isDirFS
          rw [hfd]

theorem wr_at {fs0 fs1 : Option FSTree} {p : List String} {c : String}
    (h : writeFileFS fs0 p c = .ok fs1) : findFS fs1 p = some (FSTree.file c) := by
  rcases writeFileFS_ok h with ⟨t, rfl, ⟨old, hf, rfl⟩ | ⟨hf, hp, hdir, rfl⟩⟩
  · exact rep_self p t (FSTree.file c) old hf
  · exact ins_self p t (FSTree.file c) hp hdir hf

theorem wr_self {fs0 fs1 : Option FSTree} {p : List String} {c : String}
    (h : writeFileFS fs0 p c = .ok fs1) : fileContentFS fs1 p = some c := by
  unfold fileContentFS
  rw [wr_at h]

theorem wr_preserve {fs0 fs1 : Option FSTree} {p q : List String} {c : String}
    (h : writeFileFS fs0 p c = .ok fs1) (hq : q ≠ p) :
    nodeKind (findFS fs1 q) = nodeKind (findFS fs0 q) := by
  rcases writeFileFS_ok h with ⟨t, hfs0, hcase⟩
  by_cases hpre : p <+: q
  · rcases hpre with ⟨extra, rfl⟩
    have hextra : extra ≠ [] := by
      intro he
      subst he
      rw [List.append_nil] at hq
      exact hq rfl
    have h1 : findFS fs1 (p ++ extra) = none := by
      rw [findFS_append, wr_at h]
      exact findFS_file c extra hextra
    have h0 : findFS fs0 (p ++ extra) = none := by
      rw [findFS_append]
      rcases hcase with ⟨old, hf, hfs1⟩ | ⟨hf, hp, hdir, hfs1⟩
      · rw [hf]
        exact findFS_file old extra hextra
      · rw [hf]
        exact findFS_none extra
    rw [h1, h0]
  · subst hfs0
    rcases hcase with ⟨old, hf, rfl⟩ | ⟨hf, hp, hdir, rfl⟩
    · exact rep_preserve p t (FSTree.file c) q hpre
    · exact ins_preserve p t (FSTree.file c) q hpre

/-! ### C2 machinery, part 3: phase lemmas for `update_files` -/

theorem foldlM_except_ok_cons {α β ε : Type} (f : β → α → Except ε β) (a : α)
    (l : List α) (init : β) (res : β)
    (h : (a :: l).foldlM f init = .ok res) :
    ∃ mid, f init a = .ok mid ∧ l.foldlM f mid = .ok res := by
  rw [List.foldlM_cons] at h
  cases hfa : f init a with
  | error e =>
    rw [hfa] at h
    simp [Except.bind, bind] at h
  | ok mid =>
    rw [hfa] at h
    refine ⟨mid, rfl, ?_⟩
    simpa [Except.bind, bind] using h

theorem foldlM_except_nil_ok {α β ε : Type} (f : β → α → Except ε β) {init res : β}
    (h : ([] : List α).foldlM f init = .ok res) : init = res := by
  rw [List.foldlM_nil] at h
  injection h

theorem delfold_preserve : ∀ (ps : List (List String)) {fs0 fs1 : Option FSTree},
    ps.foldlM removePath fs0 = .ok fs1 → ∀ q : List String, (∀ p ∈ ps, ¬ p <+: q) →
    nodeKind (findFS fs1 q) = nodeKind (findFS fs0 q)
  | [], fs0, fs1, h, q, _ => by
    rw [foldlM_except_nil_ok removePath h]
  | p :: ps, fs0, fs1, h, q, hall => by
    rcases foldlM_except_ok_cons removePath p ps fs0 fs1 h with ⟨mid, hstep, hrest⟩
    calc nodeKind (findFS fs1 q)
        = nodeKind (findFS mid q) :=
          delfold_preserve ps hrest q (fun r hr => hall r (List.mem_cons_of_mem p hr))
      _ = nodeKind (findFS fs0 q) := rm_preserve hstep (hall p (List.mem_cons_self p ps))

theorem delfold_none : ∀ (ps : List (List String)) {fs0 fs1 : Option FSTree},
    ps.foldlM removePath fs0 = .ok fs1 → ∀ q : List String, findFS fs0 q = none →
    findFS fs1 q = none
  | [], fs0, fs1, h, q, hq => by
    rw [← foldlM_except_nil_ok removePath h]
    exact hq
  | p :: ps, fs0, fs1, h, q, hq => by
    rcases foldlM_except_ok_cons removePath p ps fs0 fs1 h with ⟨mid, hstep, hrest⟩
    exact delfold_none ps hrest q (rm_none hstep hq)

theorem delfold_kill : ∀ (ps : List (List String)) {fs0 fs1 : Option FSTree},
    ps.foldlM removePath fs0 = .ok fs1 → ∀ (q p : List String), p ∈ ps → p ≠ [] →
    p <+: q → findFS fs1 q = none
  | [], _, _, _, _, p, hmem, _, _ => absurd hmem (List.not_mem_nil p)
  | a :: ps, fs0, fs1, h, q, p, hmem, hp, hpre => by
    rcases foldlM_except_ok_cons removePath a ps fs0 fs1 h with ⟨mid, hstep, hrest⟩
    cases List.mem_cons.mp hmem with
    | inl hpa =>
      subst hpa
      exact delfold_none ps hrest q (rm_kill hstep hp hpre)
    | inr hps => exact delfold_kill ps hrest q p hps hp hpre

theorem mkfold_preserve : ∀ (ps : List (List String)) {fs0 fs1 : Option FSTree},
    ps.foldlM mkdirFS fs0 = .ok fs1 → ∀ q : List String, (∀ p ∈ ps, q ≠ p) →
    nodeKind (findFS fs1 q) = nodeKind (findFS fs0 q)
  | [], fs0, fs1, h, q, _ => by
    rw [foldlM_except_nil_ok mkdirFS h]
  | p :: ps, fs0, fs1, h, q, hall => by
    rcases foldlM_except_ok_cons mkdirFS p ps fs0 fs1 h with ⟨mid, hstep, hrest⟩
    calc nodeKind (findFS fs1 q)
        = nodeKind (findFS mid q) :=
          mkfold_preserve ps hrest q (fun r hr => hall r (List.mem_cons_of_mem p hr))
      _ = nodeKind (findFS fs0 q) := mk_preserve hstep (hall p (List.mem_cons_self p ps))

theorem mk_isdir_mono {fs0 fs1 : Option FSTree} {p : List String}
    (h : mkdirFS fs0 p = .ok fs1) (q : List String) (hq : isDirFS fs0 q = true) :
    isDirFS fs1 q = true := by
  by_cases hqp : q = p
  · subst hqp
    exact mk_self h
  · rw [(queries_of_nodeKind_eq (mk_preserve h hqp)).2.1]
    exact hq

theorem mkfold_isdir_mono : ∀ (ps : List (List String)) {fs0 fs1 : Option FSTree},
    ps.foldlM mkdirFS fs0 = .ok fs1 → ∀ q : List String, isDirFS fs0 q = true →
    isDirFS fs1 q = true
  | [], fs0, fs1, h, q, hq => by
    rw [← foldlM_except_nil_ok mkdirFS h]
    exact hq
  | p :: ps, fs0, fs1, h, q, hq => by
    rcases foldlM_except_ok_cons mkdirFS p ps fs0 fs1 h with ⟨mid, hstep, hrest⟩
    exact mkfold_isdir_mono ps hrest q (mk_isdir_mono hstep q hq)

theorem mkfold_self : ∀ (ps : List (List String)) {fs0 fs1 : Option FSTree},
    ps.foldlM mkdirFS fs0 = .ok fs1 → ∀ p ∈ ps, isDirFS fs1 p = true
  | [], _, _, _, p, hmem => absurd hmem (List.not_mem_nil p)
  | a :: ps, fs0, fs1, h, p, hmem => by
    rcases foldlM_except_ok_cons mkdirFS a ps fs0 fs1 h with ⟨mid, hstep, hrest⟩
    cases List.mem_cons.mp hmem with
    | inl hpa =>
      subst hpa
      exact mkfold_isdir_mono ps hrest p (mk_self hstep)
    | inr hps => exact mkfold_self ps hrest p hps

theorem wrfold_preserve : ∀ (es : List Entry) {fs0 fs1 : Option FSTree},
    es.foldlM (fun fs e => writeFileFS fs e.path e.content) fs0 = .ok fs1 →
    ∀ q : List String, (∀ e ∈ es, q ≠ e.path) →
    nodeKind (findFS fs1 q) = nodeKind (findFS fs0 q)
  | [], fs0, fs1, h, q, _ => by
    rw [foldlM_except_nil_ok
      (fun (fs : Option FSTree) (e : Entry) => writeFileFS fs e.path e.content) h]
  | e :: es, fs0, fs1, h, q, hall => by
    rcases foldlM_except_ok_cons (fun fs e => writeFileFS fs e.path e.content)
      e es fs0 fs1 h with ⟨mid, hstep, hrest⟩
    calc nodeKind (findFS fs1 q)
        = nodeKind (findFS mid q) :=
          wrfold_preserve es hrest q (fun r hr => hall r (List.mem_cons_of_mem e hr))
      _ = nodeKind (findFS fs0 q) := wr_preserve hstep (hall e (List.mem_cons_self e es))

theorem wr_content {fs0 fs1 : Option FSTree} {p : List String} {c : String}
    {q : List String} {d : String} (h : writeFileFS fs0 p c = .ok fs1)
    (hq : fileContentFS fs0 q = some d) (hsame : q = p → c = d) :
    fileContentFS fs1 q = some d := by
  by_cases hqp : q = p
  · subst hqp
    rw [wr_self h, hsame rfl]
  · rw [(queries_of_nodeKind_eq (wr_preserve h hqp)).2.2]
    exact hq

theorem wrfold_content_mono : ∀ (es : List Entry) {fs0 fs1 : Option FSTree},
    es.foldlM (fun fs e => writeFileFS fs e.path e.content) fs0 = .ok fs1 →
    ∀ (q : List String) (c : String), fileContentFS fs0 q = some c →
    (∀ e ∈ es, e.path = q → e.content = c) → fileContentFS fs1 q = some c
  | [], fs0, fs1, h, q, c, hq, _ => by
    rw [← foldlM_except_nil_ok
      (fun (fs : Option FSTree) (e : Entry) => writeFileFS fs e.path e.content) h]
    exact hq
  | e :: es, fs0, fs1, h, q, c, hq, hfun => by
    rcases foldlM_except_ok_cons (fun fs e => writeFileFS fs e.path e.content)
      e es fs0 fs1 h with ⟨mid, hstep, hrest⟩
    refine wrfold_content_mono es hrest q c ?_
      (fun r hr => hfun r (List.mem_cons_of_mem e hr))
    exact wr_content hstep hq
      (fun hqp => hfun e (List.mem_cons_self e es) hqp.symm)

theorem wrfold_self : ∀ (es : List Entry) {fs0 fs1 : Option FSTree},
    es.foldlM (fun fs e => writeFileFS fs e.path e.content) fs0 = .ok fs1 →
    ∀ e ∈ es, (∀ e' ∈ es, e'.path = e.path → e'.content = e.content) →
    fileContentFS fs1 e.path = some e.content
  | [], _, _, _, e, hmem, _ => absurd hmem (List.not_mem_nil e)
  | a :: es, fs0, fs1, h, e, hmem, hfun => by
    rcases foldlM_except_ok_cons (fun fs e => writeFileFS fs e.path e.content)
      a es fs0 fs1 h with ⟨mid, hstep, hrest⟩
    cases List.mem_cons.mp hmem with
    | inl hea =>
      subst hea
      refine wrfold_content_mono es hrest e.path e.content (wr_self hstep) ?_
      exact fun r hr => hfun r (List.mem_cons_of_mem e hr)
    | inr hes =>
      exact wrfold_self es hrest e hes
        (fun r hr => hfun r (List.mem_cons_of_mem a hr))

theorem update_files_ok {cs : Changeset} {fs0 fs4 : Option FSTree}
    (h : update_files cs fs0 = .ok fs4) :
    ∃ fs1 fs2 fs3,
      cs.to_delete.foldlM removePath fs0 = .ok fs1 ∧
      cs.directories_to_create.foldlM mkdirFS fs1 = .ok fs2 ∧
      cs.files_to_update.foldlM (fun fs e => writeFileFS fs e.path e.content) fs2 = .ok fs3 ∧
      cs.files_to_create.foldlM (fun fs e => writeFileFS fs e.path e.content) fs3 = .ok fs4
    := by
  unfold update_files at h
  cases h1 : cs.to_delete.foldlM removePath fs0 with
  | error e => rw [h1] at h; simp [Except.bind, bind] at h
  | ok fs1 =>
    rw [h1] at h
    simp only [Except.bind, bind] at h
    cases h2 : cs.directories_to_create.foldlM mkdirFS fs1 with
    | error e => rw [h2] at h; simp [Except.bind, bind] at h
    | ok fs2 =>
      rw [h2] at h
      simp only [Except.bind, bind] at h
      cases h3 : cs.files_to_update.foldlM
          (fun fs e => writeFileFS fs e.path e.content) fs2 with
      | error e => rw [h3] at h; simp [Except.bind, bind] at h
      | ok fs3 =>
        rw [h3] at h
        simp only [Except.bind, bind] at h
        cases h4 : cs.files_to_create.foldlM
            (fun fs e => writeFileFS fs e.path e.content) fs3 with
        | error e => rw [h4] at h; simp [Except.bind, bind] at h
        | ok fs4' =>
          rw [h4] at h
          simp only [Except.bind, bind] at h
          injection h with h5
          exact ⟨fs1, fs2, fs3, rfl, h2, h3, h5 ▸ h4⟩

/-! ### C2 machinery, part 4: the fate of a single path under `update_files` -/

theorem apply_untouched {cs : Changeset} {fs0 fs4 : Option FSTree} {q : List String}
    (h : update_files cs fs0 = .ok fs4)
    (hdel : ∀ p ∈ cs.to_delete, ¬ p <+: q)
    (hdir : ∀ p ∈ cs.directories_to_create, q ≠ p)
    (hupd : ∀ e ∈ cs.files_to_update, q ≠ e.path)
    (hcre : ∀ e ∈ cs.files_to_create, q ≠ e.path) :
    nodeKind (findFS fs4 q) = nodeKind (findFS fs0 q) := by
  rcases update_files_ok h with ⟨fs1, fs2, fs3, h1, h2, h3, h4⟩
  calc nodeKind (findFS fs4 q)
      = nodeKind (findFS fs3 q) := wrfold_preserve _ h4 q hcre
    _ = nodeKind (findFS fs2 q) := wrfold_preserve _ h3 q hupd
    _ = nodeKind (findFS fs1 q) := mkfold_preserve _ h2 q hdir
    _ = nodeKind (findFS fs0 q) := delfold_preserve _ h1 q hdel

theorem apply_deleted {cs : Changeset} {fs0 fs4 : Option FSTree} {q : List String}
    (h : update_files cs fs0 = .ok fs4)
    (hdel : ∃ p ∈ cs.to_delete, p ≠ [] ∧ p <+: q)
    (hdir : ∀ p ∈ cs.directories_to_create, q ≠ p)
    (hupd : ∀ e ∈ cs.files_to_update, q ≠ e.path)
    (hcre : ∀ e ∈ cs.files_to_create, q ≠ e.path) :
    findFS fs4 q = none := by
  rcases update_files_ok h with ⟨fs1, fs2, fs3, h1, h2, h3, h4⟩
  rcases hdel with ⟨p, hp, hpne, hppre⟩
  have k1 : findFS fs1 q = none := delfold_kill _ h1 q p hp hpne hppre
  have k2 : nodeKind (findFS fs4 q) = nodeKind (findFS fs1 q) := by
    calc nodeKind (findFS fs4 q)
        = nodeKind (findFS fs3 q) := wrfold_preserve _ h4 q hcre
      _ = nodeKind (findFS fs2 q) := wrfold_preserve _ h3 q hupd
      _ = nodeKind (findFS fs1 q) := mkfold_preserve _ h2 q hdir
  rw [k1] at k2
  exact nodeKind_eq_none.mp k2

theorem apply_mkdir {cs : Changeset} {fs0 fs4 : Option FSTree} {q : List String}
    (h : update_files cs fs0 = .ok fs4)
    (hq : q ∈ cs.directories_to_create)
    (hupd : ∀ e ∈ cs.files_to_update, q ≠ e.path)
    (hcre : ∀ e ∈ cs.files_to_create, q ≠ e.path) :
    isDirFS fs4 q = true := by
  rcases update_files_ok h with ⟨fs1, fs2, fs3, h1, h2, h3, h4⟩
  have d2 : isDirFS fs2 q = true := mkfold_self _ h2 q hq
  have k2 : nodeKind (findFS fs4 q) = nodeKind (findFS fs2 q) := by
    calc nodeKind (findFS fs4 q)
        = nodeKind (findFS fs3 q) := wrfold_preserve _ h4 q hcre
      _ = nodeKind (findFS fs2 q) := wrfold_preserve _ h3 q hupd
  rw [(queries_of_nodeKind_eq k2).2.1]
  exact d2

theorem apply_update {cs : Changeset} {fs0 fs4 : Option FSTree} {q : List String}
    {c : String} (h : update_files cs fs0 = .ok fs4)
    (hq : ∃ e ∈ cs.files_to_update, e.path = q ∧ e.content = c)
    (hfunU : ∀ e ∈ cs.files_to_update, e.path = q → e.content = c)
    (hfunC : ∀ e ∈ cs.files_to_create, e.path = q → e.content = c) :
    fileContentFS fs4 q = some c := by
  rcases update_files_ok h with ⟨fs1, fs2, fs3, h1, h2, h3, h4⟩
  rcases hq with ⟨e, he, hep, hec⟩
  have c3 : fileContentFS fs3 q = some c := by
    have hself := wrfold_self _ h3 e he (fun e' he' hpe => by
      rw [hec]
      exact hfunU e' he' (hpe.trans hep))
    rw [hep, hec] at hself
    exact hself
  exact wrfold_content_mono _ h4 q c c3 hfunC

theorem apply_create {cs : Changeset} {fs0 fs4 : Option FSTree} {q : List String}
    {c : String} (h : update_files cs fs0 = .ok fs4)
    (hq : ∃ e ∈ cs.files_to_create, e.path = q ∧ e.content = c)
    (hfunC : ∀ e ∈ cs.files_to_create, e.path = q → e.content = c) :
    fileContentFS fs4 q = some c := by
  rcases update_files_ok h with ⟨fs1, fs2, fs3, h1, h2, h3, h4⟩
  rcases hq with ⟨e, he, hep, hec⟩
  have hself := wrfold_self _ h4 e he (fun e' he' hpe => by
    rw [hec]
    exact hfunC e' he' (hpe.trans hep))
  rw [hep, hec] at hself
  exact hself

/-! ### C2 machinery, part 5: locating a path in a walk result -/

theorem prefix_concat_cases {p dir : List String} {x : String} (h : p <+: dir ++ [x]) :
    p <+: dir ∨ p = dir ++ [x] := by
  by_cases hlen : p.length ≤ dir.length
  · exact Or.inl (List.prefix_of_prefix_length_le h (List.prefix_append dir [x]) hlen)
  · right
    have hge : (dir ++ [x]).length ≤ p.length := by
      rw [List.length_append]
      simp only [List.length_singleton]
      omega
    exact h.eq_of_length (Nat.le_antisymm h.length_le hge)

theorem nodup_fst_eq {β : Type} :
    ∀ {l : List (String × β)}, (l.map Prod.fst).Nodup →
      ∀ {g1 g2 : String × β}, g1 ∈ l → g2 ∈ l → g1.1 = g2.1 → g1 = g2
  | [], _, g1, _, h1, _, _ => absurd h1 (List.not_mem_nil g1)
  | a :: l, hnd, g1, g2, h1, h2, hf => by
    rw [List.map_cons] at hnd
    have hnd1 := List.nodup_cons.mp hnd
    rcases List.mem_cons.mp h1 with rfl | h1'
    · rcases List.mem_cons.mp h2 with rfl | h2'
      · rfl
      · have hmem : g1.1 ∈ l.map Prod.fst := by
          rw [hf]
          exact List.mem_map_of_mem Prod.fst h2'
        exact absurd hmem hnd1.1
    · rcases List.mem_cons.mp h2 with rfl | h2'
      · have hmem : g2.1 ∈ l.map Prod.fst := by
          rw [← hf]
          exact List.mem_map_of_mem Prod.fst h1'
        exact absurd hmem hnd1.1
      · exact nodup_fst_eq hnd1.2 h1' h2' hf

theorem add_update_entry (a b : Changeset) (e : Entry) :
    e ∈ (a ++ b).files_to_update ↔ e ∈ a.files_to_update ∨ e ∈ b.files_to_update := by
  rw [Changeset.append_files_to_update]
  exact List.mem_append

theorem add_create_entry (a b : Changeset) (e : Entry) :
    e ∈ (a ++ b).files_to_create ↔ e ∈ a.files_to_create ∨ e ∈ b.files_to_create := by
  rw [Changeset.append_files_to_create]
  exact List.mem_append

theorem listdirFS_ok_mem {fs : Option FSTree} {p : List String} {l : List String}
    (h : listdirFS fs p = .ok l) :
    ∀ n, n ∈ l ↔ existsFS fs (p ++ [n]) = true := by
  unfold listdirFS at h
  cases hf : findFS fs p with
  | none => rw [hf] at h; cases h
  | some t =>
    cases t with
    | file c => rw [hf] at h; cases h
    | dir es =>
      rw [hf] at h
      injection h with h1
      intro n
      unfold existsFS
      rw [findFS_append, hf]
      show n ∈ l ↔ (findFS (List.lookup n es) []).isSome = true
      rw [findFS_nil, ← h1]
      exact lookup_isSome_iff_mem_names.symm

theorem readFileFS_of_content {fs : Option FSTree} {p : List String} {c : String}
    (h : fileContentFS fs p = some c) : readFileFS fs p = .ok c := by
  unfold fileContentFS at h
  unfold readFileFS
  cases hf : findFS fs p with
  | none => rw [hf] at h; cases h
  | some t =>
    cases t with
    | dir es => rw [hf] at h; cases h
    | file c2 =>
      rw [hf] at h
      injection h with h1
      rw [h1]

/-- Any element of a walk result whose path sits directly under the node
stems from the level pass of that very name. -/
theorem walk_node_char {α : Type} (sel : Changeset → List α) (pathOf : α → List String)
    (hsel : ∀ a b : Changeset, ∀ x, x ∈ sel (a ++ b) ↔ x ∈ sel a ∨ x ∈ sel b)
    (hemp : ∀ x : α, x ∉ sel Changeset.empty)
    (hallp : ∀ (c : Changeset) (x : α), x ∈ sel c → pathOf x ∈ c.allPaths)
    {fs : Option FSTree} {sd : Bool} {fuel : Nat} {dir : List String}
    {children : List Child} {r level : Changeset} {names : List String}
    {explore : List (String × List Child)}
    (hpl : processLevel fs sd dir children names = .ok (level, explore))
    (hwc : walk_children (walk_recursive fs sd fuel) dir explore level = .ok r)
    {file : String} {x : α} (hx : x ∈ sel r) (hpx : pathOf x = dir ++ [file]) :
    ∃ df ef, file ∈ names ∧ processName fs sd dir children file = .ok (df, ef) ∧
      x ∈ sel df := by
  rcases walk_children_mem_sel sel hsel hwc x hx with hlev | ⟨g, hg, dg, hw, hxg⟩
  · rcases processLevel_mem_sel sel hsel hemp hpl x hlev with ⟨m, hm, dm, em, hok, hxm⟩
    have hpm : pathOf x = dir ++ [m] := (processName_paths hok).1 (pathOf x) (hallp dm x hxm)
    have hmf : m = file := append_single_inj (hpm.symm.trans hpx)
    subst hmf
    exact ⟨dm, em, hm, hok, hxm⟩
  · exfalso
    rcases walk_paths_extend hw (pathOf x) (hallp dg x hxg) with ⟨n, rest, hshape⟩
    have hcomb := hpx.symm.trans hshape
    rw [List.append_assoc, List.singleton_append] at hcomb
    have h2 := List.append_cancel_left hcomb
    injection h2 with h3 h4
    cases h4

/-- Any element of a walk result whose path sits strictly inside an explored
child's cone is exactly an element of that child's sub-result. -/
theorem walk_child_cone {α : Type} (sel : Changeset → List α) (pathOf : α → List String)
    (hsel : ∀ a b : Changeset, ∀ x, x ∈ sel (a ++ b) ↔ x ∈ sel a ∨ x ∈ sel b)
    (hemp : ∀ x : α, x ∉ sel Changeset.empty)
    (hallp : ∀ (c : Changeset) (x : α), x ∈ sel c → pathOf x ∈ c.allPaths)
    {fs : Option FSTree} {sd : Bool} {fuel : Nat} {dir : List String}
    {children : List Child} {r level : Changeset} {names : List String}
    {explore : List (String × List Child)}
    (hpl : processLevel fs sd dir children names = .ok (level, explore))
    (hwc : walk_children (walk_recursive fs sd fuel) dir explore level = .ok r)
    (hnd : (explore.map Prod.fst).Nodup)
    {g : String × List Child} (hg : g ∈ explore) {dg : Changeset}
    (hwg : walk_recursive fs sd fuel (dir ++ [g.1])
      (g.2.map (fun c => { c with parts := c.parts.tail })) = .ok dg)
    {x : α} {n : String} {rest : List String}
    (hpx : pathOf x = (dir ++ [g.1]) ++ n :: rest) :
    x ∈ sel r ↔ x ∈ sel dg := by
  constructor
  · intro hx
    rcases walk_children_mem_sel sel hsel hwc x hx with hlev | ⟨g', hg', dg', hw', hx'⟩
    · exfalso
      rcases processLevel_mem_sel sel hsel hemp hpl x hlev with ⟨m, hm, dm, em, hok, hxm⟩
      have hpm : pathOf x = dir ++ [m] := (processName_paths hok).1 _ (hallp dm x hxm)
      have hcomb := hpm.symm.trans hpx
      rw [List.append_assoc, List.singleton_append] at hcomb
      have h2 := List.append_cancel_left hcomb
      injection h2 with h3 h4
      cases h4
    · rcases walk_paths_extend hw' (pathOf x) (hallp dg' x hx') with ⟨n', rest', hshape⟩
      have hcomb := hshape.symm.trans hpx
      rw [List.append_assoc, List.singleton_append, List.append_assoc,
        List.singleton_append] at hcomb
      have h2 := List.append_cancel_left hcomb
      injection h2 with h3 h4
      have hgg : g' = g := nodup_fst_eq hnd hg' hg h3
      subst hgg
      rw [hwg] at hw'
      injection hw' with h5
      rw [h5]
      exact hx'
  · intro hx
    rcases (walk_children_proj_sel sel hsel hwc).2 g hg with ⟨dg0, hw0, hsub⟩
    rw [hwg] at hw0
    injection hw0 with h5
    rw [← h5] at hsub
    exact hsub x hx

/-- A level all of whose names contribute nothing yields the empty level
changeset, with every explore entry satisfying whatever each name's entries
satisfy. -/
theorem processLevel_empty {fs : Option FSTree} {sd : Bool} {dir : List String}
    {children : List Child} (P : String × List Child → Prop) :
    ∀ names : List String,
      (∀ file ∈ names, ∃ ef, processName fs sd dir children file =
          .ok (Changeset.empty, ef) ∧ ∀ g ∈ ef, P g) →
      ∃ explore, processLevel fs sd dir children names = .ok (Changeset.empty, explore) ∧
        ∀ g ∈ explore, P g
  | [], _ => ⟨[], rfl, fun g hg => absurd hg (List.not_mem_nil g)⟩
  | file :: rest, h => by
    obtain ⟨ef, hok, hP⟩ := h file (List.mem_cons_self file rest)
    obtain ⟨explore, hrest, hPr⟩ :=
      processLevel_empty P rest (fun f hf => h f (List.mem_cons_of_mem file hf))
    refine ⟨ef ++ explore, ?_, ?_⟩
    · unfold processLevel
      rw [hok]
      simp only [Except.bind, bind]
      rw [hrest]
      simp only [Except.bind, bind]
      rfl
    · intro g hg
      rcases List.mem_append.mp hg with hg1 | hg2
      · exact hP g hg1
      · exact hPr g hg2

/-- An explore loop all of whose children walk to the empty changeset leaves
the accumulator unchanged. -/
theorem walk_children_all_empty {w : List String → List Child → Except PyError Changeset}
    {dir : List String} :
    ∀ (explore : List (String × List Child)) (acc : Changeset),
      (∀ g ∈ explore, w (dir ++ [g.1]) (g.2.map (fun c => { c with parts := c.parts.tail })) =
        .ok Changeset.empty) →
      walk_children w dir explore acc = .ok acc
  | [], acc, _ => rfl
  | g :: rest, acc, h => by
    unfold walk_children
    rw [h g (List.mem_cons_self g rest)]
    show walk_children w dir rest (acc ++ Changeset.empty) = .ok acc
    rw [Changeset.append_empty]
    exact walk_children_all_empty rest acc (fun g2 hg2 => h g2 (List.mem_cons_of_mem g hg2))

theorem removePath_none (p : List String) :
    removePath none p = .error (.fileNotFound p) := by
  unfold removePath
  rw [if_neg (by rw [isDirFS_none]; exact Bool.false_ne_true), findFS_none]

theorem mkdirFS_none_error {p : List String} (hp : p ≠ []) :
    mkdirFS none p = .error (.fileNotFound p) := by
  unfold mkdirFS
  have hex : existsFS (none : Option FSTree) p = false := by
    unfold existsFS
    rw [findFS_none]
    rfl
  rw [if_neg (by rw [hex]; exact Bool.false_ne_true)]
  cases p with
  | nil => exact absurd rfl hp
  | cons a rest => rw [findFS_none]

theorem writeFileFS_none_error {p : List String} (c : String) (hp : p ≠ []) :
    writeFileFS none p c = .error (.fileNotFound p) := by
  unfold writeFileFS
  rw [findFS_none]
  cases p with
  | nil => exact absurd rfl hp
  | cons a rest => rw [findFS_none]

/-! ### C2 machinery, part 6: `processName` on an already-reconciled tree -/

theorem pn2_dir {fs : Option FSTree} {sd : Bool} {dir : List String}
    {children : List Child} {file : String}
    (hgrp : children.filter (fun c => childHead c = file) ≠ [])
    (hall : (children.filter (fun c => childHead c = file)).all
      (fun c => 1 < c.parts.length) = true)
    (hisdir : isDirFS fs (dir ++ [file]) = true) :
    processName fs sd dir children file =
      .ok (Changeset.empty, [(file, children.filter (fun c => childHead c = file))]) := by
  unfold processName
  rw [if_pos hgrp, if_pos hall]
  rw [exists_of_isDir hisdir]
  simp only [Bool.not_true, Bool.false_eq_true, if_false]
  rw [hisdir]
  simp only [Bool.not_true, Bool.false_eq_true, if_false]

theorem pn2_leaf {fs : Option FSTree} {sd : Bool} {dir : List String}
    {children : List Child} {file : String} {c : Child}
    (hgrp : children.filter (fun ch => childHead ch = file) = [c])
    (hshort : ¬ 1 < c.parts.length)
    (hcontent : fileContentFS fs (dir ++ [file]) = some c.content) :
    processName fs sd dir children file = .ok (Changeset.empty, []) := by
  unfold processName
  rw [hgrp]
  rw [if_pos (List.cons_ne_nil c [])]
  have hallf : (([c] : List Child).all (fun ch => 1 < ch.parts.length)) = false := by
    simp [hshort]
  rw [hallf]
  simp only [Bool.false_eq_true, if_false]
  rw [if_neg (fun h => h rfl)]
  have hex : existsFS fs (dir ++ [file]) = true :=
    exists_of_isFile (isFile_of_fileContent hcontent)
  rw [hex]
  simp only [Bool.not_true, Bool.false_eq_true, if_false]
  rw [isFile_of_fileContent hcontent, if_pos rfl]
  rw [readFileFS_of_content hcontent]
  simp only [Except.bind, bind]
  rw [if_neg (fun h => h rfl)]

theorem pn2_extraneous {fs : Option FSTree} {sd : Bool} {dir : List String}
    {children : List Child} {file : String}
    (hgrp : children.filter (fun c => childHead c = file) = [])
    (hno : sd = false ∨ file ∈ DEFAULT_IGNORE_LIST) :
    processName fs sd dir children file = .ok (Changeset.empty, []) := by
  unfold processName
  rw [hgrp]
  rw [if_neg (fun h => h rfl)]
  have hcond : (sd && !(DEFAULT_IGNORE_LIST.contains file)) = false := by
    rcases hno with rfl | hig
    · rfl
    · have hc : DEFAULT_IGNORE_LIST.contains file = true := by
        simp [List.contains, List.elem_iff, hig]
      rw [hc]
      simp
  rw [hcond]
  simp only [Bool.false_eq_true, if_false]

/-! ### C2 machinery, part 7: the second walk returns the empty changeset -/

theorem walk2_empty {fs fs' : Option FSTree} {sd : Bool} {cs : Changeset}
    (hap : update_files cs fs = .ok fs') :
    ∀ {fuel : Nat} {dir : List String} {children : List Child} {r : Changeset},
      walk_recursive fs sd fuel dir children = .ok r →
      (∀ c ∈ children, c.parts ≠ []) →
      (∀ q : List String, (∃ n rest, q = dir ++ n :: rest) →
        ((q ∈ cs.to_delete ↔ q ∈ r.to_delete) ∧
         (q ∈ cs.directories_to_create ↔ q ∈ r.directories_to_create) ∧
         (∀ e : Entry, e.path = q → (e ∈ cs.files_to_update ↔ e ∈ r.files_to_update)) ∧
         (∀ e : Entry, e.path = q → (e ∈ cs.files_to_create ↔ e ∈ r.files_to_create)))) →
      (∀ p ∈ cs.to_delete, ¬ p <+: dir) →
      (isDirFS fs' dir = true ∨ (findFS fs' dir = none ∧ children = [])) →
      walk_recursive fs' sd fuel dir children = .ok Changeset.empty := by
  intro fuel
  induction fuel with
  | zero =>
    intro dir children r h1 hchne hcong hnodel hroot
    unfold walk_recursive at h1
    cases h1
  | succ fuel ih =>
    intro dir children r h1 hchne hcong hnodel hroot
    rcases walk_ok_succ h1 with ⟨listing, level, explore, hl1, hpl1, hwc1⟩
    rcases hroot with hdirfs' | ⟨hfnone, hchnil⟩
    · -- the node is a directory in the reconciled tree
      obtain ⟨ns, hls2, hns⟩ := listdirFS_of_isDir hdirfs'
      have hexnodup : (explore.map Prod.fst).Nodup :=
        (processLevel_explore_names hpl1).nodup (nodup_sortedSet _)
      have hshape_of_mem : ∀ q, q ∈ r.allPaths → ∃ n rest, q = dir ++ n :: rest :=
        fun q hq => walk_paths_extend h1 q hq
      have hr_of_cs_del : ∀ q, (∃ n rest, q = dir ++ n :: rest) → q ∈ cs.to_delete →
          q ∈ r.to_delete := fun q hs hq => ((hcong q hs).1).mp hq
      have hcs_of_r_del : ∀ q, q ∈ r.to_delete → q ∈ cs.to_delete := fun q hq =>
        ((hcong q (hshape_of_mem q (mem_allPaths_of_to_delete hq))).1).mpr hq
      have hr_of_cs_dir : ∀ q, (∃ n rest, q = dir ++ n :: rest) →
          q ∈ cs.directories_to_create → q ∈ r.directories_to_create :=
        fun q hs hq => ((hcong q hs).2.1).mp hq
      have hcs_of_r_dir : ∀ q, q ∈ r.directories_to_create →
          q ∈ cs.directories_to_create := fun q hq =>
        ((hcong q (hshape_of_mem q (mem_allPaths_of_dir hq))).2.1).mpr hq
      have hr_of_cs_upd : ∀ (e : Entry), (∃ n rest, e.path = dir ++ n :: rest) →
          e ∈ cs.files_to_update → e ∈ r.files_to_update :=
        fun e hs he => ((hcong e.path hs).2.2.1 e rfl).mp he
      have hcs_of_r_upd : ∀ e : Entry, e ∈ r.files_to_update → e ∈ cs.files_to_update :=
        fun e he => ((hcong e.path (hshape_of_mem e.path (mem_allPaths_of_update
          (List.mem_map_of_mem Entry.path he)))).2.2.1 e rfl).mpr he
      have hr_of_cs_cre : ∀ (e : Entry), (∃ n rest, e.path = dir ++ n :: rest) →
          e ∈ cs.files_to_create → e ∈ r.files_to_create :=
        fun e hs he => ((hcong e.path hs).2.2.2 e rfl).mp he
      have hcs_of_r_cre : ∀ e : Entry, e ∈ r.files_to_create → e ∈ cs.files_to_create :=
        fun e he => ((hcong e.path (hshape_of_mem e.path (mem_allPaths_of_create
          (List.mem_map_of_mem Entry.path he)))).2.2.2 e rfl).mpr he
      -- a global entry sitting right under this node stems from its very name
      have hchar_del : ∀ file, (dir ++ [file]) ∈ cs.to_delete →
          ∃ df ef, file ∈ sortedSet (listing ++ children.map childHead) ∧
            processName fs sd dir children file = .ok (df, ef) ∧
            (dir ++ [file]) ∈ df.to_delete := by
        intro file hq
        exact walk_node_char (fun c => c.to_delete) (fun p => p) add_to_delete
          (fun x hx => absurd hx (List.not_mem_nil x))
          (fun c x hx => mem_allPaths_of_to_delete hx) hpl1 hwc1
          (hr_of_cs_del _ ⟨file, [], rfl⟩ hq) rfl
      have hchar_dir : ∀ file, (dir ++ [file]) ∈ cs.directories_to_create →
          ∃ df ef, file ∈ sortedSet (listing ++ children.map childHead) ∧
            processName fs sd dir children file = .ok (df, ef) ∧
            (dir ++ [file]) ∈ df.directories_to_create := by
        intro file hq
        exact walk_node_char (fun c => c.directories_to_create) (fun p => p) add_dir
          (fun x hx => absurd hx (List.not_mem_nil x))
          (fun c x hx => mem_allPaths_of_dir hx) hpl1 hwc1
          (hr_of_cs_dir _ ⟨file, [], rfl⟩ hq) rfl
      have hchar_upd : ∀ (file : String) (e : Entry), e ∈ cs.files_to_update →
          e.path = dir ++ [file] →
          ∃ df ef, file ∈ sortedSet (listing ++ children.map childHead) ∧
            processName fs sd dir children file = .ok (df, ef) ∧
            e ∈ df.files_to_update := by
        intro file e he hep
        exact walk_node_char (fun c => c.files_to_update) Entry.path add_update_entry
          (fun x hx => absurd hx (List.not_mem_nil x))
          (fun c x hx => mem_allPaths_of_update (List.mem_map_of_mem Entry.path hx))
          hpl1 hwc1 (hr_of_cs_upd e ⟨file, [], by rw [hep]⟩ he) hep
      have hchar_cre : ∀ (file : String) (e : Entry), e ∈ cs.files_to_create →
          e.path = dir ++ [file] →
          ∃ df ef, file ∈ sortedSet (listing ++ children.map childHead) ∧
            processName fs sd dir children file = .ok (df, ef) ∧
            e ∈ df.files_to_create := by
        intro file e he hep
        exact walk_node_char (fun c => c.files_to_create) Entry.path add_create_entry
          (fun x hx => absurd hx (List.not_mem_nil x))
          (fun c x hx => mem_allPaths_of_create (List.mem_map_of_mem Entry.path hx))
          hpl1 hwc1 (hr_of_cs_cre e ⟨file, [], by rw [hep]⟩ he) hep
      -- this node's per-name contributions reach the global changeset
      have hfwd_del : ∀ file, file ∈ sortedSet (listing ++ children.map childHead) →
          ∀ df ef, processName fs sd dir children file = .ok (df, ef) →
          ∀ q ∈ df.to_delete, q ∈ cs.to_delete := by
        intro file hf df ef hok q hq
        rcases processLevel_proj_sel (fun c => c.to_delete) add_to_delete hpl1 file hf with
          ⟨df2, ef2, hok2, hsub, -⟩
        rw [hok] at hok2
        injection hok2 with hinj
        injection hinj with hd he
        subst hd
        exact hcs_of_r_del q
          ((walk_children_proj_sel (fun c => c.to_delete) add_to_delete hwc1).1 q (hsub q hq))
      have hfwd_dir : ∀ file, file ∈ sortedSet (listing ++ children.map childHead) →
          ∀ df ef, processName fs sd dir children file = .ok (df, ef) →
          ∀ q ∈ df.directories_to_create, q ∈ cs.directories_to_create := by
        intro file hf df ef hok q hq
        rcases processLevel_proj_sel (fun c => c.directories_to_create) add_dir hpl1 file hf
          with ⟨df2, ef2, hok2, hsub, -⟩
        rw [hok] at hok2
        injection hok2 with hinj
        injection hinj with hd he
        subst hd
        exact hcs_of_r_dir q
          ((walk_children_proj_sel (fun c => c.directories_to_create) add_dir hwc1).1
            q (hsub q hq))
      have hfwd_upd : ∀ file, file ∈ sortedSet (listing ++ children.map childHead) →
          ∀ df ef, processName fs sd dir children file = .ok (df, ef) →
          ∀ e ∈ df.files_to_update, e ∈ cs.files_to_update := by
        intro file hf df ef hok e he
        rcases processLevel_proj_sel (fun c => c.files_to_update) add_update_entry hpl1
          file hf with ⟨df2, ef2, hok2, hsub, -⟩
        rw [hok] at hok2
        injection hok2 with hinj
        injection hinj with hd he2
        subst hd
        exact hcs_of_r_upd e
          ((walk_children_proj_sel (fun c => c.files_to_update) add_update_entry hwc1).1
            e (hsub e he))
      have hfwd_cre : ∀ file, file ∈ sortedSet (listing ++ children.map childHead) →
          ∀ df ef, processName fs sd dir children file = .ok (df, ef) →
          ∀ e ∈ df.files_to_create, e ∈ cs.files_to_create := by
        intro file hf df ef hok e he
        rcases processLevel_proj_sel (fun c => c.files_to_create) add_create_entry hpl1
          file hf with ⟨df2, ef2, hok2, hsub, -⟩
        rw [hok] at hok2
        injection hok2 with hinj
        injection hinj with hd he2
        subst hd
        exact hcs_of_r_cre e
          ((walk_children_proj_sel (fun c => c.files_to_create) add_create_entry hwc1).1
            e (hsub e he))
      -- a needed name was processed by the first run
      have hhead_names1 : ∀ file, children.filter (fun c => childHead c = file) ≠ [] →
          file ∈ sortedSet (listing ++ children.map childHead) := by
        intro file hgrp
        rcases List.exists_mem_of_ne_nil _ hgrp with ⟨c, hc⟩
        have hcc := List.mem_filter.mp hc
        rw [mem_sortedSet]
        exact List.mem_append.mpr (Or.inr (List.mem_map.mpr
          ⟨c, hcc.1, of_decide_eq_true hcc.2⟩))
      -- a name whose contribution was empty keeps its on-disk state
      have huntouched_empty : ∀ file df ef,
          file ∈ sortedSet (listing ++ children.map childHead) →
          processName fs sd dir children file = .ok (df, ef) → df = Changeset.empty →
          nodeKind (findFS fs' (dir ++ [file])) = nodeKind (findFS fs (dir ++ [file])) := by
        intro file df ef hf hok hdf
        subst hdf
        refine apply_untouched hap ?_ ?_ ?_ ?_
        · intro p hp hpre
          rcases prefix_concat_cases hpre with hpd | hpeq
          · exact hnodel p hp hpd
          · subst hpeq
            rcases hchar_del file hp with ⟨df1, ef1, -, hok1, hm1⟩
            rw [hok] at hok1
            injection hok1 with hinj
            injection hinj with hd1 he1
            subst hd1
            exact absurd hm1 (List.not_mem_nil _)
        · intro p hp heq
          rw [← heq] at hp
          rcases hchar_dir file hp with ⟨df1, ef1, -, hok1, hm1⟩
          rw [hok] at hok1
          injection hok1 with hinj
          injection hinj with hd1 he1
          subst hd1
          exact absurd hm1 (List.not_mem_nil _)
        · intro e he heq
          rcases hchar_upd file e he heq.symm with ⟨df1, ef1, -, hok1, hm1⟩
          rw [hok] at hok1
          injection hok1 with hinj
          injection hinj with hd1 he1
          subst hd1
          exact absurd hm1 (List.not_mem_nil _)
        · intro e he heq
          rcases hchar_cre file e he heq.symm with ⟨df1, ef1, -, hok1, hm1⟩
          rw [hok] at hok1
          injection hok1 with hinj
          injection hinj with hd1 he1
          subst hd1
          exact absurd hm1 (List.not_mem_nil _)
      -- an unprocessed name keeps its on-disk state
      have huntouched_absent : ∀ file,
          file ∉ sortedSet (listing ++ children.map childHead) →
          nodeKind (findFS fs' (dir ++ [file])) = nodeKind (findFS fs (dir ++ [file])) := by
        intro file hf
        refine apply_untouched hap ?_ ?_ ?_ ?_
        · intro p hp hpre
          rcases prefix_concat_cases hpre with hpd | hpeq
          · exact hnodel p hp hpd
          · subst hpeq
            rcases hchar_del file hp with ⟨-, -, hf1, -, -⟩
            exact hf hf1
        · intro p hp heq
          rw [← heq] at hp
          rcases hchar_dir file hp with ⟨-, -, hf1, -, -⟩
          exact hf hf1
        · intro e he heq
          rcases hchar_upd file e he heq.symm with ⟨-, -, hf1, -, -⟩
          exact hf hf1
        · intro e he heq
          rcases hchar_cre file e he heq.symm with ⟨-, -, hf1, -, -⟩
          exact hf hf1
      -- a needed directory is a directory after the apply, and is never deleted
      have hneed_dir : ∀ file, children.filter (fun c => childHead c = file) ≠ [] →
          (children.filter (fun c => childHead c = file)).all
            (fun c => 1 < c.parts.length) = true →
          isDirFS fs' (dir ++ [file]) = true ∧ (dir ++ [file]) ∉ cs.to_delete := by
        intro file hgrp hall
        have hf1 := hhead_names1 file hgrp
        rcases processLevel_proj_sel (fun c => c.directories_to_create) add_dir hpl1 file hf1
          with ⟨df, ef, hok, hsubdir, hexp⟩
        have hnotdel : (dir ++ [file]) ∈ cs.to_delete → (dir ++ [file]) ∈ df.to_delete := by
          intro hq
          rcases hchar_del file hq with ⟨df1, ef1, -, hok1, hm1⟩
          rw [hok] at hok1
          injection hok1 with hinj
          injection hinj with hd1 he1
          subst hd1
          exact hm1
        rcases processName_spec _ _ _ _ _ _ _ hok with
          ⟨-, -, he, hcases⟩ | ⟨c0, hc0, hlen0, -, -⟩ | ⟨hnil, -, -⟩
        · rcases hcases with ⟨hex, hd⟩ | ⟨hex, hnd, -, hd⟩ | ⟨hisdir, hd⟩
          · subst hd
            constructor
            · refine apply_mkdir hap
                (hfwd_dir file hf1 _ _ hok _ (List.mem_singleton_self _)) ?_ ?_
              · intro e he1 heq
                rcases hchar_upd file e he1 heq.symm with ⟨df1, ef1, -, hok1, hm1⟩
                rw [hok] at hok1
                injection hok1 with hinj
                injection hinj with hd1 he2
                subst hd1
                exact absurd hm1 (List.not_mem_nil _)
              · intro e he1 heq
                rcases hchar_cre file e he1 heq.symm with ⟨df1, ef1, -, hok1, hm1⟩
                rw [hok] at hok1
                injection hok1 with hinj
                injection hinj with hd1 he2
                subst hd1
                exact absurd hm1 (List.not_mem_nil _)
            · intro hq
              exact absurd (hnotdel hq) (List.not_mem_nil _)
          · exfalso
            subst he
            exact walk_explored_not_file hwc1
              (file, children.filter (fun c => childHead c = file))
              (hexp _ (List.mem_singleton_self _)) hex hnd
          · subst hd
            have hnk := huntouched_empty file Changeset.empty ef hf1 hok rfl
            constructor
            · rw [(queries_of_nodeKind_eq hnk).2.1]
              exact hisdir
            · intro hq
              exact absurd (hnotdel hq) (List.not_mem_nil _)
        · exfalso
          rw [hc0] at hall
          have h2 := List.all_eq_true.mp hall c0 (List.mem_singleton_self c0)
          exact hlen0 (by simpa using h2)
        · exact absurd hnil hgrp
      -- a needed leaf carries the target content after the apply
      have hneed_leaf : ∀ file c0,
          children.filter (fun ch => childHead ch = file) = [c0] →
          ¬ 1 < c0.parts.length →
          fileContentFS fs' (dir ++ [file]) = some c0.content := by
        intro file c0 hc0 hlen0
        have hgrp : children.filter (fun c => childHead c = file) ≠ [] := by
          rw [hc0]
          exact List.cons_ne_nil c0 []
        have hf1 := hhead_names1 file hgrp
        rcases processLevel_proj_sel (fun c => c.to_delete) add_to_delete hpl1 file hf1
          with ⟨df, ef, hok, -, -⟩
        rcases processName_spec _ _ _ _ _ _ _ hok with
          ⟨-, hall1, -, -⟩ | ⟨c1, hc1, -, -, hcases⟩ | ⟨hnil, -, -⟩
        · exfalso
          rw [hc0] at hall1
          have h2 := List.all_eq_true.mp hall1 c0 (List.mem_singleton_self c0)
          exact hlen0 (by simpa using h2)
        · have hc01 := hc0.symm.trans hc1
          injection hc01 with h3 h4
          subst h3
          rcases hcases with ⟨hex, hd⟩ | ⟨hcon, hd⟩ | ⟨cur, hcon, hnec, hd⟩ |
            ⟨hex, hnf, -, hd⟩
          · subst hd
            refine apply_create hap
              ⟨⟨dir ++ [file], c0.content⟩,
                hfwd_cre file hf1 _ _ hok _ (List.mem_singleton_self _), rfl, rfl⟩ ?_
            intro e he1 hpe
            rcases hchar_cre file e he1 hpe with ⟨df1, ef1, -, hok1, hm1⟩
            rw [hok] at hok1
            injection hok1 with hinj
            injection hinj with hd1 he2
            subst hd1
            have hme := List.mem_singleton.mp hm1
            rw [hme]
          · have hnk := huntouched_empty file df ef hf1 hok hd
            rw [(queries_of_nodeKind_eq hnk).2.2]
            exact hcon
          · subst hd
            refine apply_update hap
              ⟨⟨dir ++ [file], c0.content⟩,
                hfwd_upd file hf1 _ _ hok _ (List.mem_singleton_self _), rfl, rfl⟩ ?_ ?_
            · intro e he1 hpe
              rcases hchar_upd file e he1 hpe with ⟨df1, ef1, -, hok1, hm1⟩
              rw [hok] at hok1
              injection hok1 with hinj
              injection hinj with hd1 he2
              subst hd1
              have hme := List.mem_singleton.mp hm1
              rw [hme]
            · intro e he1 hpe
              rcases hchar_cre file e he1 hpe with ⟨df1, ef1, -, hok1, hm1⟩
              rw [hok] at hok1
              injection hok1 with hinj
              injection hinj with hd1 he2
              subst hd1
              exact absurd hm1 (List.not_mem_nil _)
          · subst hd
            refine apply_create hap
              ⟨⟨dir ++ [file], c0.content⟩,
                hfwd_cre file hf1 _ _ hok _ (List.mem_singleton_self _), rfl, rfl⟩ ?_
            intro e he1 hpe
            rcases hchar_cre file e he1 hpe with ⟨df1, ef1, -, hok1, hm1⟩
            rw [hok] at hok1
            injection hok1 with hinj
            injection hinj with hd1 he2
            subst hd1
            have hme := List.mem_singleton.mp hm1
            rw [hme]
        · exact absurd hnil hgrp
      -- every name of the second listing contributes nothing
      have hname2 : ∀ file ∈ sortedSet (ns ++ children.map childHead),
          ∃ ef2, processName fs' sd dir children file = .ok (Changeset.empty, ef2) ∧
            ∀ g ∈ ef2, g ∈ explore := by
        intro file hf2
        by_cases hgrp : children.filter (fun c => childHead c = file) ≠ []
        · cases hall : (children.filter (fun c => childHead c = file)).all
              (fun c => 1 < c.parts.length) with
          | true =>
            refine ⟨[(file, children.filter (fun c => childHead c = file))],
              pn2_dir hgrp hall (hneed_dir file hgrp hall).1, ?_⟩
            intro g hg
            have hgeq := List.mem_singleton.mp hg
            subst hgeq
            have hf1 := hhead_names1 file hgrp
            rcases processLevel_proj_sel (fun c => c.to_delete) add_to_delete hpl1 file hf1
              with ⟨df, ef, hok, -, hexp⟩
            rcases processName_spec _ _ _ _ _ _ _ hok with
              ⟨-, -, he, -⟩ | ⟨c0, hc0, hlen0, -, -⟩ | ⟨hnil, -, -⟩
            · subst he
              exact hexp _ (List.mem_singleton_self _)
            · exfalso
              rw [hc0] at hall
              have h2 := List.all_eq_true.mp hall c0 (List.mem_singleton_self c0)
              exact hlen0 (by simpa using h2)
            · exact absurd hnil hgrp
          | false =>
            have hf1 := hhead_names1 file hgrp
            rcases processLevel_proj_sel (fun c => c.to_delete) add_to_delete hpl1 file hf1
              with ⟨df, ef, hok, -, -⟩
            rcases processName_spec _ _ _ _ _ _ _ hok with
              ⟨-, hall1, -, -⟩ | ⟨c0, hc0, hlen0, -, -⟩ | ⟨hnil, -, -⟩
            · rw [hall1] at hall
              cases hall
            · exact ⟨[], pn2_leaf hc0 hlen0 (hneed_leaf file c0 hc0 hlen0),
                fun g hg => absurd hg (List.not_mem_nil g)⟩
            · exact absurd hnil hgrp
        · have hnil : children.filter (fun c => childHead c = file) = [] :=
            not_ne_iff.mp hgrp
          by_cases hsdt : sd = true
          · by_cases hig : file ∈ DEFAULT_IGNORE_LIST
            · exact ⟨[], pn2_extraneous hnil (Or.inr hig),
                fun g hg => absurd hg (List.not_mem_nil g)⟩
            · exfalso
              have hfile_ns : file ∈ ns := by
                rw [mem_sortedSet] at hf2
                rcases List.mem_append.mp hf2 with h | h
                · exact h
                · exfalso
                  rcases List.mem_map.mp h with ⟨c, hc, hhead⟩
                  have hmem : c ∈ children.filter (fun c => childHead c = file) :=
                    List.mem_filter.mpr ⟨hc, decide_eq_true hhead⟩
                  rw [hnil] at hmem
                  cases hmem
              have hex2 : existsFS fs' (dir ++ [file]) = true := (hns file).mp hfile_ns
              by_cases hf1 : file ∈ sortedSet (listing ++ children.map childHead)
              · rcases processLevel_proj_sel (fun c => c.to_delete) add_to_delete hpl1
                  file hf1 with ⟨df, ef, hok, -, -⟩
                rcases processName_spec _ _ _ _ _ _ _ hok with
                  ⟨hne0, -, -, -⟩ | ⟨c0, hc0, -, -, -⟩ | ⟨-, -, hcases⟩
                · exact hne0 hnil
                · rw [hnil] at hc0
                  cases hc0
                · rcases hcases with ⟨-, -, hd⟩ | ⟨hcase2, -⟩
                  · subst hd
                    have hqdel : (dir ++ [file]) ∈ cs.to_delete :=
                      hfwd_del file hf1 _ _ hok _ (List.mem_singleton_self _)
                    have hnone : findFS fs' (dir ++ [file]) = none := by
                      refine apply_deleted hap
                        ⟨dir ++ [file], hqdel, by simp, List.prefix_refl _⟩ ?_ ?_ ?_
                      · intro p hp heq
                        rw [← heq] at hp
                        rcases hchar_dir file hp with ⟨df1, ef1, -, hok1, hm1⟩
                        rw [hok] at hok1
                        injection hok1 with hinj
                        injection hinj with hd1 he1
                        subst hd1
                        exact absurd hm1 (List.not_mem_nil _)
                      · intro e he1 heq
                        rcases hchar_upd file e he1 heq.symm with ⟨df1, ef1, -, hok1, hm1⟩
                        rw [hok] at hok1
                        injection hok1 with hinj
                        injection hinj with hd1 he1
                        subst hd1
                        exact absurd hm1 (List.not_mem_nil _)
                      · intro e he1 heq
                        rcases hchar_cre file e he1 heq.symm with ⟨df1, ef1, -, hok1, hm1⟩
                        rw [hok] at hok1
                        injection hok1 with hinj
                        injection hinj with hd1 he1
                        subst hd1
                        exact absurd hm1 (List.not_mem_nil _)
                    unfold existsFS at hex2
                    rw [hnone] at hex2
                    simp at hex2
                  · rcases hcase2 with hsdf | hig2
                    · rw [hsdt] at hsdf
                      cases hsdf
                    · exact hig hig2
              · have hnk := huntouched_absent file hf1
                have hexfs : existsFS fs (dir ++ [file]) = false := by
                  by_cases hexd : existsFS fs dir = true
                  · rw [if_pos hexd] at hl1
                    cases hexq : existsFS fs (dir ++ [file]) with
                    | false => rfl
                    | true =>
                      exfalso
                      apply hf1
                      rw [mem_sortedSet]
                      exact List.mem_append.mpr
                        (Or.inl ((listdirFS_ok_mem hl1 file).mpr hexq))
                  · have hfd : findFS fs dir = none :=
                      findFS_eq_none_of_exists_false (Bool.eq_false_iff.mpr hexd)
                    unfold existsFS
                    rw [findFS_append, hfd, findFS_none]
                    rfl
                rw [(queries_of_nodeKind_eq hnk).1, hexfs] at hex2
                cases hex2
          · have hsdf : sd = false := Bool.eq_false_iff.mpr hsdt
            exact ⟨[], pn2_extraneous hnil (Or.inl hsdf),
              fun g hg => absurd hg (List.not_mem_nil g)⟩
      obtain ⟨explore2, hpl2, hexp2⟩ :=
        processLevel_empty (fun g => g ∈ explore) _ hname2
      have hchildempty : ∀ g ∈ explore2,
          walk_recursive fs' sd fuel (dir ++ [g.1])
            (g.2.map (fun c => { c with parts := c.parts.tail })) = .ok Changeset.empty := by
        intro g hg2
        have hgexp : g ∈ explore := hexp2 g hg2
        rcases (walk_children_proj_sel (fun c => c.to_delete) add_to_delete hwc1).2 g hgexp
          with ⟨dg, hwg, -⟩
        rcases processLevel_mem_explore hpl1 g hgexp with ⟨file0, -, df0, ef0, hok0, hgef0⟩
        rcases (processName_paths hok0).2 g hgef0 with ⟨hgeq, hgne, hgall⟩
        subst hgeq
        refine ih hwg ?_ ?_ ?_ ?_
        · intro c hc
          rcases List.mem_map.mp hc with ⟨c0, hc0, rfl⟩
          have hlen : 1 < c0.parts.length := by
            have h2 := List.all_eq_true.mp hgall c0 hc0
            simpa using h2
          simp only [ne_eq]
          intro htail
          have htail2 : c0.parts.tail = [] := htail
          have h3 : c0.parts.length - 1 = 0 := by
            rw [← List.length_tail, htail2]
            rfl
          omega
        · intro q hq
          rcases hq with ⟨n, rest, hqe⟩
          have hq_dir : ∃ n' rest', q = dir ++ n' :: rest' :=
            ⟨file0, n :: rest, by rw [hqe, List.append_assoc]; rfl⟩
          have hcsr := hcong q hq_dir
          refine ⟨?_, ?_, ?_, ?_⟩
          · exact hcsr.1.trans (walk_child_cone (fun c => c.to_delete) (fun p => p)
              add_to_delete (fun x hx => absurd hx (List.not_mem_nil x))
              (fun c x hx => mem_allPaths_of_to_delete hx) hpl1 hwc1 hexnodup hgexp hwg hqe)
          · exact hcsr.2.1.trans (walk_child_cone (fun c => c.directories_to_create)
              (fun p => p) add_dir (fun x hx => absurd hx (List.not_mem_nil x))
              (fun c x hx => mem_allPaths_of_dir hx) hpl1 hwc1 hexnodup hgexp hwg hqe)
          · intro e hep
            exact (hcsr.2.2.1 e hep).trans (walk_child_cone (fun c => c.files_to_update)
              Entry.path add_update_entry (fun x hx => absurd hx (List.not_mem_nil x))
              (fun c x hx => mem_allPaths_of_update (List.mem_map_of_mem Entry.path hx))
              hpl1 hwc1 hexnodup hgexp hwg (hep.trans hqe))
          · intro e hep
            exact (hcsr.2.2.2 e hep).trans (walk_child_cone (fun c => c.files_to_create)
              Entry.path add_create_entry (fun x hx => absurd hx (List.not_mem_nil x))
              (fun c x hx => mem_allPaths_of_create (List.mem_map_of_mem Entry.path hx))
              hpl1 hwc1 hexnodup hgexp hwg (hep.trans hqe))
        · intro p hp hpre
          rcases prefix_concat_cases hpre with hpd | hpeq
          · exact hnodel p hp hpd
          · subst hpeq
            exact (hneed_dir file0 hgne hgall).2 hp
        · exact Or.inl (hneed_dir file0 hgne hgall).1
      have hif2 : (if existsFS fs' dir then listdirFS fs' dir else .ok []) = .ok ns := by
        rw [if_pos (exists_of_isDir hdirfs')]
        exact hls2
      unfold walk_recursive
      rw [hif2]
      show (match processLevel fs' sd dir children
          (sortedSet (ns ++ children.map childHead)) with
        | Except.error e => (Except.error e : Except PyError Changeset)
        | Except.ok (level, explore) =>
          walk_children (walk_recursive fs' sd fuel) dir explore level) = .ok Changeset.empty
      rw [hpl2]
      show walk_children (walk_recursive fs' sd fuel) dir explore2 Changeset.empty =
        .ok Changeset.empty
      exact walk_children_all_empty explore2 Changeset.empty hchildempty
    · -- the node vanished and nothing is needed below it
      subst hchnil
      have hex2 : existsFS fs' dir = false := by
        unfold existsFS
        rw [hfnone]
        rfl
      unfold walk_recursive
      rw [if_neg (by rw [hex2]; exact Bool.false_ne_true)]
      rfl

/-! ### C2 machinery, part 8: the output root after the apply -/

theorem cs_paths_nonnil {state : List (String × StateEntry)} {sd : Bool}
    {fs : Option FSTree} {cs : Changeset}
    (h1 : compute_changes state sd fs = .ok cs) :
    ∀ p ∈ cs.allPaths, p ≠ [] := by
  unfold compute_changes at h1
  intro p hp
  rcases walk_paths_extend h1 p hp with ⟨n, rest, hshape⟩
  rw [hshape.trans (List.nil_append _)]
  exact List.cons_ne_nil n rest

theorem root_after_apply {state : List (String × StateEntry)} {sd : Bool}
    {fs : Option FSTree} {cs : Changeset} {fs' : Option FSTree}
    (h1 : compute_changes state sd fs = .ok cs)
    (hap : update_files cs fs = .ok fs') :
    isDirFS fs' [] = true ∨ (findFS fs' [] = none ∧
      state.map (fun kv =>
        { parts := pySplitSlash kv.1, content := kv.2.content : Child }) = []) := by
  have hnn : ∀ p ∈ cs.allPaths, p ≠ [] := cs_paths_nonnil h1
  cases hfs : findFS fs [] with
  | some t =>
    cases t with
    | dir es =>
      left
      have hnk : nodeKind (findFS fs' []) = nodeKind (findFS fs []) := by
        refine apply_untouched hap ?_ ?_ ?_ ?_
        · intro p hp hpre
          exact hnn p (mem_allPaths_of_to_delete hp) (List.prefix_nil.mp hpre)
        · intro p hp heq
          exact hnn p (mem_allPaths_of_dir hp) heq.symm
        · intro e he heq
          exact hnn e.path (mem_allPaths_of_update (List.mem_map_of_mem Entry.path he))
            heq.symm
        · intro e he heq
          exact hnn e.path (mem_allPaths_of_create (List.mem_map_of_mem Entry.path he))
            heq.symm
      rw [(queries_of_nodeKind_eq hnk).2.1]
      unfold isDirFS
      rw [hfs]
    | file c =>
      exfalso
      have hex : existsFS fs [] = true := by
        unfold existsFS
        rw [hfs]
        rfl
      have hnd : isDirFS fs [] = false := by
        unfold isDirFS
        rw [hfs]
      unfold compute_changes at h1
      rcases @walk_at_file_errors fs sd [] hex hnd
        (walkFuel (state.map (fun kv =>
          { parts := pySplitSlash kv.1, content := kv.2.content : Child })))
        (state.map (fun kv =>
          { parts := pySplitSlash kv.1, content := kv.2.content : Child })) with ⟨e, he⟩
      rw [he] at h1
      cases h1
  | none =>
    have hfs0 : fs = none := by
      rw [← findFS_nil fs]
      exact hfs
    subst hfs0
    rcases update_files_ok hap with ⟨fs1, fs2, fs3, hd1, hd2, hd3, hd4⟩
    have hdel_nil : cs.to_delete = [] := by
      cases hdl : cs.to_delete with
      | nil => rfl
      | cons p ps =>
        exfalso
        rw [hdl] at hd1
        rcases foldlM_except_ok_cons removePath p ps none _ hd1 with ⟨mid, hstep, -⟩
        rw [removePath_none p] at hstep
        cases hstep
    have hfs1 : fs1 = none := by
      rw [hdel_nil] at hd1
      exact (foldlM_except_nil_ok removePath hd1).symm
    subst hfs1
    have hdir_nil : cs.directories_to_create = [] := by
      cases hdl : cs.directories_to_create with
      | nil => rfl
      | cons p ps =>
        exfalso
        rw [hdl] at hd2
        rcases foldlM_except_ok_cons mkdirFS p ps none _ hd2 with ⟨mid, hstep, -⟩
        have hpne : p ≠ [] := hnn p (mem_allPaths_of_dir (by
          rw [hdl]
          exact List.mem_cons_self p ps))
        rw [mkdirFS_none_error hpne] at hstep
        cases hstep
    have hfs2 : fs2 = none := by
      rw [hdir_nil] at hd2
      exact (foldlM_except_nil_ok mkdirFS hd2).symm
    subst hfs2
    have hupd_nil : cs.files_to_update = [] := by
      cases hdl : cs.files_to_update with
      | nil => rfl
      | cons e0 es0 =>
        exfalso
        rw [hdl] at hd3
        rcases foldlM_except_ok_cons (fun fs e => writeFileFS fs e.path e.content)
          e0 es0 none _ hd3 with ⟨mid, hstep, -⟩
        have hpne : e0.path ≠ [] := hnn e0.path (mem_allPaths_of_update
          (List.mem_map_of_mem Entry.path (by
            rw [hdl]
            exact List.mem_cons_self e0 es0)))
        rw [writeFileFS_none_error e0.content hpne] at hstep
        cases hstep
    have hfs3 : fs3 = none := by
      rw [hupd_nil] at hd3
      exact (foldlM_except_nil_ok
        (fun (fs : Option FSTree) (e : Entry) => writeFileFS fs e.path e.content) hd3).symm
    subst hfs3
    have hcre_nil : cs.files_to_create = [] := by
      cases hdl : cs.files_to_create with
      | nil => rfl
      | cons e0 es0 =>
        exfalso
        rw [hdl] at hd4
        rcases foldlM_except_ok_cons (fun fs e => writeFileFS fs e.path e.content)
          e0 es0 none _ hd4 with ⟨mid, hstep, -⟩
        have hpne : e0.path ≠ [] := hnn e0.path (mem_allPaths_of_create
          (List.mem_map_of_mem Entry.path (by
            rw [hdl]
            exact List.mem_cons_self e0 es0)))
        rw [writeFileFS_none_error e0.content hpne] at hstep
        cases hstep
    have hfs4 : fs' = none := by
      rw [hcre_nil] at hd4
      exact (foldlM_except_nil_ok
        (fun (fs : Option FSTree) (e : Entry) => writeFileFS fs e.path e.content) hd4).symm
    subst hfs4
    right
    refine ⟨findFS_nil none, ?_⟩
    cases hch : state.map (fun kv =>
        { parts := pySplitSlash kv.1, content := kv.2.content : Child }) with
    | nil => rfl
    | cons c0 cl =>
      exfalso
      unfold compute_changes walkFuel at h1
      rcases walk_ok_succ h1 with ⟨listing, level, explore, hl1, hpl1, hwc1⟩
      have hc0mem : c0 ∈ state.map (fun kv =>
          { parts := pySplitSlash kv.1, content := kv.2.content : Child }) := by
        rw [hch]
        exact List.mem_cons_self c0 cl
      have hf1 : childHead c0 ∈ sortedSet (listing ++ (state.map (fun kv =>
          { parts := pySplitSlash kv.1, content := kv.2.content : Child })).map
            childHead) := by
        rw [mem_sortedSet]
        exact List.mem_append.mpr (Or.inr (List.mem_map.mpr ⟨c0, hc0mem, rfl⟩))
      rcases processLevel_proj_sel (fun c => c.directories_to_create) add_dir hpl1 _ hf1
        with ⟨df, ef, hok, hsubd, -⟩
      rcases processLevel_proj_sel (fun c => c.files_to_create) add_create_entry hpl1 _ hf1
        with ⟨df2, ef2, hok2, hsubc, -⟩
      rw [hok] at hok2
      injection hok2 with hinj
      injection hinj with hdeq heeq
      subst hdeq
      have hexf : existsFS (none : Option FSTree) ([] ++ [childHead c0]) = false := by
        unfold existsFS
        rw [findFS_none]
        rfl
      rcases processName_spec _ _ _ _ _ _ _ hok with
        ⟨-, -, -, hcases⟩ | ⟨c1, hc1, -, -, hcases⟩ | ⟨hnil2, -, -⟩
      · rcases hcases with ⟨-, hd⟩ | ⟨hex, -, -, -⟩ | ⟨hisdir, -⟩
        · subst hd
          have hlev : ([] ++ [childHead c0]) ∈ level.directories_to_create :=
            hsubd _ (List.mem_singleton_self _)
          have hcs : ([] ++ [childHead c0]) ∈ cs.directories_to_create :=
            (walk_children_proj_sel (fun c => c.directories_to_create) add_dir hwc1).1 _ hlev
          rw [hdir_nil] at hcs
          cases hcs
        · rw [hexf] at hex
          cases hex
        · rw [isDirFS_none] at hisdir
          cases hisdir
      · rcases hcases with ⟨-, hd⟩ | ⟨hcon, -⟩ | ⟨cur, hcon, -, -⟩ | ⟨hex, -, -, -⟩
        · subst hd
          have hlev : (⟨[] ++ [childHead c0], c1.content⟩ : Entry) ∈ level.files_to_create :=
            hsubc _ (List.mem_singleton_self _)
          have hcs : (⟨[] ++ [childHead c0], c1.content⟩ : Entry) ∈ cs.files_to_create :=
            (walk_children_proj_sel (fun c => c.files_to_create) add_create_entry hwc1).1
              _ hlev
          rw [hcre_nil] at hcs
          cases hcs
        · have hnone : fileContentFS (none : Option FSTree) ([] ++ [childHead c0]) = none := by
            unfold fileContentFS
            rw [findFS_none]
          rw [hnone] at hcon
          cases hcon
        · have hnone : fileContentFS (none : Option FSTree) ([] ++ [childHead c0]) = none := by
            unfold fileContentFS
            rw [findFS_none]
          rw [hnone] at hcon
          cases hcon
        · rw [hexf] at hex
          cases hex
      · have hcf : c0 ∈ (state.map (fun kv =>
            { parts := pySplitSlash kv.1, content := kv.2.content : Child })).filter
              (fun c => childHead c = childHead c0) :=
          List.mem_filter.mpr ⟨hc0mem, by simp⟩
        rw [hnil2] at hcf
        cases hcf

/-! ### C2 machinery, part 9: an up-to-date leaf contributes nothing -/

theorem walk_leaf_equal {fs : Option FSTree} {sd : Bool} :
    ∀ {fuel : Nat} {dir : List String} {children : List Child} {r : Changeset},
      walk_recursive fs sd fuel dir children = .ok r →
      ∀ c ∈ children, c.parts ≠ [] →
        fileContentFS fs (dir ++ c.parts) = some c.content →
        (dir ++ c.parts) ∉ r.allPaths := by
  intro fuel
  induction fuel with
  | zero =>
    intro dir children r h
    simp [walk_recursive] at h
  | succ fuel ih =>
    intro dir children r h c hc hcne hcon hmem
    rcases walk_ok_succ h with ⟨listing, level, explore, hl, hpl, hwc⟩
    have hexnodup : (explore.map Prod.fst).Nodup :=
      (processLevel_explore_names hpl).nodup (nodup_sortedSet _)
    have hcf : c ∈ children.filter (fun ch => childHead ch = childHead c) :=
      List.mem_filter.mpr ⟨hc, by simp⟩
    have hshape := grp_parts_shape hcne hcf
    by_cases hlen : 1 < c.parts.length
    · -- a deep leaf lives in the cone of this name's explored child
      have hf1 : childHead c ∈ sortedSet (listing ++ children.map childHead) := by
        rw [mem_sortedSet]
        exact List.mem_append.mpr (Or.inr (List.mem_map.mpr ⟨c, hc, rfl⟩))
      rcases processLevel_proj_sel (fun cs0 => cs0.to_delete) add_to_delete hpl _ hf1 with
        ⟨df, ef, hok, -, hexp⟩
      rcases processName_spec _ _ _ _ _ _ _ hok with
        ⟨-, -, he, -⟩ | ⟨c1, hc1, hlen1, -, -⟩ | ⟨hnil, -, -⟩
      · subst he
        have hgexp : (childHead c, children.filter (fun ch => childHead ch = childHead c)) ∈
            explore := hexp _ (List.mem_singleton_self _)
        rcases (walk_children_proj_sel (fun cs0 => cs0.to_delete) add_to_delete hwc).2
          _ hgexp with ⟨dg, hwg, -⟩
        have htne : c.parts.tail ≠ [] := by
          intro ht
          rw [hshape, ht] at hlen
          simp at hlen
        cases ht : c.parts.tail with
        | nil => exact htne ht
        | cons tn ttl =>
          have hpath : dir ++ c.parts = (dir ++ [childHead c]) ++ tn :: ttl := by
            conv_lhs => rw [hshape, ht]
            rw [List.append_assoc]
            rfl
          have hcone := walk_child_cone Changeset.allPaths (fun p => p)
            Changeset.allPaths_append
            (fun x hx => by simp [Changeset.allPaths_empty] at hx)
            (fun c0 x hx => hx) hpl hwc hexnodup hgexp hwg hpath
          have hmem_dg : (dir ++ c.parts) ∈ dg.allPaths := hcone.mp hmem
          have hcadv : ({ parts := c.parts.tail, content := c.content : Child }) ∈
              (children.filter (fun ch => childHead ch = childHead c)).map
                (fun ch => { parts := ch.parts.tail, content := ch.content : Child }) :=
            List.mem_map.mpr ⟨c, hcf, rfl⟩
          have hpath2 : dir ++ c.parts = (dir ++ [childHead c]) ++ c.parts.tail := by
            rw [ht]
            exact hpath
          have hcon' : fileContentFS fs ((dir ++ [childHead c]) ++ c.parts.tail) =
              some c.content := by
            rw [← hpath2]
            exact hcon
          have hmem2 : ((dir ++ [childHead c]) ++ c.parts.tail) ∈ dg.allPaths := by
            rw [← hpath2]
            exact hmem_dg
          exact ih hwg _ hcadv htne hcon' hmem2
      · exfalso
        rw [hc1] at hcf
        have hceq := List.mem_singleton.mp hcf
        rw [hceq] at hlen
        exact hlen1 hlen
      · exfalso
        rw [hnil] at hcf
        cases hcf
    · -- a shallow leaf: the level handles exactly this name, and it is a no-op
      have hparts : c.parts = [childHead c] := grp_single_parts hcne hcf hlen
      rcases walk_children_mem_sel Changeset.allPaths Changeset.allPaths_append hwc _ hmem
        with hlev | ⟨g, hg, dg, hw, hm⟩
      · rcases processLevel_mem_sel Changeset.allPaths Changeset.allPaths_append
          (fun x hx => by simp [Changeset.allPaths_empty] at hx) hpl _ hlev with
          ⟨m, hmn, dm, em, hokm, hxm⟩
        have hpm := (processName_paths hokm).1 _ hxm
        rw [hparts] at hpm
        have hmeq : m = childHead c := (append_single_inj hpm).symm
        subst hmeq
        rcases processName_spec _ _ _ _ _ _ _ hokm with
          ⟨-, hall1, -, -⟩ | ⟨c1, hc1, hlen1, -, hcases⟩ | ⟨hnil, -, -⟩
        · exact hlen (by simpa using List.all_eq_true.mp hall1 c hcf)
        · rw [hc1] at hcf
          have hceq := List.mem_singleton.mp hcf
          subst hceq
          rcases hcases with ⟨hex, -⟩ | ⟨-, hd⟩ | ⟨cur, hcur, hnec, -⟩ | ⟨-, hnf, -, -⟩
          · have hext : existsFS fs (dir ++ [childHead c]) = true := by
              rw [← hparts]
              exact exists_of_isFile (isFile_of_fileContent hcon)
            rw [hext] at hex
            cases hex
          · subst hd
            simp [Changeset.allPaths_empty] at hxm
          · have hcon2 : fileContentFS fs (dir ++ [childHead c]) = some c.content := by
              rw [← hparts]
              exact hcon
            rw [hcon2] at hcur
            injection hcur with h5
            exact hnec h5.symm
          · have hisf : isFileFS fs (dir ++ [childHead c]) = true := by
              rw [← hparts]
              exact isFile_of_fileContent hcon
            rw [hisf] at hnf
            cases hnf
        · rw [hnil] at hcf
          cases hcf
      · rcases walk_paths_extend hw _ hm with ⟨n, rest, hshape2⟩
        rw [hparts] at hshape2
        rw [List.append_assoc, List.singleton_append] at hshape2
        have h2 := List.append_cancel_left hshape2
        injection h2 with h3 h4
        cases h4

/-- C2: running reconciliation twice against the same target mapping — the
second run performed on the filesystem state produced by successfully
applying the first run's changeset, with no interleaving filesystem change —
yields the empty changeset the second time (all four lists empty); in
particular, a needed leaf whose on-disk file content equals the target
content byte-for-byte produces no changeset entry. -/
theorem C2_idempotence (state : List (String × StateEntry)) (sd : Bool)
    (fs : Option FSTree) (cs : Changeset) (fs' : Option FSTree)
    (h1 : compute_changes state sd fs = .ok cs)
    (h2 : update_files cs fs = .ok fs') :
    compute_changes state sd fs' = .ok Changeset.empty ∧
    (∀ path e, (path, e) ∈ state →
      fileContentFS fs (pySplitSlash path) = some e.content →
      pySplitSlash path ∉ cs.allPaths) := by
  constructor
  · have hroot := root_after_apply h1 h2
    have hnodel : ∀ p ∈ cs.to_delete, ¬ p <+: ([] : List String) := by
      intro p hp hpre
      exact cs_paths_nonnil h1 p (mem_allPaths_of_to_delete hp) (List.prefix_nil.mp hpre)
    unfold compute_changes at h1 ⊢
    exact walk2_empty h2 h1
      (fun c hc => by
        rcases List.mem_map.mp hc with ⟨kv, -, rfl⟩
        exact pySplitSlash_ne_nil kv.1)
      (fun q hq => ⟨Iff.rfl, Iff.rfl, fun e _ => Iff.rfl, fun e _ => Iff.rfl⟩)
      hnodel hroot
  · intro path e hmem hcon hin
    unfold compute_changes at h1
    exact walk_leaf_equal h1 _ (List.mem_map.mpr ⟨(path, e), hmem, rfl⟩)
      (pySplitSlash_ne_nil path) hcon hin

/-- Witness for C2: a one-file target against an empty root directory — the
first run schedules the file creation, the apply writes it, and the second
run returns the empty changeset. -/
theorem C2_witness :
    compute_changes [("a", (⟨"X", "d"⟩ : StateEntry))] true (some (FSTree.dir [])) =
      .ok ⟨[], [], [⟨["a"], "X"⟩], []⟩ ∧
    update_files ⟨[], [], [⟨["a"], "X"⟩], []⟩ (some (FSTree.dir [])) =
      .ok (some (FSTree.dir [("a", FSTree.file "X")])) ∧
    (compute_changes [("a", (⟨"X", "d"⟩ : StateEntry))] true
        (some (FSTree.dir [("a", FSTree.file "X")])) = .ok Changeset.empty ∧
     (∀ path e, (path, e) ∈ [("a", (⟨"X", "d"⟩ : StateEntry))] →
        fileContentFS (some (FSTree.dir [])) (pySplitSlash path) = some e.content →
        pySplitSlash path ∉ Changeset.allPaths ⟨[], [], [⟨["a"], "X"⟩], []⟩)) :=
  ⟨rfl, rfl, C2_idempotence _ true _ _ _ rfl rfl⟩

end GitCodeGolf
